import Mathlib

/-!
# A shallow embedding of `BitArray` (src/src/bitarray.cpp, src/src/bitarray.h)

Conventions of the embedding.

* `size_t` is the 64-bit unsigned type: values are natural numbers below `2 ^ 64`, and every
  addition or subtraction the source performs in `size_t` is written with an explicit
  `% 2 ^ 64`.
* `uint8_t` is a natural number below `256`; every store into the byte vector is written with
  an explicit `% 256`.  Operands of `|`, `&`, `^`, `~`, `<<` are promoted to the 32-bit `int`,
  whose bit pattern is a natural number below `2 ^ 32`.
* `std::vector<uint8_t>` is `List Nat`, `std::string` is `List Char`.
* A member function that can throw returns an `Except Error _`; a non-`const` member function
  returns the outcome together with the object state it leaves behind, so that what a failing
  call has already written stays visible.
* `data[i]` with `i` outside the vector is undefined behaviour in C++; the embedding reports it
  as `Error.outOfBounds` instead of giving it a meaning.
* The global map `bitArrayInstances` of src/src/binding.cpp is a function from keys to
  instances.  A call of the binding that passes two keys reaches one object twice when the
  keys are equal; the member function then runs with `other` being the receiver.
-/

namespace BitArrayNode

/-- The value `std::string::npos`, which is also `static_cast<size_t>(-1)`. -/
def npos : Nat := 2 ^ 64 - 1

/-- What a call can end with instead of a result. -/
inductive Error where
  /-- `std::runtime_error("Storage is disposed")`, thrown by `validate`. -/
  | disposed
  /-- `std::out_of_range("Invalid position: " + std::to_string(pos))`, thrown by `validate`. -/
  | outOfRange (pos : Nat)
  /-- `std::invalid_argument("Size mismatch")`, thrown by `bitwiseOp`. -/
  | sizeMismatch
  /-- `std::invalid_argument`, thrown by `std::stoull` / `std::stoul`: no digits to convert. -/
  | stoInvalid
  /-- `std::out_of_range`, thrown by `std::stoull` / `std::stoul`: value not representable. -/
  | stoRange
  /-- `std::out_of_range`, thrown by `std::string::substr`: start beyond the end. -/
  | substrRange
  /-- `std::length_error`, thrown by `std::vector::reserve` beyond `max_size()`. -/
  | lengthError
  /-- Not an exception: `operator[]` of a vector applied outside its bounds. -/
  | outOfBounds
  /-- Not an exception: a loop of the embedding used up its iteration budget. -/
  | outOfFuel
  deriving DecidableEq, Repr

deriving instance DecidableEq for Except

/-- The private members of `class BitArray`. -/
structure BitArray where
  /-- `std::vector<uint8_t> data` -/
  data : List Nat
  /-- `size_t bits` -/
  bits : Nat
  /-- `bool disposed` -/
  disposed : Bool
  deriving DecidableEq, Repr

/-- The values the C++ types admit: `bits` and `data.size()` are `size_t`, every element of
`data` is a `uint8_t`. -/
def WellTyped (s : BitArray) : Prop :=
  s.bits < 2 ^ 64 ∧ s.data.length < 2 ^ 64 ∧ ∀ b ∈ s.data, b < 256

instance (s : BitArray) : Decidable (WellTyped s) := by
  unfold WellTyped; infer_instance

/-- The storage-length invariant of the specification, `storage.length == ceil(bitCount / 8)`. -/
def StorageInv (s : BitArray) : Prop :=
  s.data.length = (s.bits + 7) / 8

instance (s : BitArray) : Decidable (StorageInv s) := by
  unfold StorageInv; infer_instance

/-- The operator `~` on a promoted `int`, as a 32-bit pattern. -/
def intNot (x : Nat) : Nat := 2 ^ 32 - 1 - x % 2 ^ 32

/-- The constructor `BitArray::BitArray(size_t size)`: `data.resize((size + 7) / 8, 0)`. -/
def create (size : Nat) : BitArray :=
  { data := List.replicate ((size + 7) % 2 ^ 64 / 8) 0, bits := size, disposed := false }

/-- `BitArray::dispose`. -/
def dispose (_s : BitArray) : BitArray :=
  { data := [], bits := 0, disposed := true }

/-- `BitArray::validate`. -/
def validate (s : BitArray) (pos : Nat) : Except Error Unit :=
  if s.disposed then .error .disposed
  else if pos ≥ s.bits then .error (.outOfRange pos)
  else .ok ()

/-- `BitArray::getPos`. -/
def getPos (pos : Nat) : Nat × Nat := (pos / 8, pos % 8)

/-- `BitArray::set`. -/
def set (s : BitArray) (pos : Nat) (value : Bool) : Except Error Unit × BitArray :=
  match validate s pos with
  | .error e => (.error e, s)
  | .ok _ =>
    let index := (getPos pos).1
    let offset := (getPos pos).2
    match s.data[index]? with
    | none => (.error .outOfBounds, s)
    | some b =>
      if value then
        (.ok (), { s with data := s.data.set index ((b ||| (1 <<< offset)) % 256) })
      else
        (.ok (), { s with data := s.data.set index ((b &&& intNot (1 <<< offset)) % 256) })

/-- `BitArray::get`. -/
def get (s : BitArray) (pos : Nat) : Except Error Bool :=
  match validate s pos with
  | .error e => .error e
  | .ok _ =>
    let index := (getPos pos).1
    let offset := (getPos pos).2
    match s.data[index]? with
    | none => .error .outOfBounds
    | some b => .ok (decide ((b &&& (1 <<< offset)) ≠ 0))

/-- `BitArray::resize`. -/
def resize (s : BitArray) (newSize : Nat) : Except Error Unit × BitArray :=
  match validate s 0 with
  | .error e => (.error e, s)
  | .ok _ =>
    let newData := List.replicate ((newSize + 7) % 2 ^ 64 / 8) 0
    let n := min s.data.length newData.length
    (.ok (), { s with data := s.data.take n ++ newData.drop n, bits := newSize })

/-- The `for` loop of `BitArray::bitwiseOp`: `n` iterations are left, `i` is the loop index. -/
def bitwiseOpLoop (op : Nat → Nat → Nat) (other : List Nat) :
    Nat → Nat → List Nat → Except Error Unit × List Nat
  | 0, _, data => (.ok (), data)
  | n + 1, i, data =>
    match data[i]?, other[i]? with
    | some a, some b => bitwiseOpLoop op other n (i + 1) (data.set i (op a b % 256))
    | _, _ => (.error .outOfBounds, data)

/-- `BitArray::bitwiseOp`. -/
def bitwiseOp (s other : BitArray) (op : Nat → Nat → Nat) : Except Error Unit × BitArray :=
  if s.bits ≠ other.bits then (.error .sizeMismatch, s)
  else
    let r := bitwiseOpLoop op other.data s.data.length 0 s.data
    (r.1, { s with data := r.2 })

/-- `BitArray::bitwiseAnd`. -/
def bitwiseAnd (s other : BitArray) : Except Error Unit × BitArray :=
  bitwiseOp s other (fun a b => a &&& b)

/-- `BitArray::bitwiseOr`. -/
def bitwiseOr (s other : BitArray) : Except Error Unit × BitArray :=
  bitwiseOp s other (fun a b => a ||| b)

/-- `BitArray::bitwiseXor`. -/
def bitwiseXor (s other : BitArray) : Except Error Unit × BitArray :=
  bitwiseOp s other (fun a b => a ^^^ b)

/-- `BitArray::bitwiseNot`. -/
def bitwiseNot (s : BitArray) : Except Error Unit × BitArray :=
  let data := s.data.map (fun b => intNot b % 256)
  let lastByteBits := s.bits % 8
  if lastByteBits > 0 then
    let last := (data.length + 2 ^ 64 - 1) % 2 ^ 64
    match data[last]? with
    | none => (.error .outOfBounds, { s with data := data })
    | some b =>
      (.ok (), { s with data := data.set last ((b &&& ((1 <<< lastByteBits) - 1)) % 256) })
  else (.ok (), { s with data := data })

/-- `BitArray::setBatch`. -/
def setBatch (s : BitArray) : List Nat → Bool → Except Error Unit × BitArray
  | [], _ => (.ok (), s)
  | pos :: rest, value =>
    match set s pos value with
    | (.ok _, s') => setBatch s' rest value
    | (.error e, s') => (.error e, s')

/-- The loop of `BitArray::getBatch`, `result` being what was pushed so far. -/
def getBatchLoop (s : BitArray) : List Nat → List Bool → Except Error (List Bool)
  | [], result => .ok result
  | pos :: rest, result =>
    match get s pos with
    | .ok b => getBatchLoop s rest (result ++ [b])
    | .error e => .error e

/-- `BitArray::getBatch`. -/
def getBatch (s : BitArray) (positions : List Nat) : Except Error (List Bool) :=
  getBatchLoop s positions []

/-- The loop `for (size_t i = min; i <= max; ++i) set(i, value)` with an iteration budget. -/
def setRangeLoop (value : Bool) (max : Nat) : Nat → Nat → BitArray → Except Error Unit × BitArray
  | fuel, i, s =>
    if i ≤ max then
      match fuel with
      | 0 => (.error .outOfFuel, s)
      | fuel + 1 =>
        match set s i value with
        | (.ok _, s') => setRangeLoop value max fuel ((i + 1) % 2 ^ 64) s'
        | (.error e, s') => (.error e, s')
    else (.ok (), s)

/-- `BitArray::setRange`; the loop runs at most `max - min + 1` times. -/
def setRange (s : BitArray) (min max : Nat) (value : Bool) : Except Error Unit × BitArray :=
  match validate s min with
  | .error e => (.error e, s)
  | .ok _ =>
    match validate s max with
    | .error e => (.error e, s)
    | .ok _ => setRangeLoop value max (max + 1 - min) min s

/-- The loop `for (size_t i = min; i <= max; ++i) result.push_back(get(i))`. -/
def getRangeLoop (s : BitArray) (max : Nat) : Nat → Nat → List Bool → Except Error (List Bool)
  | fuel, i, result =>
    if i ≤ max then
      match fuel with
      | 0 => .error .outOfFuel
      | fuel + 1 =>
        match get s i with
        | .ok b => getRangeLoop s max fuel ((i + 1) % 2 ^ 64) (result ++ [b])
        | .error e => .error e
    else .ok result

/-- `std::vector<bool>::max_size()`, the largest size `reserve` accepts: the value of the
64-bit libstdc++, `PTRDIFF_MAX - 64 + 1`.  No implementation has one above `PTRDIFF_MAX`. -/
def vectorBoolMaxSize : Nat := 2 ^ 63 - 64

/-- `BitArray::getRange`; `result.reserve(max - min + 1)` computes its argument in `size_t`
and throws when it exceeds `max_size()`. -/
def getRange (s : BitArray) (min max : Nat) : Except Error (List Bool) :=
  match validate s min with
  | .error e => .error e
  | .ok _ =>
    match validate s max with
    | .error e => .error e
    | .ok _ =>
      if ((max + 2 ^ 64 - min) % 2 ^ 64 + 1) % 2 ^ 64 > vectorBoolMaxSize then
        .error .lengthError
      else getRangeLoop s max (max + 1 - min) min []

/-- The loop of `BitArray::findFirst`: `n` iterations are left, `i` is the loop index. -/
def findFirstLoop (s : BitArray) : Nat → Nat → Except Error Nat
  | 0, _ => .ok npos
  | n + 1, i =>
    match get s i with
    | .ok true => .ok i
    | .ok false => findFirstLoop s n (i + 1)
    | .error e => .error e

/-- `BitArray::findFirst`. -/
def findFirst (s : BitArray) : Except Error Nat :=
  findFirstLoop s s.bits 0

/-- The inner `while (byte)` loop of `BitArray::countSetBits`; a byte loses a bit per
iteration, so `byte` iterations always suffice. -/
def countByteLoop : Nat → Nat → Nat → Nat
  | 0, _, count => count
  | fuel + 1, byte, count =>
    if byte ≠ 0 then countByteLoop fuel (byte >>> 1) ((count + (byte &&& 1)) % 2 ^ 64)
    else count

/-- `BitArray::countSetBits`. -/
def countSetBits (s : BitArray) : Nat :=
  s.data.foldl (fun count byte => countByteLoop byte byte count) 0

/-- `BitArray::countBytesUsed`. -/
def countBytesUsed (s : BitArray) : Nat :=
  s.data.countP (fun byte => decide (byte ≠ 0))

/-- `BitArray::getSize`. -/
def getSize (s : BitArray) : Nat := s.bits

/-! ### Text: `std::string`, `std::ostringstream`, `std::stoull` -/

/-- What `operator<<` writes for an unsigned integer (and for a non-negative `int`): its
decimal digits. -/
def decimal (n : Nat) : List Char := Nat.toDigits 10 n

/-- The search of `std::string::find`: `s` is what is left of the string from index `i` on. -/
def findFrom (pat : List Char) : List Char → Nat → Option Nat
  | [], i => if pat.isPrefixOf [] then some i else none
  | c :: t, i => if pat.isPrefixOf (c :: t) then some i else findFrom pat t (i + 1)

/-- `std::string::find(pat, start)`: the least index `≥ start` at which `pat` occurs, or
`npos`. -/
def find (s pat : List Char) (start : Nat) : Nat :=
  if start > s.length then npos else (findFrom pat (s.drop start) start).getD npos

/-- `std::string::substr(pos, len)`. -/
def substr (s : List Char) (pos len : Nat) : Except Error (List Char) :=
  if pos > s.length then .error .substrRange else .ok ((s.drop pos).take len)

/-- `isspace` in the "C" locale: space, and `\t \n \v \f \r` (codes 9 to 13). -/
def isSpace (c : Char) : Bool := c.toNat = 32 || (9 ≤ c.toNat && c.toNat ≤ 13)

/-- The value of a run of decimal digits. -/
def digitsValue (ds : List Char) : Nat :=
  ds.foldl (fun acc c => acc * 10 + (c.toNat - 48)) 0

/-- `std::stoull(str)` (base 10, as `strtoull` converts): leading white space is skipped, a
sign is accepted, the longest run of digits is converted and what follows it is ignored; a
minus sign negates the value in the unsigned type. -/
def stoull (str : List Char) : Except Error Nat :=
  let s1 := str.dropWhile isSpace
  let neg := decide (s1.head? = some '-')
  let s2 := match s1 with
    | c :: t => if c = '-' ∨ c = '+' then t else s1
    | [] => []
  let ds := s2.takeWhile Char.isDigit
  if ds.isEmpty then .error .stoInvalid
  else if digitsValue ds ≥ 2 ^ 64 then .error .stoRange
  else .ok (if neg then (2 ^ 64 - digitsValue ds) % 2 ^ 64 else digitsValue ds)

/-- `std::stoul(str)`; `unsigned long` is the 64-bit type here, as `size_t` is. -/
def stoul (str : List Char) : Except Error Nat := stoull str

/-- The `for` loop of `BitArray::serialize`: `n` iterations are left, `i` is the loop index,
`oss` is what the stream holds. -/
def serializeLoop (data : List Nat) : Nat → Nat → List Char → Except Error (List Char)
  | 0, _, oss => .ok oss
  | n + 1, i, oss =>
    match data[i]? with
    | none => .error .outOfBounds
    | some b =>
      let oss1 := oss ++ decimal b
      let oss2 := if i < (data.length + 2 ^ 64 - 1) % 2 ^ 64 then oss1 ++ ",".toList else oss1
      serializeLoop data n (i + 1) oss2

/-- `BitArray::serialize`.  The loop index stays below `data.size()`, so the stream is always
returned (`serialize_eq` below). -/
def serialize (s : BitArray) : Except Error (List Char) :=
  match serializeLoop s.data s.data.length 0 ("\x7b\"bits\":".toList ++ decimal s.bits ++
      ",\"data\":[".toList) with
  | .error e => .error e
  | .ok oss => .ok (oss ++ "]\x7d".toList)

/-- The `while (pos < dataStr.size())` loop of `BitArray::deserialize`.  Every iteration moves
`pos` forward, so `dataStr.size()` iterations suffice. -/
def parseLoop (dataStr : List Char) : Nat → Nat → List Nat → Except Error (List Nat)
  | fuel, pos, dataVec =>
    if pos < dataStr.length then
      match fuel with
      | 0 => .error .outOfFuel
      | fuel + 1 =>
        let found := find dataStr ",".toList pos
        let commaPos := if found = npos then dataStr.length else found
        match substr dataStr pos ((commaPos + 2 ^ 64 - pos) % 2 ^ 64) with
        | .error e => .error e
        | .ok str =>
          match stoul str with
          | .error e => .error e
          | .ok v => parseLoop dataStr fuel ((commaPos + 1) % 2 ^ 64) (dataVec ++ [v % 256])
    else .ok dataVec

/-- `BitArray::deserialize`. -/
def deserialize (serialized : List Char) : Except Error BitArray :=
  let bitsStart := (find serialized "\"bits\":".toList 0 + 7) % 2 ^ 64
  let bitsEnd := find serialized ",".toList bitsStart
  match substr serialized bitsStart ((bitsEnd + 2 ^ 64 - bitsStart) % 2 ^ 64) with
  | .error e => .error e
  | .ok bitsStr =>
    match stoull bitsStr with
    | .error e => .error e
    | .ok bits =>
      let dataStart := (find serialized "\"data\":[".toList 0 + 8) % 2 ^ 64
      let dataEnd := find serialized "]".toList dataStart
      match substr serialized dataStart ((dataEnd + 2 ^ 64 - dataStart) % 2 ^ 64) with
      | .error e => .error e
      | .ok dataStr =>
        match parseLoop dataStr dataStr.length 0 [] with
        | .error e => .error e
        | .ok dataVec => .ok { create bits with data := dataVec }

/-! ### Auxiliary definitions used in the statements -/

/-- The byte `set` stores for the old byte `b`, bit offset `off` and value `v`. -/
def setByte (b off : Nat) (v : Bool) : Nat :=
  if v then (b ||| (1 <<< off)) % 256 else (b &&& intNot (1 <<< off)) % 256

/-- The text `serialize` writes between the brackets: the bytes in decimal, separated by
single commas. -/
def dataText : List Nat → List Char
  | [] => []
  | [b] => decimal b
  | b :: c :: rest => decimal b ++ ',' :: dataText (c :: rest)

/-- The text `serialize` writes before the bit count: an opening brace, then `"bits":`. -/
def bitsKey : List Char :=
  [Char.ofNat 123, Char.ofNat 34, 'b', 'i', 't', 's', Char.ofNat 34, ':']

/-- The text `serialize` writes between the bit count and the bytes: `,"data":[`. -/
def dataKey : List Char :=
  [',', Char.ofNat 34, 'd', 'a', 't', 'a', Char.ofNat 34, ':', '[']

/-- The text `serialize` writes last: a closing bracket and a closing brace. -/
def closing : List Char := [']', Char.ofNat 125]

/-- The bit the storage holds at logical position `i`, read the way `get` reads it: bit
`i % 8` of byte `i / 8` (a byte the storage does not have holds no bit). -/
def storageBit (data : List Nat) (i : Nat) : Bool :=
  (data.getD (i / 8) 0).testBit (i % 8)

/-- A live vector of at most `2^64 - 8` bits whose storage has `ceil(bits / 8)` bytes and
holds no set bit at a position `>= bits`. -/
def CleanInv (s : BitArray) : Prop :=
  s.disposed = false ∧ s.bits ≤ 2 ^ 64 - 8 ∧ StorageInv s ∧
    ∀ i, s.bits ≤ i → storageBit s.data i = false

/-- The vectors reached from `create(n)`, `n <= 2^64 - 8`, by the public mutating operations
`set`, `setBatch`, `setRange`, `bitwiseAnd/Or/Xor` (against a vector reached the same way),
`bitwiseNot` and `resize`, where no `resize` shrinks or asks for more than `2^64 - 8` bits.
Each step is the state the call leaves, whether it succeeded or threw. -/
inductive ReachableNoShrink : BitArray → Prop where
  | create (n : Nat) (hn : n ≤ 2 ^ 64 - 8) : ReachableNoShrink (create n)
  | set (s : BitArray) (pos : Nat) (v : Bool) :
      ReachableNoShrink s → ReachableNoShrink (set s pos v).2
  | setBatch (s : BitArray) (positions : List Nat) (v : Bool) :
      ReachableNoShrink s → ReachableNoShrink (setBatch s positions v).2
  | setRange (s : BitArray) (min max : Nat) (v : Bool) :
      ReachableNoShrink s → ReachableNoShrink (setRange s min max v).2
  | resize (s : BitArray) (newSize : Nat) :
      ReachableNoShrink s → s.bits ≤ newSize → newSize ≤ 2 ^ 64 - 8 →
      ReachableNoShrink (resize s newSize).2
  | bitwiseAnd (s other : BitArray) :
      ReachableNoShrink s → ReachableNoShrink other → ReachableNoShrink (bitwiseAnd s other).2
  | bitwiseOr (s other : BitArray) :
      ReachableNoShrink s → ReachableNoShrink other → ReachableNoShrink (bitwiseOr s other).2
  | bitwiseXor (s other : BitArray) :
      ReachableNoShrink s → ReachableNoShrink other → ReachableNoShrink (bitwiseXor s other).2
  | bitwiseNot (s : BitArray) :
      ReachableNoShrink s → ReachableNoShrink (bitwiseNot s).2

/-- The text the specification gives for a vector of `N` bits with bytes `b0 .. bk-1`:
`{"bits":N,"data":[b0,b1,...,bk-1]}`, every number a plain decimal integer, the bytes
separated by single commas, no white space. -/
def specText (N : Nat) (bytes : List Nat) : List Char :=
  "\x7b\"bits\":".toList ++ (toString N).toList ++ ",\"data\":[".toList ++
    (",".intercalate (bytes.map toString)).toList ++ "]\x7d".toList

/-- The number of set bits among the eight bits of a byte. -/
def popCount8 (b : Nat) : Nat :=
  ((List.range 8).filter (fun j => b.testBit j)).length

/-- The number of set bits in the whole storage. -/
def storageWeight (data : List Nat) : Nat :=
  (data.map popCount8).sum

/-- The trailing-bits-zero invariant of the specification: when `bits % 8 != 0`, every bit of
the last storage byte at offset `>= bits % 8` is 0. -/
def TrailingZero (s : BitArray) : Prop :=
  s.bits % 8 ≠ 0 →
    ∀ b ∈ s.data.getLast?, ∀ off, off < 8 → s.bits % 8 ≤ off → b.testBit off = false

instance (s : BitArray) : Decidable (TrailingZero s) := by
  unfold TrailingZero; infer_instance

/-- No bit of the storage at a logical position `>= bits` is set. -/
def NoBitBeyond (s : BitArray) : Prop :=
  ∀ i, s.bits ≤ i → storageBit s.data i = false

/-- Texts joined by single commas, as the elements of the byte list are. -/
def joinCommas : List (List Char) → List Char
  | [] => []
  | [e] => e
  | e :: f :: rest => e ++ ',' :: joinCommas (f :: rest)

/-! ## The instance map of binding.cpp -/

/-- The `for` loop of `BitArray::bitwiseOp` when `other` is the receiver itself
(`&other == this`): `other.data[i]` is then read from the vector that is being written. -/
def bitwiseOpLoopSelf (op : Nat → Nat → Nat) :
    Nat → Nat → List Nat → Except Error Unit × List Nat
  | 0, _, data => (.ok (), data)
  | n + 1, i, data =>
    match data[i]?, data[i]? with
    | some a, some b => bitwiseOpLoopSelf op n (i + 1) (data.set i (op a b % 256))
    | _, _ => (.error .outOfBounds, data)

/-- `BitArray::bitwiseOp` called with the receiver as `other`. -/
def bitwiseOpSelf (s : BitArray) (op : Nat → Nat → Nat) : Except Error Unit × BitArray :=
  if s.bits ≠ s.bits then (.error .sizeMismatch, s)
  else
    let r := bitwiseOpLoopSelf op s.data.length 0 s.data
    (r.1, { s with data := r.2 })

/-- What a function of the binding throws to its caller. -/
inductive BindingError where
  /-- `Throw(env, "Invalid key(s). No BitArray instance found.")` -/
  | invalidKey
  /-- `Throw(env, e.what())` for an exception `e` of the engine. -/
  | engine (e : Error)
  deriving DecidableEq, Repr

/-- The global `bitArrayInstances` of binding.cpp: the instance held under each key. -/
abbrev Instances := String → Option BitArray

/-- The body that `BitwiseAnd`, `BitwiseOr` and `BitwiseXor` of binding.cpp share: both keys
are looked up in the map, and the member function runs on the instance under `key1`, in
place, with the instance under `key2` as `other`.  Equal keys give the same map entry twice,
so that `other` is the receiver. -/
def bitwiseCall (op : Nat → Nat → Nat) (m : Instances) (key1 key2 : String) :
    Except BindingError Unit × Instances :=
  match m key1, m key2 with
  | some a, some b =>
    let r := if key1 = key2 then bitwiseOpSelf a op else bitwiseOp a b op
    (match r.1 with
      | .ok u => .ok u
      | .error e => .error (.engine e),
     fun k => if k = key1 then some r.2 else m k)
  | _, _ => (.error .invalidKey, m)

/-- `BitwiseAnd(key1, key2)` of binding.cpp: `it1->second.bitwiseAnd(it2->second)`. -/
def BitwiseAnd (m : Instances) (key1 key2 : String) : Except BindingError Unit × Instances :=
  bitwiseCall (fun a b => a &&& b) m key1 key2

/-- `BitwiseOr(key1, key2)` of binding.cpp: `it1->second.bitwiseOr(it2->second)`. -/
def BitwiseOr (m : Instances) (key1 key2 : String) : Except BindingError Unit × Instances :=
  bitwiseCall (fun a b => a ||| b) m key1 key2

/-- `BitwiseXor(key1, key2)` of binding.cpp: `it1->second.bitwiseXor(it2->second)`. -/
def BitwiseXor (m : Instances) (key1 key2 : String) : Except BindingError Unit × Instances :=
  bitwiseCall (fun a b => a ^^^ b) m key1 key2

/-! ## Theorems -/

/-! ### Bits of a byte -/

theorem and_one_shiftLeft_ne_zero (b off : Nat) :
    decide ((b &&& (1 <<< off)) ≠ 0) = b.testBit off := by
  rw [Nat.one_shiftLeft]
  cases h : b.testBit off
  · have h0 : b &&& 2 ^ off = 0 := by
      apply Nat.eq_of_testBit_eq
      intro i
      simp only [Nat.testBit_and, Nat.testBit_two_pow, Nat.zero_testBit]
      by_cases hi : off = i
      · subst hi; simp [h]
      · simp [hi]
    simp [h0]
  · have h1 : (b &&& 2 ^ off).testBit off = true := by
      simp [h, Nat.testBit_two_pow]
    have hne : b &&& 2 ^ off ≠ 0 := by
      intro h0; rw [h0] at h1; simp at h1
    simp [hne]

theorem validate_ok {s : BitArray} {pos : Nat} (hd : s.disposed = false) (hpos : pos < s.bits) :
    validate s pos = .ok () := by
  simp [validate, hd, Nat.not_le.mpr hpos]

theorem get_of_byte {s : BitArray} {pos b : Nat} (hd : s.disposed = false) (hpos : pos < s.bits)
    (hb : s.data[pos / 8]? = some b) : get s pos = .ok (b.testBit (pos % 8)) := by
  simp only [get, validate_ok hd hpos, getPos, hb, and_one_shiftLeft_ne_zero]

theorem index_lt_of_inv {s : BitArray} {pos : Nat} (hinv : StorageInv s) (hpos : pos < s.bits) :
    pos / 8 < s.data.length := by
  unfold StorageInv at hinv; omega

theorem testBit_setBit (b off j : Nat) (hj : j < 8) :
    ((b ||| (1 <<< off)) % 256).testBit j = (b.testBit j || decide (off = j)) := by
  have h256 : (256 : Nat) = 2 ^ 8 := by norm_num
  rw [h256, Nat.testBit_mod_two_pow, Nat.one_shiftLeft, Nat.testBit_or, Nat.testBit_two_pow]
  simp [hj]

theorem testBit_clearBit (b off j : Nat) (hoff : off < 8) (hj : j < 8) :
    ((b &&& intNot (1 <<< off)) % 256).testBit j = (b.testBit j && !decide (off = j)) := by
  have h256 : (256 : Nat) = 2 ^ 8 := by norm_num
  have hlt : 2 ^ off < 2 ^ 32 := Nat.pow_lt_pow_right (by norm_num) (by omega)
  have hnot : intNot (1 <<< off) = 2 ^ 32 - (2 ^ off + 1) := by
    unfold intNot; rw [Nat.one_shiftLeft, Nat.mod_eq_of_lt hlt]; omega
  rw [h256, Nat.testBit_mod_two_pow, Nat.testBit_and, hnot,
    Nat.testBit_two_pow_sub_succ hlt, Nat.testBit_two_pow]
  have : j < 32 := by omega
  simp [hj, this]

/-! ### `set` and `get` -/

theorem set_of_byte {s : BitArray} {pos b : Nat} (v : Bool) (hd : s.disposed = false)
    (hpos : pos < s.bits) (hb : s.data[pos / 8]? = some b) :
    set s pos v = (.ok (), { s with data := s.data.set (pos / 8) (setByte b (pos % 8) v) }) := by
  cases v <;> simp [set, validate_ok hd hpos, getPos, hb, setByte]

theorem testBit_setByte (b off j : Nat) (v : Bool) (hoff : off < 8) (hj : j < 8) :
    (setByte b off v).testBit j = if off = j then v else b.testBit j := by
  cases v
  · simp only [setByte, Bool.false_eq_true, if_false, testBit_clearBit b off j hoff hj]
    by_cases h : off = j <;> simp [h]
  · simp only [setByte, if_true, testBit_setBit b off j hj]
    by_cases h : off = j <;> simp [h]

/-- C1: on a live vector whose storage has `ceil(bits / 8)` bytes, `set(pos, v)` with
`pos < bits` succeeds, after which `get(pos)` returns `v`, `get(q)` returns what it returned
before for every other valid `q`, and `bits` and the storage length are what they were. -/
theorem set_get_contract (s : BitArray) (pos : Nat) (v : Bool) (hd : s.disposed = false)
    (hinv : StorageInv s) (hpos : pos < s.bits) :
    (set s pos v).1 = .ok () ∧
    get (set s pos v).2 pos = .ok v ∧
    (∀ q, q < s.bits → q ≠ pos → get (set s pos v).2 q = get s q) ∧
    (set s pos v).2.bits = s.bits ∧
    (set s pos v).2.data.length = s.data.length ∧
    (set s pos v).2.disposed = false := by
  obtain ⟨data, bits, disposed⟩ := s
  simp only at hd hpos
  subst hd
  have hidx := index_lt_of_inv hinv hpos
  obtain ⟨b, hb⟩ : ∃ b, data[pos / 8]? = some b :=
    ⟨data[pos / 8], List.getElem?_eq_getElem hidx⟩
  rw [set_of_byte v rfl hpos hb]
  refine ⟨rfl, ?_, ?_, rfl, by simp, rfl⟩
  · have hnew : (data.set (pos / 8) (setByte b (pos % 8) v))[pos / 8]?
        = some (setByte b (pos % 8) v) := by
      simp [List.getElem?_set, hidx]
    rw [get_of_byte (s := ⟨List.set data _ _, bits, false⟩) rfl hpos hnew,
      testBit_setByte b _ _ v (Nat.mod_lt _ (by norm_num)) (Nat.mod_lt _ (by norm_num))]
    simp
  · intro q hq hne
    have hqidx := index_lt_of_inv hinv hq
    obtain ⟨c, hc⟩ : ∃ c, data[q / 8]? = some c :=
      ⟨data[q / 8], List.getElem?_eq_getElem hqidx⟩
    rw [get_of_byte rfl hq hc]
    by_cases hsame : pos / 8 = q / 8
    · have hcb : c = b := by
        rw [hsame] at hb; rw [hb] at hc; exact (Option.some.inj hc).symm
      have hnew : (data.set (pos / 8) (setByte b (pos % 8) v))[q / 8]?
          = some (setByte b (pos % 8) v) := by
        simp [List.getElem?_set, hsame, hqidx]
      have hoff : pos % 8 ≠ q % 8 := by omega
      rw [get_of_byte (s := ⟨List.set data _ _, bits, false⟩) rfl hq hnew,
        testBit_setByte b _ _ v (Nat.mod_lt _ (by norm_num)) (Nat.mod_lt _ (by norm_num)),
        if_neg hoff, hcb]
    · have hnew : (data.set (pos / 8) (setByte b (pos % 8) v))[q / 8]? = some c := by
        rw [List.getElem?_set_ne hsame]; exact hc
      rw [get_of_byte (s := ⟨List.set data _ _, bits, false⟩) rfl hq hnew]

/-- C1, at a concrete vector: ten bits, bit 3 already set, `set(9, true)`. -/
theorem set_get_contract_witness :
    (set ⟨[8, 0], 10, false⟩ 9 true).1 = .ok () ∧
    get (set ⟨[8, 0], 10, false⟩ 9 true).2 9 = .ok true ∧
    (∀ q, q < 10 → q ≠ 9 →
      get (set ⟨[8, 0], 10, false⟩ 9 true).2 q = get ⟨[8, 0], 10, false⟩ q) ∧
    (set ⟨[8, 0], 10, false⟩ 9 true).2.bits = 10 ∧
    (set ⟨[8, 0], 10, false⟩ 9 true).2.data.length = 2 ∧
    (set ⟨[8, 0], 10, false⟩ 9 true).2.disposed = false :=
  set_get_contract ⟨[8, 0], 10, false⟩ 9 true rfl (by decide) (by decide)

/-! ### Validation and disposal -/

/-- C3: on a disposed vector `get(pos)` and `set(pos, v)` fail with `Disposed` whatever `pos`
is; on a live one they fail with `OutOfRange` exactly when `pos >= bits`; and a failing `set`
leaves `bits`, the storage and the disposed flag as they were (`get` is a `const` member and
returns no state at all). -/
theorem get_set_validation (s : BitArray) (pos : Nat) (v : Bool) :
    (s.disposed = true →
      get s pos = .error .disposed ∧ (set s pos v).1 = .error .disposed) ∧
    (s.disposed = false →
      ((∃ p, get s pos = .error (.outOfRange p)) ↔ s.bits ≤ pos) ∧
      ((∃ p, (set s pos v).1 = .error (.outOfRange p)) ↔ s.bits ≤ pos) ∧
      (s.bits ≤ pos →
        get s pos = .error (.outOfRange pos) ∧ (set s pos v).1 = .error (.outOfRange pos))) ∧
    (∀ e, (set s pos v).1 = .error e → (set s pos v).2 = s) := by
  refine ⟨?_, ?_, ?_⟩
  · intro hd
    simp [get, set, validate, hd]
  · intro hd
    by_cases hpos : s.bits ≤ pos
    · simp [get, set, validate, hd, hpos]
    · have hlt : pos < s.bits := Nat.lt_of_not_le hpos
      simp only [get, set, validate_ok hd hlt, hpos, iff_false, not_exists, false_imp_iff,
        and_true]
      constructor
      · intro p
        cases s.data[(getPos pos).1]? <;> simp
      · intro p
        cases s.data[(getPos pos).1]? <;> cases v <;> simp
  · intro e
    simp only [set]
    cases validate s pos with
    | error e' => simp
    | ok u =>
      cases s.data[(getPos pos).1]? with
      | none => simp
      | some b => cases v <;> simp

/-- C3, at concrete vectors: a disposed one, and a live one of eight bits asked for
position 8. -/
theorem get_set_validation_witness :
    (get ⟨[], 0, true⟩ 3 = .error .disposed ∧
      (set ⟨[], 0, true⟩ 3 true).1 = .error .disposed) ∧
    (get ⟨[5], 8, false⟩ 8 = .error (.outOfRange 8) ∧
      (set ⟨[5], 8, false⟩ 8 true).1 = .error (.outOfRange 8)) ∧
    (set ⟨[5], 8, false⟩ 8 true).2 = ⟨[5], 8, false⟩ :=
  ⟨(get_set_validation ⟨[], 0, true⟩ 3 true).1 rfl,
   ((get_set_validation ⟨[5], 8, false⟩ 8 true).2.1 rfl).2.2 (by decide),
   (get_set_validation ⟨[5], 8, false⟩ 8 true).2.2 (.outOfRange 8) (by decide)⟩

/-- C4, as the code has it: after `dispose()`, `get`, `set`, `resize`, `setRange` and
`getRange` fail with `Disposed` for every argument, and so do `setBatch` and `getBatch` for
every non-empty list of positions; the failing calls leave the disposed instance as it is. -/
theorem disposed_position_ops (s : BitArray) (pos newSize min max p : Nat) (ps : List Nat)
    (v : Bool) :
    get (dispose s) pos = .error .disposed ∧
    set (dispose s) pos v = (.error .disposed, dispose s) ∧
    resize (dispose s) newSize = (.error .disposed, dispose s) ∧
    setRange (dispose s) min max v = (.error .disposed, dispose s) ∧
    getRange (dispose s) min max = .error .disposed ∧
    setBatch (dispose s) (p :: ps) v = (.error .disposed, dispose s) ∧
    getBatch (dispose s) (p :: ps) = .error .disposed := by
  simp [dispose, get, set, resize, setRange, getRange, setBatch, getBatch, getBatchLoop,
    validate]

/-- C4 fails as stated: on the instance obtained by disposing `create(8)`, the operations that
never call `validate` do not fail with `Disposed`.  `bitwiseNot`, `findFirst`, `countSetBits`,
`countBytesUsed`, `serialize` and `getSize` return normally; `bitwiseAnd/Or/Xor` succeed
against an empty operand and fail with `SizeMismatch` against one of eight bits; `setBatch` and
`getBatch` succeed on the empty list. -/
theorem disposed_unchecked_ops :
    bitwiseNot (dispose (create 8)) = (.ok (), dispose (create 8)) ∧
    findFirst (dispose (create 8)) = .ok npos ∧
    countSetBits (dispose (create 8)) = 0 ∧
    countBytesUsed (dispose (create 8)) = 0 ∧
    serialize (dispose (create 8)) = .ok "\x7b\"bits\":0,\"data\":[]\x7d".toList ∧
    getSize (dispose (create 8)) = 0 ∧
    bitwiseAnd (dispose (create 8)) (create 0) = (.ok (), dispose (create 8)) ∧
    bitwiseOr (dispose (create 8)) (create 0) = (.ok (), dispose (create 8)) ∧
    bitwiseXor (dispose (create 8)) (create 0) = (.ok (), dispose (create 8)) ∧
    bitwiseAnd (dispose (create 8)) (create 8) = (.error .sizeMismatch, dispose (create 8)) ∧
    setBatch (dispose (create 8)) [] true = (.ok (), dispose (create 8)) ∧
    getBatch (dispose (create 8)) [] = .ok [] := by
  decide

/-! ### `resize` -/

/-- C5 fails on the code: `resize` checks the lifecycle with `validate(0)`, which also rejects
position 0 of an empty vector.  So on `create(0)` every `resize` fails with `OutOfRange` and
leaves the vector empty; in general `resize` fails with `Disposed` exactly on a disposed
vector, with `OutOfRange` exactly on a live vector of zero bits, and succeeds exactly on a
live vector of at least one bit. -/
theorem resize_of_empty_fails (s : BitArray) (newSize : Nat) :
    ((create 0).disposed = false ∧
      resize (create 0) newSize = (.error (.outOfRange 0), create 0)) ∧
    ((resize s newSize).1 = .error .disposed ↔ s.disposed = true) ∧
    ((resize s newSize).1 = .error (.outOfRange 0) ↔ (s.disposed = false ∧ s.bits = 0)) ∧
    ((resize s newSize).1 = .ok () ↔ (s.disposed = false ∧ 0 < s.bits)) := by
  refine ⟨by simp [create, resize, validate], ?_, ?_, ?_⟩
  all_goals
    cases hd : s.disposed
    · by_cases hb : s.bits = 0
      · simp [resize, validate, hd, hb]
      · have hpos : 0 < s.bits := Nat.pos_of_ne_zero hb
        simp [resize, validate, hd, hb, hpos]
    · simp [resize, validate, hd]

theorem resize_of_valid {s : BitArray} {newSize : Nat} (hv : validate s 0 = .ok ()) :
    resize s newSize = (.ok (),
      { s with
        data := s.data.take (min s.data.length ((newSize + 7) % 2 ^ 64 / 8)) ++
          (List.replicate ((newSize + 7) % 2 ^ 64 / 8) 0).drop
            (min s.data.length ((newSize + 7) % 2 ^ 64 / 8)),
        bits := newSize }) := by
  simp [resize, hv]

theorem validate_of_resize_ok {s : BitArray} {newSize : Nat}
    (hok : (resize s newSize).1 = .ok ()) : validate s 0 = .ok () := by
  unfold resize at hok
  cases hv : validate s 0 with
  | error e => rw [hv] at hok; simp at hok
  | ok u => rfl

/-- C6 fails as stated: `resize(2^64 - 1)` succeeds on a live vector of eight bits, and the
byte count `(newSize + 7) / 8`, computed in `size_t`, wraps to 0 instead of `ceil(newSize / 8)`. -/
theorem resize_length_wraps :
    (resize ⟨[1], 8, false⟩ (2 ^ 64 - 1)).1 = .ok () ∧
    (resize ⟨[1], 8, false⟩ (2 ^ 64 - 1)).2.data.length = 0 ∧
    (resize ⟨[1], 8, false⟩ (2 ^ 64 - 1)).2.data.length ≠ (2 ^ 64 - 1 + 7) / 8 := by
  decide

/-- C6, amended: whenever `resize(newSize)` succeeds with `newSize <= 2^64 - 8`, the new
`bits` is `newSize`, the new storage has `ceil(newSize / 8)` bytes, its first
`min(len(S), ceil(newSize / 8))` bytes are those of the old storage `S`, and every later byte
is 0. -/
theorem resize_contract (s : BitArray) (newSize : Nat) (hsize : newSize ≤ 2 ^ 64 - 8)
    (hok : (resize s newSize).1 = .ok ()) :
    (resize s newSize).2.bits = newSize ∧
    (resize s newSize).2.data.length = (newSize + 7) / 8 ∧
    (∀ i, i < min s.data.length ((newSize + 7) / 8) →
      (resize s newSize).2.data[i]? = s.data[i]?) ∧
    (∀ i, min s.data.length ((newSize + 7) / 8) ≤ i → i < (newSize + 7) / 8 →
      (resize s newSize).2.data[i]? = some 0) ∧
    (resize s newSize).2.disposed = s.disposed := by
  have hmod : (newSize + 7) % 2 ^ 64 = newSize + 7 := Nat.mod_eq_of_lt (by omega)
  rw [resize_of_valid (validate_of_resize_ok hok), hmod]
  refine ⟨rfl, ?_, ?_, ?_, rfl⟩
  · simp only [List.length_append, List.length_take, List.length_drop, List.length_replicate]
    omega
  · intro i hi
    have hlen : i < (s.data.take (min s.data.length ((newSize + 7) / 8))).length := by
      simp only [List.length_take]; omega
    show (_ ++ _)[i]? = _
    rw [List.getElem?_append_left hlen, List.getElem?_take_of_lt hi]
  · intro i hle hlt
    have hlen : (s.data.take (min s.data.length ((newSize + 7) / 8))).length ≤ i := by
      simp only [List.length_take]; omega
    show (_ ++ _)[i]? = _
    rw [List.getElem?_append_right hlen, List.getElem?_drop, List.getElem?_replicate, if_pos]
    simp only [List.length_take]
    omega

/-- C6, amended, at a concrete vector: ten bits with bits 3 and 9 set, resized to 20 bits. -/
theorem resize_contract_witness :
    (resize ⟨[8, 2], 10, false⟩ 20).2.bits = 20 ∧
    (resize ⟨[8, 2], 10, false⟩ 20).2.data.length = (20 + 7) / 8 ∧
    (∀ i, i < min 2 ((20 + 7) / 8) →
      (resize ⟨[8, 2], 10, false⟩ 20).2.data[i]? = [8, 2][i]?) ∧
    (∀ i, min 2 ((20 + 7) / 8) ≤ i → i < (20 + 7) / 8 →
      (resize ⟨[8, 2], 10, false⟩ 20).2.data[i]? = some 0) ∧
    (resize ⟨[8, 2], 10, false⟩ 20).2.disposed = false :=
  resize_contract ⟨[8, 2], 10, false⟩ 20 (by decide) (by decide)

/-- C7 fails as stated: growing a live eight-bit vector to `m = 2^64 - 1` succeeds but leaves
no storage, so shrinking back to eight bits returns bit 0 as clear although it was set. -/
theorem resize_round_trip_wraps :
    StorageInv ⟨[1], 8, false⟩ ∧ (8 : Nat) ≤ 2 ^ 64 - 1 ∧
    get ⟨[1], 8, false⟩ 0 = .ok true ∧
    (resize ⟨[1], 8, false⟩ (2 ^ 64 - 1)).1 = .ok () ∧
    (resize (resize ⟨[1], 8, false⟩ (2 ^ 64 - 1)).2 8).1 = .ok () ∧
    get (resize (resize ⟨[1], 8, false⟩ (2 ^ 64 - 1)).2 8).2 0 = .ok false := by
  decide

/-- C7, amended: for a live vector of `n >= 1` bits with `ceil(n / 8)` bytes and every `m`
with `n <= m <= 2^64 - 8`, `resize(m)` followed by `resize(n)` both succeed, return the vector
to the state it had, and so leave `get(i)` at its original value for every `i < n`. -/
theorem resize_round_trip (s : BitArray) (m : Nat) (hd : s.disposed = false)
    (hn : 1 ≤ s.bits) (hinv : StorageInv s) (hm : s.bits ≤ m) (hmax : m ≤ 2 ^ 64 - 8) :
    (resize s m).1 = .ok () ∧
    (resize (resize s m).2 s.bits).1 = .ok () ∧
    (resize (resize s m).2 s.bits).2 = s ∧
    (∀ i, i < s.bits → get (resize (resize s m).2 s.bits).2 i = get s i) := by
  obtain ⟨data, bits, disposed⟩ := s
  simp only at hd hn hm
  subst hd
  unfold StorageInv at hinv
  simp only at hinv
  have hmodm : (m + 7) % 2 ^ 64 = m + 7 := Nat.mod_eq_of_lt (by omega)
  have hmodn : (bits + 7) % 2 ^ 64 = bits + 7 := Nat.mod_eq_of_lt (by omega)
  have hv1 : validate ⟨data, bits, false⟩ 0 = .ok () := validate_ok rfl (by simpa using hn)
  have hle : data.length ≤ (m + 7) / 8 := by omega
  have h1 : resize ⟨data, bits, false⟩ m
      = (.ok (), ⟨data ++ List.replicate ((m + 7) / 8 - data.length) 0, m, false⟩) := by
    rw [resize_of_valid hv1, hmodm, Nat.min_eq_left hle, List.take_length]
    simp
  have hv2 : validate ⟨data ++ List.replicate ((m + 7) / 8 - data.length) 0, m, false⟩ 0
      = .ok () := validate_ok rfl (by simp only; omega)
  have h2 : resize ⟨data ++ List.replicate ((m + 7) / 8 - data.length) 0, m, false⟩ bits
      = (.ok (), ⟨data, bits, false⟩) := by
    rw [resize_of_valid hv2, hmodn]
    have hmin : min (data ++ List.replicate ((m + 7) / 8 - data.length) 0).length
        ((bits + 7) / 8) = data.length := by
      simp only [List.length_append, List.length_replicate]; omega
    simp only [hmin]
    rw [List.take_left, ← hinv]
    simp
  rw [h1]
  simp only
  rw [h2]
  simp

/-- C7, amended, at a concrete vector: ten bits with bits 3 and 9 set, grown to 100 bits and
shrunk back. -/
theorem resize_round_trip_witness :
    (resize ⟨[8, 2], 10, false⟩ 100).1 = .ok () ∧
    (resize (resize ⟨[8, 2], 10, false⟩ 100).2 10).1 = .ok () ∧
    (resize (resize ⟨[8, 2], 10, false⟩ 100).2 10).2 = ⟨[8, 2], 10, false⟩ ∧
    (∀ i, i < 10 →
      get (resize (resize ⟨[8, 2], 10, false⟩ 100).2 10).2 i = get ⟨[8, 2], 10, false⟩ i) :=
  resize_round_trip ⟨[8, 2], 10, false⟩ 100 rfl (by decide) (by decide) (by decide) (by decide)

/-! ### `bitwiseAnd`, `bitwiseOr`, `bitwiseXor` -/

theorem bitwiseOpLoop_spec (op : Nat → Nat → Nat) (other : List Nat) :
    ∀ (n i : Nat) (data : List Nat), i + n = data.length → data.length ≤ other.length →
      (bitwiseOpLoop op other n i data).1 = .ok () ∧
      (bitwiseOpLoop op other n i data).2.length = data.length ∧
      ∀ j, (bitwiseOpLoop op other n i data).2[j]? =
        if i ≤ j ∧ j < data.length then some (op (data.getD j 0) (other.getD j 0) % 256)
        else data[j]? := by
  intro n
  induction n with
  | zero =>
    intro i data hlen _
    refine ⟨rfl, rfl, fun j => ?_⟩
    have : ¬(i ≤ j ∧ j < data.length) := by omega
    simp [bitwiseOpLoop, this]
  | succ n ih =>
    intro i data hlen hother
    have hi : i < data.length := by omega
    have hio : i < other.length := by omega
    have hstep : bitwiseOpLoop op other (n + 1) i data
        = bitwiseOpLoop op other n (i + 1) (data.set i (op data[i] other[i] % 256)) := by
      simp [bitwiseOpLoop, List.getElem?_eq_getElem hi, List.getElem?_eq_getElem hio]
    obtain ⟨h1, h2, h3⟩ := ih (i + 1) (data.set i (op data[i] other[i] % 256))
      (by simp only [List.length_set]; omega) (by simp only [List.length_set]; exact hother)
    rw [hstep]
    refine ⟨h1, by rw [h2, List.length_set], fun j => ?_⟩
    rw [h3 j, List.length_set]
    by_cases hj : j = i
    · subst hj
      have hc1 : ¬(j + 1 ≤ j ∧ j < data.length) := by omega
      have hc2 : j ≤ j ∧ j < data.length := ⟨Nat.le_refl _, hi⟩
      rw [if_neg hc1, if_pos hc2, List.getElem?_set_self hi]
      simp [List.getD_eq_getElem?_getD, List.getElem?_eq_getElem hi,
        List.getElem?_eq_getElem hio]
    · have hne : i ≠ j := fun h => hj h.symm
      have hget : (data.set i (op data[i] other[i] % 256)).getD j 0 = data.getD j 0 := by
        simp [List.getD_eq_getElem?_getD, List.getElem?_set_ne hne]
      rw [hget, List.getElem?_set_ne hne]
      by_cases hc : i ≤ j ∧ j < data.length
      · have hc1 : i + 1 ≤ j ∧ j < data.length := by omega
        rw [if_pos hc, if_pos hc1]
      · have hc1 : ¬(i + 1 ≤ j ∧ j < data.length) := by omega
        rw [if_neg hc, if_neg hc1]

theorem bitwiseOpLoop_not_sizeMismatch (op : Nat → Nat → Nat) (other : List Nat) :
    ∀ (n i : Nat) (data : List Nat),
      (bitwiseOpLoop op other n i data).1 ≠ .error .sizeMismatch := by
  intro n
  induction n with
  | zero => intro i data; simp [bitwiseOpLoop]
  | succ n ih =>
    intro i data
    unfold bitwiseOpLoop
    cases data[i]? with
    | none => simp
    | some a =>
      cases other[i]? with
      | none => simp
      | some b => exact ih _ _

theorem bitwiseOp_spec (op : Nat → Nat → Nat) (a b : BitArray) (hbits : a.bits = b.bits)
    (ha : StorageInv a) (hb : StorageInv b) :
    (bitwiseOp a b op).1 = .ok () ∧
    (bitwiseOp a b op).2.bits = a.bits ∧
    (bitwiseOp a b op).2.disposed = a.disposed ∧
    (bitwiseOp a b op).2.data.length = a.data.length ∧
    (∀ (i x y : Nat), a.data[i]? = some x → b.data[i]? = some y →
      (bitwiseOp a b op).2.data[i]? = some (op x y % 256)) := by
  have hlen : a.data.length ≤ b.data.length := by
    unfold StorageInv at ha hb; omega
  obtain ⟨h1, h2, h3⟩ := bitwiseOpLoop_spec op b.data a.data.length 0 a.data (by omega) hlen
  have hne : ¬(a.bits ≠ b.bits) := by simpa using hbits
  simp only [bitwiseOp, if_neg hne]
  refine ⟨h1, trivial, trivial, h2, fun i x y hx hy => ?_⟩
  have hi : i < a.data.length := by
    by_contra hge
    rw [List.getElem?_eq_none (Nat.le_of_not_lt hge)] at hx
    exact Option.noConfusion hx
  rw [h3 i, if_pos ⟨Nat.zero_le _, hi⟩]
  simp [List.getD_eq_getElem?_getD, hx, hy]

theorem bitwiseOp_get (op : Nat → Nat → Nat) (bop : Bool → Bool → Bool)
    (hop : ∀ x y j, j < 8 → (op x y % 256).testBit j = bop (x.testBit j) (y.testBit j))
    (a b : BitArray) (hbits : a.bits = b.bits) (ha : StorageInv a) (hb : StorageInv b)
    (hda : a.disposed = false) (hdb : b.disposed = false) (i : Nat) (hi : i < a.bits) :
    ∃ x y, get a i = .ok x ∧ get b i = .ok y ∧ get (bitwiseOp a b op).2 i = .ok (bop x y) := by
  obtain ⟨_, h2, h3, _, h5⟩ := bitwiseOp_spec op a b hbits ha hb
  have hia := index_lt_of_inv ha hi
  have hib := index_lt_of_inv hb (hbits ▸ hi)
  have hxa : a.data[i / 8]? = some a.data[i / 8] := List.getElem?_eq_getElem hia
  have hyb : b.data[i / 8]? = some b.data[i / 8] := List.getElem?_eq_getElem hib
  refine ⟨a.data[i / 8].testBit (i % 8), b.data[i / 8].testBit (i % 8),
    get_of_byte hda hi hxa, get_of_byte hdb (hbits ▸ hi) hyb, ?_⟩
  rw [get_of_byte (h3.trans hda) (h2.symm ▸ hi) (h5 _ _ _ hxa hyb),
    hop _ _ _ (Nat.mod_lt _ (by norm_num))]

theorem byte_of_wellTyped {s : BitArray} (hs : WellTyped s) {i x : Nat}
    (hx : s.data[i]? = some x) : x < 2 ^ 8 := by
  have hmem : x ∈ s.data := List.getElem?_mem hx
  have := hs.2.2 x hmem
  omega

theorem and_mod_256 {x y : Nat} (hx : x < 2 ^ 8) : (x &&& y) % 256 = x &&& y :=
  Nat.mod_eq_of_lt (Nat.lt_of_le_of_lt Nat.and_le_left (by omega))

theorem or_mod_256 {x y : Nat} (hx : x < 2 ^ 8) (hy : y < 2 ^ 8) : (x ||| y) % 256 = x ||| y :=
  Nat.mod_eq_of_lt (by have := Nat.or_lt_two_pow hx hy; omega)

theorem xor_mod_256 {x y : Nat} (hx : x < 2 ^ 8) (hy : y < 2 ^ 8) : (x ^^^ y) % 256 = x ^^^ y :=
  Nat.mod_eq_of_lt (by have := Nat.xor_lt_two_pow hx hy; omega)

theorem testBit_mod_256 (x j : Nat) (hj : j < 8) : (x % 256).testBit j = x.testBit j := by
  have h256 : (256 : Nat) = 2 ^ 8 := by norm_num
  rw [h256, Nat.testBit_mod_two_pow]
  simp [hj]

/-- The new state of the receiver: for vectors `a`, `b` of equal `bits`, each with
`ceil(bits / 8)` bytes, `a.bitwiseAnd(b)` (resp. `bitwiseOr`, `bitwiseXor`) succeeds, keeps
`a`'s `bits`, disposed flag and storage length, replaces every byte of `a` by
`old_a[i] AND b[i]` (resp. OR, XOR), and so, both being live, `get(i)` on `a` becomes
`old_a.get(i) AND/OR/XOR b.get(i)` for every `i < bits`.  What becomes of `b` is stated on
the instance map, in `bitwise_contract_on_instances`. -/
theorem bitwise_contract (a b : BitArray) (hbits : a.bits = b.bits)
    (ha : StorageInv a) (hb : StorageInv b) (hta : WellTyped a) (htb : WellTyped b) :
    ((bitwiseAnd a b).1 = .ok () ∧ (bitwiseAnd a b).2.bits = a.bits ∧
      (bitwiseAnd a b).2.disposed = a.disposed ∧
      (bitwiseAnd a b).2.data.length = a.data.length ∧
      (∀ (i x y : Nat), a.data[i]? = some x → b.data[i]? = some y →
        (bitwiseAnd a b).2.data[i]? = some (x &&& y)) ∧
      (a.disposed = false → b.disposed = false → ∀ i : Nat, i < a.bits →
        ∃ x y, get a i = .ok x ∧ get b i = .ok y ∧
          get (bitwiseAnd a b).2 i = .ok (x && y))) ∧
    ((bitwiseOr a b).1 = .ok () ∧ (bitwiseOr a b).2.bits = a.bits ∧
      (bitwiseOr a b).2.disposed = a.disposed ∧
      (bitwiseOr a b).2.data.length = a.data.length ∧
      (∀ (i x y : Nat), a.data[i]? = some x → b.data[i]? = some y →
        (bitwiseOr a b).2.data[i]? = some (x ||| y)) ∧
      (a.disposed = false → b.disposed = false → ∀ i : Nat, i < a.bits →
        ∃ x y, get a i = .ok x ∧ get b i = .ok y ∧
          get (bitwiseOr a b).2 i = .ok (x || y))) ∧
    ((bitwiseXor a b).1 = .ok () ∧ (bitwiseXor a b).2.bits = a.bits ∧
      (bitwiseXor a b).2.disposed = a.disposed ∧
      (bitwiseXor a b).2.data.length = a.data.length ∧
      (∀ (i x y : Nat), a.data[i]? = some x → b.data[i]? = some y →
        (bitwiseXor a b).2.data[i]? = some (x ^^^ y)) ∧
      (a.disposed = false → b.disposed = false → ∀ i : Nat, i < a.bits →
        ∃ x y, get a i = .ok x ∧ get b i = .ok y ∧
          get (bitwiseXor a b).2 i = .ok (Bool.xor x y))) := by
  refine ⟨?_, ?_, ?_⟩
  · obtain ⟨h1, h2, h3, h4, h5⟩ := bitwiseOp_spec (fun x y => x &&& y) a b hbits ha hb
    refine ⟨h1, h2, h3, h4, fun i x y hx hy => ?_, fun hda hdb i hi => ?_⟩
    · have := h5 i x y hx hy
      simp only [and_mod_256 (byte_of_wellTyped hta hx)] at this
      exact this
    · exact bitwiseOp_get (fun x y => x &&& y) (fun p q => p && q)
        (fun x y j hj => by simp only [testBit_mod_256 _ j hj, Nat.testBit_and])
        a b hbits ha hb hda hdb i hi
  · obtain ⟨h1, h2, h3, h4, h5⟩ := bitwiseOp_spec (fun x y => x ||| y) a b hbits ha hb
    refine ⟨h1, h2, h3, h4, fun i x y hx hy => ?_, fun hda hdb i hi => ?_⟩
    · have := h5 i x y hx hy
      simp only [or_mod_256 (byte_of_wellTyped hta hx) (byte_of_wellTyped htb hy)] at this
      exact this
    · exact bitwiseOp_get (fun x y => x ||| y) (fun p q => p || q)
        (fun x y j hj => by simp only [testBit_mod_256 _ j hj, Nat.testBit_or])
        a b hbits ha hb hda hdb i hi
  · obtain ⟨h1, h2, h3, h4, h5⟩ := bitwiseOp_spec (fun x y => x ^^^ y) a b hbits ha hb
    refine ⟨h1, h2, h3, h4, fun i x y hx hy => ?_, fun hda hdb i hi => ?_⟩
    · have := h5 i x y hx hy
      simp only [xor_mod_256 (byte_of_wellTyped hta hx) (byte_of_wellTyped htb hy)] at this
      exact this
    · exact bitwiseOp_get (fun x y => x ^^^ y) (fun p q => Bool.xor p q)
        (fun x y j hj => by simp only [testBit_mod_256 _ j hj, Nat.testBit_xor])
        a b hbits ha hb hda hdb i hi

/-- The new state of the receiver at concrete vectors: ten bits each, storage `[12, 1]` and
`[10, 3]`. -/
theorem bitwise_contract_witness :
    ((bitwiseAnd ⟨[12, 1], 10, false⟩ ⟨[10, 3], 10, false⟩).1 = .ok () ∧
      (bitwiseAnd ⟨[12, 1], 10, false⟩ ⟨[10, 3], 10, false⟩).2.data[0]? = some (12 &&& 10)) ∧
    ((bitwiseOr ⟨[12, 1], 10, false⟩ ⟨[10, 3], 10, false⟩).1 = .ok () ∧
      (bitwiseOr ⟨[12, 1], 10, false⟩ ⟨[10, 3], 10, false⟩).2.data[0]? = some (12 ||| 10)) ∧
    ((bitwiseXor ⟨[12, 1], 10, false⟩ ⟨[10, 3], 10, false⟩).1 = .ok () ∧
      (bitwiseXor ⟨[12, 1], 10, false⟩ ⟨[10, 3], 10, false⟩).2.data[0]? = some (12 ^^^ 10)) :=
  have h := bitwise_contract ⟨[12, 1], 10, false⟩ ⟨[10, 3], 10, false⟩ rfl
    (by decide) (by decide) (by decide) (by decide)
  ⟨⟨h.1.1, h.1.2.2.2.2.1 0 12 10 rfl rfl⟩,
   ⟨h.2.1.1, h.2.1.2.2.2.2.1 0 12 10 rfl rfl⟩,
   ⟨h.2.2.1, h.2.2.2.2.2.2.1 0 12 10 rfl rfl⟩⟩

/-! ### The bitwise operations on the instance map: `other` may be the receiver -/

theorem bitwiseOpLoopSelf_eq (op : Nat → Nat → Nat) :
    ∀ (n i : Nat) (data other : List Nat), (∀ j : Nat, i ≤ j → other[j]? = data[j]?) →
      bitwiseOpLoopSelf op n i data = bitwiseOpLoop op other n i data := by
  intro n
  induction n with
  | zero => intro i data other _; rfl
  | succ n ih =>
    intro i data other h
    rw [bitwiseOpLoopSelf, bitwiseOpLoop, h i (Nat.le_refl i)]
    cases hd : data[i]? with
    | none => rfl
    | some a =>
      simp only []
      apply ih
      intro j hj
      rw [h j (by omega), List.getElem?_set_ne (by omega)]

theorem bitwiseOpSelf_eq (s : BitArray) (op : Nat → Nat → Nat) :
    bitwiseOpSelf s op = bitwiseOp s s op := by
  unfold bitwiseOpSelf bitwiseOp
  rw [bitwiseOpLoopSelf_eq op s.data.length 0 s.data s.data (fun _ _ => rfl)]

theorem bitwiseCall_spec (op : Nat → Nat → Nat) (m : Instances) (key1 key2 : String)
    (a b : BitArray) (h1 : m key1 = some a) (h2 : m key2 = some b)
    (hok : (bitwiseOp a b op).1 = .ok ()) :
    (bitwiseCall op m key1 key2).1 = .ok () ∧
    (bitwiseCall op m key1 key2).2 key1 = some (bitwiseOp a b op).2 ∧
    (∀ k, k ≠ key1 → (bitwiseCall op m key1 key2).2 k = m k) := by
  have hr : (if key1 = key2 then bitwiseOpSelf a op else bitwiseOp a b op)
      = bitwiseOp a b op := by
    by_cases hk : key1 = key2
    · subst hk
      rw [h1] at h2
      cases h2
      rw [if_pos rfl, bitwiseOpSelf_eq]
    · rw [if_neg hk]
  unfold bitwiseCall
  simp only [h1, h2, hr, hok]
  refine ⟨trivial, by simp, fun k hk => by simp [hk]⟩

/-- C9 fails as stated: `a` and `b` may be one object.  `BitwiseXor` of the binding accepts
the same key twice; with eight bits and storage `[5]` under the key, the call succeeds and
the instance under the key, which is the operand `b` as well as the receiver, has storage
`[0]` afterwards. -/
theorem bitwiseXor_same_key_changes_operand :
    StorageInv ⟨[5], 8, false⟩ ∧
    bitwiseOpSelf ⟨[5], 8, false⟩ (fun a b => a ^^^ b) = (.ok (), ⟨[0], 8, false⟩) ∧
    (BitwiseXor (fun k => if k = "bitarray_0" then some ⟨[5], 8, false⟩ else none)
      "bitarray_0" "bitarray_0").1 = .ok () ∧
    (BitwiseXor (fun k => if k = "bitarray_0" then some ⟨[5], 8, false⟩ else none)
      "bitarray_0" "bitarray_0").2 "bitarray_0" = some ⟨[0], 8, false⟩ := by
  decide

/-- C9, amended: let the instance map hold `a` under `key1` and `b` under `key2`, of equal
`bits`, each with `ceil(bits / 8)` bytes.  Then `BitwiseAnd(key1, key2)` (resp. `BitwiseOr`,
`BitwiseXor`), that is `a.bitwiseAnd(b)`, succeeds; the instance under `key1` keeps `a`'s
`bits`, disposed flag and storage length, every byte of it is `old_a[i] AND old_b[i]` (resp.
OR, XOR), and so, both being live, `get(i)` on it is `old_a.get(i) AND/OR/XOR old_b.get(i)`
for every `i < bits`; when `b` is another object than `a` (`key1 != key2`), `b` is entirely
unchanged, as is every other instance of the map. -/
theorem bitwise_contract_on_instances (m : Instances) (key1 key2 : String) (a b : BitArray)
    (h1 : m key1 = some a) (h2 : m key2 = some b) (hbits : a.bits = b.bits)
    (ha : StorageInv a) (hb : StorageInv b) (hta : WellTyped a) (htb : WellTyped b) :
    ((BitwiseAnd m key1 key2).1 = .ok () ∧
      (∃ r, (BitwiseAnd m key1 key2).2 key1 = some r ∧ r.bits = a.bits ∧
        r.disposed = a.disposed ∧ r.data.length = a.data.length ∧
        (∀ (i x y : Nat), a.data[i]? = some x → b.data[i]? = some y →
          r.data[i]? = some (x &&& y)) ∧
        (a.disposed = false → b.disposed = false → ∀ i : Nat, i < a.bits →
          ∃ x y, get a i = .ok x ∧ get b i = .ok y ∧ get r i = .ok (x && y))) ∧
      (key1 ≠ key2 → (BitwiseAnd m key1 key2).2 key2 = some b) ∧
      (∀ k, k ≠ key1 → (BitwiseAnd m key1 key2).2 k = m k)) ∧
    ((BitwiseOr m key1 key2).1 = .ok () ∧
      (∃ r, (BitwiseOr m key1 key2).2 key1 = some r ∧ r.bits = a.bits ∧
        r.disposed = a.disposed ∧ r.data.length = a.data.length ∧
        (∀ (i x y : Nat), a.data[i]? = some x → b.data[i]? = some y →
          r.data[i]? = some (x ||| y)) ∧
        (a.disposed = false → b.disposed = false → ∀ i : Nat, i < a.bits →
          ∃ x y, get a i = .ok x ∧ get b i = .ok y ∧ get r i = .ok (x || y))) ∧
      (key1 ≠ key2 → (BitwiseOr m key1 key2).2 key2 = some b) ∧
      (∀ k, k ≠ key1 → (BitwiseOr m key1 key2).2 k = m k)) ∧
    ((BitwiseXor m key1 key2).1 = .ok () ∧
      (∃ r, (BitwiseXor m key1 key2).2 key1 = some r ∧ r.bits = a.bits ∧
        r.disposed = a.disposed ∧ r.data.length = a.data.length ∧
        (∀ (i x y : Nat), a.data[i]? = some x → b.data[i]? = some y →
          r.data[i]? = some (x ^^^ y)) ∧
        (a.disposed = false → b.disposed = false → ∀ i : Nat, i < a.bits →
          ∃ x y, get a i = .ok x ∧ get b i = .ok y ∧ get r i = .ok (Bool.xor x y))) ∧
      (key1 ≠ key2 → (BitwiseXor m key1 key2).2 key2 = some b) ∧
      (∀ k, k ≠ key1 → (BitwiseXor m key1 key2).2 k = m k)) := by
  obtain ⟨hand, hor, hxor⟩ := bitwise_contract a b hbits ha hb hta htb
  refine ⟨?_, ?_, ?_⟩
  · obtain ⟨c1, c2, c3⟩ := bitwiseCall_spec (fun x y => x &&& y) m key1 key2 a b h1 h2 hand.1
    exact ⟨c1, ⟨_, c2, hand.2⟩, fun hne => (c3 key2 (Ne.symm hne)).trans h2, c3⟩
  · obtain ⟨c1, c2, c3⟩ := bitwiseCall_spec (fun x y => x ||| y) m key1 key2 a b h1 h2 hor.1
    exact ⟨c1, ⟨_, c2, hor.2⟩, fun hne => (c3 key2 (Ne.symm hne)).trans h2, c3⟩
  · obtain ⟨c1, c2, c3⟩ := bitwiseCall_spec (fun x y => x ^^^ y) m key1 key2 a b h1 h2 hxor.1
    exact ⟨c1, ⟨_, c2, hxor.2⟩, fun hne => (c3 key2 (Ne.symm hne)).trans h2, c3⟩

/-- C9, amended, at a concrete map: ten bits each, storage `[12, 1]` under `bitarray_0` and
`[10, 3]` under `bitarray_1`; the operand is left as it was by the three calls. -/
theorem bitwise_contract_on_instances_witness :
    (BitwiseAnd (fun k => if k = "bitarray_0" then some ⟨[12, 1], 10, false⟩
        else if k = "bitarray_1" then some ⟨[10, 3], 10, false⟩ else none)
      "bitarray_0" "bitarray_1").1 = .ok () ∧
    (BitwiseAnd (fun k => if k = "bitarray_0" then some ⟨[12, 1], 10, false⟩
        else if k = "bitarray_1" then some ⟨[10, 3], 10, false⟩ else none)
      "bitarray_0" "bitarray_1").2 "bitarray_1" = some ⟨[10, 3], 10, false⟩ ∧
    (BitwiseOr (fun k => if k = "bitarray_0" then some ⟨[12, 1], 10, false⟩
        else if k = "bitarray_1" then some ⟨[10, 3], 10, false⟩ else none)
      "bitarray_0" "bitarray_1").2 "bitarray_1" = some ⟨[10, 3], 10, false⟩ ∧
    (BitwiseXor (fun k => if k = "bitarray_0" then some ⟨[12, 1], 10, false⟩
        else if k = "bitarray_1" then some ⟨[10, 3], 10, false⟩ else none)
      "bitarray_0" "bitarray_1").2 "bitarray_1" = some ⟨[10, 3], 10, false⟩ :=
  have h := bitwise_contract_on_instances
    (fun k => if k = "bitarray_0" then some ⟨[12, 1], 10, false⟩
      else if k = "bitarray_1" then some ⟨[10, 3], 10, false⟩ else none)
    "bitarray_0" "bitarray_1" ⟨[12, 1], 10, false⟩ ⟨[10, 3], 10, false⟩
    (by decide) (by decide) rfl (by decide) (by decide) (by decide) (by decide)
  ⟨h.1.1, h.1.2.2.1 (by decide), h.2.1.2.2.1 (by decide), h.2.2.2.2.1 (by decide)⟩

/-! ### Size mismatch -/

theorem bitwiseOp_sizeMismatch_iff (op : Nat → Nat → Nat) (a b : BitArray) :
    ((bitwiseOp a b op).1 = .error .sizeMismatch ↔ a.bits ≠ b.bits) ∧
    (a.bits ≠ b.bits → bitwiseOp a b op = (.error .sizeMismatch, a)) := by
  by_cases h : a.bits = b.bits
  · have hne : ¬(a.bits ≠ b.bits) := by simpa using h
    simp only [bitwiseOp, if_neg hne]
    exact ⟨⟨fun hc => absurd hc (bitwiseOpLoop_not_sizeMismatch op b.data _ _ _),
      fun hc => absurd h hc⟩, fun hc => absurd h hc⟩
  · have hne : a.bits ≠ b.bits := h
    simp [bitwiseOp, hne]

/-- C10: `a.bitwiseAnd(b)`, `a.bitwiseOr(b)` and `a.bitwiseXor(b)` fail with `SizeMismatch`
exactly when `a.bits != b.bits`, and then `a` is left as it was (`b` is a `const` reference
and is never written). -/
theorem bitwise_size_mismatch (a b : BitArray) :
    (((bitwiseAnd a b).1 = .error .sizeMismatch ↔ a.bits ≠ b.bits) ∧
      ((bitwiseOr a b).1 = .error .sizeMismatch ↔ a.bits ≠ b.bits) ∧
      ((bitwiseXor a b).1 = .error .sizeMismatch ↔ a.bits ≠ b.bits)) ∧
    (a.bits ≠ b.bits →
      bitwiseAnd a b = (.error .sizeMismatch, a) ∧
      bitwiseOr a b = (.error .sizeMismatch, a) ∧
      bitwiseXor a b = (.error .sizeMismatch, a)) :=
  ⟨⟨(bitwiseOp_sizeMismatch_iff _ a b).1, (bitwiseOp_sizeMismatch_iff _ a b).1,
    (bitwiseOp_sizeMismatch_iff _ a b).1⟩,
   fun h => ⟨(bitwiseOp_sizeMismatch_iff _ a b).2 h, (bitwiseOp_sizeMismatch_iff _ a b).2 h,
    (bitwiseOp_sizeMismatch_iff _ a b).2 h⟩⟩

/-- C10, at the sizes 8 and 9 of the specification's scenario. -/
theorem bitwise_size_mismatch_witness :
    bitwiseAnd (create 8) (create 9) = (.error .sizeMismatch, create 8) ∧
    bitwiseOr (create 8) (create 9) = (.error .sizeMismatch, create 8) ∧
    bitwiseXor (create 8) (create 9) = (.error .sizeMismatch, create 8) :=
  (bitwise_size_mismatch (create 8) (create 9)).2 (by decide)

/-! ### No set bit beyond `bits` -/

theorem get_eq_storageBit {s : BitArray} {i : Nat} (hd : s.disposed = false)
    (hinv : StorageInv s) (hi : i < s.bits) : get s i = .ok (storageBit s.data i) := by
  have hidx := index_lt_of_inv hinv hi
  rw [get_of_byte hd hi (List.getElem?_eq_getElem hidx)]
  simp [storageBit, List.getD_eq_getElem?_getD, List.getElem?_eq_getElem hidx]

theorem storageBit_of_length_le {data : List Nat} {i : Nat} (h : data.length ≤ i / 8) :
    storageBit data i = false := by
  simp [storageBit, List.getD_eq_getElem?_getD, List.getElem?_eq_none h]

theorem set_cases (s : BitArray) (pos : Nat) (v : Bool) :
    (set s pos v).2 = s ∨
    ∃ b, pos < s.bits ∧ s.data[pos / 8]? = some b ∧
      (set s pos v).2 = { s with data := s.data.set (pos / 8) (setByte b (pos % 8) v) } := by
  cases hv : validate s pos with
  | error e => left; simp [set, hv]
  | ok u =>
    have hpos : pos < s.bits := by
      unfold validate at hv
      by_contra hge
      cases hdis : s.disposed <;> simp [hdis, Nat.le_of_not_lt hge] at hv
    cases hb : s.data[pos / 8]? with
    | none => left; simp [set, hv, getPos, hb]
    | some b =>
      right
      refine ⟨b, hpos, rfl, ?_⟩
      cases v <;> simp [set, hv, getPos, hb, setByte]

theorem storageBit_set (data : List Nat) (k nb i : Nat) (hk : k < data.length) :
    storageBit (data.set k nb) i
      = if i / 8 = k then nb.testBit (i % 8) else storageBit data i := by
  unfold storageBit
  by_cases h : i / 8 = k
  · subst h
    simp [List.getD_eq_getElem?_getD, List.getElem?_set_self hk]
  · have hne : k ≠ i / 8 := fun e => h e.symm
    simp [List.getD_eq_getElem?_getD, List.getElem?_set_ne hne, h]

theorem cleanInv_create (n : Nat) (hn : n ≤ 2 ^ 64 - 8) : CleanInv (create n) := by
  have hmod : (n + 7) % 2 ^ 64 = n + 7 := Nat.mod_eq_of_lt (by omega)
  refine ⟨rfl, hn, ?_, fun i _ => ?_⟩
  · simp only [StorageInv, create, List.length_replicate, hmod]
  · simp only [storageBit, create, List.getD_eq_getElem?_getD, List.getElem?_replicate]
    split <;> simp

theorem cleanInv_set {s : BitArray} (pos : Nat) (v : Bool) (h : CleanInv s) :
    CleanInv (set s pos v).2 := by
  rcases set_cases s pos v with he | ⟨b, hpos, hb, he⟩
  · rw [he]; exact h
  · obtain ⟨hd, hmax, hinv, hz⟩ := h
    have hk : pos / 8 < s.data.length := index_lt_of_inv hinv hpos
    rw [he]
    refine ⟨hd, hmax, ?_, fun i hi => ?_⟩
    · simp only [StorageInv, List.length_set]; exact hinv
    · simp only at hi
      show storageBit (s.data.set (pos / 8) (setByte b (pos % 8) v)) i = false
      rw [storageBit_set _ _ _ _ hk]
      split
      · next hsame =>
        have hoff : pos % 8 ≠ i % 8 := by omega
        rw [testBit_setByte b _ _ v (Nat.mod_lt _ (by norm_num)) (Nat.mod_lt _ (by norm_num)),
          if_neg hoff]
        have := hz i hi
        simp only [storageBit, List.getD_eq_getElem?_getD, hsame, hb] at this
        simpa using this
      · exact hz i hi

theorem cleanInv_setBatch (positions : List Nat) (v : Bool) :
    ∀ {s : BitArray}, CleanInv s → CleanInv (setBatch s positions v).2 := by
  induction positions with
  | nil => intro s h; exact h
  | cons p ps ih =>
    intro s h
    have hs := cleanInv_set p v h
    unfold setBatch
    cases hr : set s p v with
    | mk r s' =>
      rw [hr] at hs
      cases r with
      | error e => exact hs
      | ok u => exact ih hs

theorem cleanInv_setRangeLoop (v : Bool) (max : Nat) :
    ∀ (fuel i : Nat) (s : BitArray), CleanInv s → CleanInv (setRangeLoop v max fuel i s).2 := by
  intro fuel
  induction fuel with
  | zero =>
    intro i s h
    rw [setRangeLoop.eq_def]
    by_cases hle : i ≤ max
    · simp only [hle, if_true]; exact h
    · simp only [hle, if_false]; exact h
  | succ f ih =>
    intro i s h
    have hs := cleanInv_set i v h
    rw [setRangeLoop.eq_def]
    by_cases hle : i ≤ max
    · simp only [hle, if_true]
      cases hr : set s i v with
      | mk r s' =>
        rw [hr] at hs
        cases r with
        | error e => exact hs
        | ok u => exact ih _ _ hs
    · simp only [hle, if_false]; exact h

theorem cleanInv_setRange (min max : Nat) (v : Bool) {s : BitArray} (h : CleanInv s) :
    CleanInv (setRange s min max v).2 := by
  unfold setRange
  cases validate s min with
  | error e => exact h
  | ok u =>
    cases validate s max with
    | error e => exact h
    | ok u => exact cleanInv_setRangeLoop v max _ _ _ h

theorem storageBit_append_zeros (data : List Nat) (k i : Nat) :
    storageBit (data ++ List.replicate k 0) i = storageBit data i := by
  unfold storageBit
  by_cases h : i / 8 < data.length
  · simp [List.getD_eq_getElem?_getD, List.getElem?_append_left h]
  · have hle : data.length ≤ i / 8 := Nat.le_of_not_lt h
    rw [List.getD_eq_getElem?_getD, List.getD_eq_getElem?_getD,
      List.getElem?_append_right hle, List.getElem?_eq_none hle, List.getElem?_replicate]
    split <;> simp

theorem resize_grow {s : BitArray} {m : Nat} (hd : s.disposed = false) (hn : 1 ≤ s.bits)
    (hinv : StorageInv s) (hm : s.bits ≤ m) (hmax : m ≤ 2 ^ 64 - 8) :
    resize s m
      = (.ok (), ⟨s.data ++ List.replicate ((m + 7) / 8 - s.data.length) 0, m, false⟩) := by
  have hmodm : (m + 7) % 2 ^ 64 = m + 7 := Nat.mod_eq_of_lt (by omega)
  have hle : s.data.length ≤ (m + 7) / 8 := by unfold StorageInv at hinv; omega
  rw [resize_of_valid (validate_ok hd (by omega)), hmodm, Nat.min_eq_left hle, List.take_length,
    hd]
  simp

theorem cleanInv_resize {s : BitArray} (m : Nat) (h : CleanInv s) (hm : s.bits ≤ m)
    (hmax : m ≤ 2 ^ 64 - 8) : CleanInv (resize s m).2 := by
  obtain ⟨hd, hb, hinv, hz⟩ := h
  by_cases hn : 1 ≤ s.bits
  · rw [resize_grow hd hn hinv hm hmax]
    refine ⟨rfl, hmax, ?_, fun i hi => ?_⟩
    · unfold StorageInv at hinv ⊢
      simp only [List.length_append, List.length_replicate]
      omega
    · show storageBit (s.data ++ List.replicate _ 0) i = false
      rw [storageBit_append_zeros]
      exact hz i (Nat.le_trans hm hi)
  · have hv : validate s 0 = .error (.outOfRange 0) := by
      simp [validate, hd]; omega
    have : resize s m = (.error (.outOfRange 0), s) := by simp [resize, hv]
    rw [this]
    exact ⟨hd, hb, hinv, hz⟩

theorem cleanInv_bitwiseOp (op : Nat → Nat → Nat) (bop : Bool → Bool → Bool)
    (hop : ∀ x y j, j < 8 → (op x y % 256).testBit j = bop (x.testBit j) (y.testBit j))
    (hff : bop false false = false) {a b : BitArray} (ha : CleanInv a) (hb : CleanInv b) :
    CleanInv (bitwiseOp a b op).2 := by
  by_cases hbits : a.bits = b.bits
  · obtain ⟨hda, hma, hia, hza⟩ := ha
    obtain ⟨_, _, hib, hzb⟩ := hb
    obtain ⟨_, h2, h3, h4, h5⟩ := bitwiseOp_spec op a b hbits hia hib
    refine ⟨h3.trans hda, h2 ▸ hma, ?_, fun i hi => ?_⟩
    · unfold StorageInv at hia ⊢
      rw [h4, h2]; exact hia
    · rw [h2] at hi
      by_cases hlt : i / 8 < a.data.length
      · have hltb : i / 8 < b.data.length := by
          unfold StorageInv at hia hib; omega
        have hx := List.getElem?_eq_getElem hlt
        have hy := List.getElem?_eq_getElem hltb
        have hnew := h5 _ _ _ hx hy
        have hsa := hza i hi
        have hsb := hzb i (hbits ▸ hi)
        simp only [storageBit, List.getD_eq_getElem?_getD, hx, hy, Option.getD_some]
          at hsa hsb
        simp only [storageBit, List.getD_eq_getElem?_getD, hnew, Option.getD_some]
        rw [hop _ _ _ (Nat.mod_lt _ (by norm_num)), hsa, hsb, hff]
      · exact storageBit_of_length_le (by rw [h4]; exact Nat.le_of_not_lt hlt)
  · have : bitwiseOp a b op = (.error .sizeMismatch, a) :=
      (bitwiseOp_sizeMismatch_iff op a b).2 hbits
    rw [this]; exact ha

theorem cleanInv_bitwiseNot {s : BitArray} (h : CleanInv s) : CleanInv (bitwiseNot s).2 := by
  obtain ⟨hd, hb, hinv, hz⟩ := h
  unfold StorageInv at hinv
  unfold bitwiseNot
  by_cases hk : s.bits % 8 > 0
  · simp only [hk, if_true, List.length_map]
    have hlen : 1 ≤ s.data.length := by omega
    have hlast : (s.data.length + 2 ^ 64 - 1) % 2 ^ 64 = s.data.length - 1 := by omega
    have hlt : s.data.length - 1 < (s.data.map (fun b => intNot b % 256)).length := by
      rw [List.length_map]; omega
    rw [hlast, List.getElem?_eq_getElem hlt]
    refine ⟨hd, hb, ?_, fun i hi => ?_⟩
    · simp only [StorageInv, List.length_set, List.length_map]; exact hinv
    · simp only at hi
      show storageBit (List.set _ _ _) i = false
      rw [storageBit_set _ _ _ _ hlt]
      split
      · next hsame =>
        have hoff : s.bits % 8 ≤ i % 8 := by omega
        rw [testBit_mod_256 _ _ (Nat.mod_lt _ (by norm_num)), Nat.testBit_and,
          Nat.one_shiftLeft, Nat.testBit_two_pow_sub_one]
        simp [Nat.not_lt.mpr hoff]
      · next hne =>
        exact storageBit_of_length_le (by rw [List.length_map]; omega)
  · simp only [hk, if_false]
    refine ⟨hd, hb, ?_, fun i hi => ?_⟩
    · simp only [StorageInv, List.length_map]; exact hinv
    · simp only at hi
      exact storageBit_of_length_le (by simp only [List.length_map]; omega)

theorem cleanInv_of_reachable {s : BitArray} (h : ReachableNoShrink s) : CleanInv s := by
  induction h with
  | create n hn => exact cleanInv_create n hn
  | set s pos v _ ih => exact cleanInv_set pos v ih
  | setBatch s ps v _ ih => exact cleanInv_setBatch ps v ih
  | setRange s min max v _ ih => exact cleanInv_setRange min max v ih
  | resize s m _ hm hmax ih => exact cleanInv_resize m ih hm hmax
  | bitwiseAnd s o _ _ ih1 ih2 =>
    exact cleanInv_bitwiseOp _ (fun p q => p && q)
      (fun x y j hj => by simp only [testBit_mod_256 _ j hj, Nat.testBit_and]) rfl ih1 ih2
  | bitwiseOr s o _ _ ih1 ih2 =>
    exact cleanInv_bitwiseOp _ (fun p q => p || q)
      (fun x y j hj => by simp only [testBit_mod_256 _ j hj, Nat.testBit_or]) rfl ih1 ih2
  | bitwiseXor s o _ _ ih1 ih2 =>
    exact cleanInv_bitwiseOp _ (fun p q => Bool.xor p q)
      (fun x y j hj => by simp only [testBit_mod_256 _ j hj, Nat.testBit_xor]) rfl ih1 ih2
  | bitwiseNot s _ ih => exact cleanInv_bitwiseNot ih

/-- C8 fails as stated.  `create(16)`, `set(15, true)`, `resize(12)` reaches a vector of 12
bits whose second byte still holds bit 15, and growing it with `resize(16)` makes `get(15)`
true although `12 <= 15 < 16`.  On `create(0)`, `resize(8)` fails and `get(0)` is an error and
not `false`.  And growing `create(8)` or `create(2^64 - 7)` to `2^64 - 1` bits leaves no byte
for the new positions, so `get` there is an out-of-bounds access. -/
theorem grow_after_shrink_resurrects_bit :
    ((set (create 16) 15 true).1 = .ok () ∧
      (resize (set (create 16) 15 true).2 12).1 = .ok () ∧
      (resize (set (create 16) 15 true).2 12).2.bits = 12 ∧
      (resize (resize (set (create 16) 15 true).2 12).2 16).1 = .ok () ∧
      get (resize (resize (set (create 16) 15 true).2 12).2 16).2 15 = .ok true) ∧
    ((resize (create 0) 8).1 = .error (.outOfRange 0) ∧
      get (resize (create 0) 8).2 0 = .error (.outOfRange 0)) ∧
    ((resize (create 8) (2 ^ 64 - 1)).1 = .ok () ∧
      get (resize (create 8) (2 ^ 64 - 1)).2 8 = .error .outOfBounds) ∧
    ((resize (create (2 ^ 64 - 7)) (2 ^ 64 - 1)).1 = .ok () ∧
      get (resize (create (2 ^ 64 - 7)) (2 ^ 64 - 1)).2 (2 ^ 64 - 7) = .error .outOfBounds) := by
  decide

/-- C8, amended: for every vector of at least one bit reached from `create(n)` by `set`,
`setBatch`, `setRange`, `bitwiseAnd/Or/Xor`, `bitwiseNot` and non-shrinking `resize` (all
sizes at most `2^64 - 8`), and every `newSize` with `bits < newSize <= 2^64 - 8`,
`resize(newSize)` succeeds and afterwards `get(i)` is false for every
`oldBits <= i < newSize`. -/
theorem grow_fabricates_no_bits (s : BitArray) (newSize : Nat) (hs : ReachableNoShrink s)
    (hn : 1 ≤ s.bits) (hgt : s.bits < newSize) (hmax : newSize ≤ 2 ^ 64 - 8) :
    (resize s newSize).1 = .ok () ∧
    ∀ i, s.bits ≤ i → i < newSize → get (resize s newSize).2 i = .ok false := by
  obtain ⟨hd, _, hinv, hz⟩ := cleanInv_of_reachable hs
  have hnew := cleanInv_resize newSize (cleanInv_of_reachable hs) (Nat.le_of_lt hgt) hmax
  have hr := resize_grow hd hn hinv (Nat.le_of_lt hgt) hmax
  refine ⟨by rw [hr], fun i hlo hhi => ?_⟩
  have hbits : (resize s newSize).2.bits = newSize := by rw [hr]
  rw [get_eq_storageBit hnew.1 hnew.2.2.1 (by rw [hbits]; exact hhi)]
  rw [hr]
  show Except.ok (storageBit (s.data ++ List.replicate _ 0) i) = _
  rw [storageBit_append_zeros, hz i hlo]

/-- C8, amended, at a concrete vector: `create(10)`, `set(3, true)`, then `resize(20)`. -/
theorem grow_fabricates_no_bits_witness :
    (resize (set (create 10) 3 true).2 20).1 = .ok () ∧
    ∀ i, (set (create 10) 3 true).2.bits ≤ i → i < 20 →
      get (resize (set (create 10) 3 true).2 20).2 i = .ok false :=
  grow_fabricates_no_bits (set (create 10) 3 true).2 20
    (ReachableNoShrink.set _ _ _ (ReachableNoShrink.create 10 (by decide)))
    (by decide) (by decide) (by decide)

/-! ## Serialization -/

/-! ### Decimal text -/

theorem digitChar_isDigit (d : Nat) (hd : d < 10) :
    (Nat.digitChar d).isDigit = true ∧ (Nat.digitChar d).toNat - 48 = d := by
  interval_cases d <;> exact ⟨by decide, by decide⟩

theorem digitsValue_append (l : List Char) (c : Char) :
    digitsValue (l ++ [c]) = digitsValue l * 10 + (c.toNat - 48) := by
  simp [digitsValue, List.foldl_append]

theorem toDigitsCore_spec :
    ∀ (fuel n : Nat) (ds : List Char), n < fuel →
      ∃ l, Nat.toDigitsCore 10 fuel n ds = l ++ ds ∧ l ≠ [] ∧
        (∀ c ∈ l, c.isDigit = true) ∧ digitsValue l = n := by
  intro fuel
  induction fuel with
  | zero => intro n ds h; omega
  | succ fuel ih =>
    intro n ds hn
    have hmod : n % 10 < 10 := Nat.mod_lt _ (by norm_num)
    obtain ⟨hdig, hval⟩ := digitChar_isDigit (n % 10) hmod
    by_cases h0 : n / 10 = 0
    · refine ⟨[Nat.digitChar (n % 10)], ?_, by simp, ?_, ?_⟩
      · simp [Nat.toDigitsCore, h0]
      · intro c hc
        rw [List.mem_singleton] at hc
        rw [hc]; exact hdig
      · simp only [digitsValue, List.foldl_cons, List.foldl_nil, hval]
        omega
    · obtain ⟨l, hl, hne, hall, hv⟩ := ih (n / 10) (Nat.digitChar (n % 10) :: ds) (by omega)
      refine ⟨l ++ [Nat.digitChar (n % 10)], ?_, by simp, ?_, ?_⟩
      · simp [Nat.toDigitsCore, h0, hl]
      · intro c hc
        rw [List.mem_append, List.mem_singleton] at hc
        rcases hc with hc | hc
        · exact hall c hc
        · rw [hc]; exact hdig
      · rw [digitsValue_append, hv, hval]
        omega

theorem decimal_spec (n : Nat) :
    decimal n ≠ [] ∧ (∀ c ∈ decimal n, c.isDigit = true) ∧ digitsValue (decimal n) = n := by
  obtain ⟨l, hl, hne, hall, hv⟩ := toDigitsCore_spec (n + 1) n [] (Nat.lt_succ_self n)
  have : decimal n = l := by simpa [decimal, Nat.toDigits] using hl
  rw [this]
  exact ⟨hne, hall, hv⟩

theorem isDigit_facts {c : Char} (hc : c.isDigit = true) :
    isSpace c = false ∧ c ≠ '-' ∧ c ≠ '+' ∧ c ≠ ',' ∧ c ≠ ']' ∧ c ≠ Char.ofNat 34 := by
  have h1 : 48 ≤ c.toNat ∧ c.toNat ≤ 57 := by
    simp only [Char.isDigit, Bool.and_eq_true, decide_eq_true_eq] at hc
    exact ⟨hc.1, hc.2⟩
  refine ⟨?_, ?_, ?_, ?_, ?_, ?_⟩
  · simp only [isSpace, Bool.or_eq_false_iff, Bool.and_eq_false_iff, decide_eq_false_iff_not]
    omega
  all_goals
    intro h
    rw [h] at h1
    revert h1
    decide

theorem stoull_decimal (n : Nat) (hn : n < 2 ^ 64) : stoull (decimal n) = .ok n := by
  obtain ⟨hne, hall, hv⟩ := decimal_spec n
  obtain ⟨c, t, hct⟩ : ∃ c t, decimal n = c :: t := by
    cases h : decimal n with
    | nil => exact absurd h hne
    | cons c t => exact ⟨c, t, rfl⟩
  have hc : c.isDigit = true := hall c (by rw [hct]; exact List.mem_cons_self _ _)
  obtain ⟨hsp, hm, hp, _, _, _⟩ := isDigit_facts hc
  have hdrop : (decimal n).dropWhile isSpace = decimal n := by
    rw [hct, List.dropWhile_cons_of_neg (by simp [hsp])]
  have htake : (decimal n).takeWhile Char.isDigit = decimal n :=
    List.takeWhile_eq_self_iff.mpr hall
  unfold stoull
  simp only [hdrop]
  have hs2 : (match decimal n with
      | c :: t => if c = '-' ∨ c = '+' then t else decimal n
      | [] => []) = decimal n := by
    rw [hct]; simp [hm, hp]
  have hneg : decide ((decimal n).head? = some '-') = false := by
    rw [hct]; simp [hm]
  rw [hs2, htake, hneg, hv]
  have hemp : (decimal n).isEmpty = false := by rw [hct]; rfl
  have hlt : ¬(n ≥ 2 ^ 64) := by omega
  rw [if_neg hlt]
  simp [hemp]

/-! ### `std::string::find` -/

theorem findFrom_skip (c : Char) (p : List Char) :
    ∀ (pre rest : List Char) (i : Nat), (∀ a ∈ pre, a ≠ c) →
      findFrom (c :: p) (pre ++ rest) i = findFrom (c :: p) rest (i + pre.length) := by
  intro pre
  induction pre with
  | nil => intro rest i _; simp
  | cons a t ih =>
    intro rest i h
    have ha : a ≠ c := h a (List.mem_cons_self _ _)
    have hne : (c == a) = false := by
      simp only [beq_eq_false_iff_ne, ne_eq]; exact fun h => ha h.symm
    have hstep : findFrom (c :: p) (a :: (t ++ rest)) i
        = findFrom (c :: p) (t ++ rest) (i + 1) := by
      simp [findFrom, List.isPrefixOf_cons₂, hne]
    rw [List.cons_append, hstep, ih rest (i + 1) (fun x hx => h x (List.mem_cons_of_mem _ hx))]
    simp only [List.length_cons]
    congr 1
    omega

theorem findFrom_here (pat rest : List Char) (i : Nat) :
    findFrom pat (pat ++ rest) i = some i := by
  have hp : pat.isPrefixOf (pat ++ rest) = true :=
    List.isPrefixOf_iff_prefix.mpr (List.prefix_append _ _)
  cases h : pat ++ rest with
  | nil => rw [h] at hp; simp [findFrom, hp]
  | cons a t => rw [h] at hp; simp [findFrom, hp]

theorem findFrom_none (c : Char) (p : List Char) :
    ∀ (l : List Char) (i : Nat), (∀ a ∈ l, a ≠ c) → findFrom (c :: p) l i = none := by
  intro l
  induction l with
  | nil => intro i _; simp [findFrom]
  | cons a t ih =>
    intro i h
    have ha : a ≠ c := h a (List.mem_cons_self _ _)
    have hne : (c == a) = false := by
      simp only [beq_eq_false_iff_ne, ne_eq]; exact fun h => ha h.symm
    simp only [findFrom, List.isPrefixOf_cons₂, hne, Bool.false_and, Bool.false_eq_true,
      if_false]
    exact ih (i + 1) (fun x hx => h x (List.mem_cons_of_mem _ hx))

theorem find_of_findFrom {s pat : List Char} {start k : Nat} (hs : start ≤ s.length)
    (h : findFrom pat (s.drop start) start = some k) : find s pat start = k := by
  simp [find, Nat.not_lt.mpr hs, h]

theorem find_of_findFrom_none {s pat : List Char} {start : Nat} (hs : start ≤ s.length)
    (h : findFrom pat (s.drop start) start = none) : find s pat start = npos := by
  simp [find, Nat.not_lt.mpr hs, h]

theorem findFrom_dataKey_skip_bitsKey (R : List Char) (i : Nat) :
    findFrom "\"data\":[".toList (bitsKey ++ R) i = findFrom "\"data\":[".toList R (i + 8) := by
  have hpat : "\"data\":[".toList
      = [Char.ofNat 34, 'd', 'a', 't', 'a', Char.ofNat 34, ':', '['] := by decide
  rw [hpat]
  simp [bitsKey, findFrom, List.isPrefixOf_cons₂]

/-! ### `serialize` -/

theorem serializeLoop_eq :
    ∀ (suf : List Nat) (pre : List Nat) (oss : List Char), (pre ++ suf).length < 2 ^ 64 →
      serializeLoop (pre ++ suf) suf.length pre.length oss = .ok (oss ++ dataText suf) := by
  intro suf
  induction suf with
  | nil => intro pre oss _; simp [serializeLoop, dataText]
  | cons b t ih =>
    intro pre oss hlen
    have hget : (pre ++ b :: t)[pre.length]? = some b := by
      rw [List.getElem?_append_right (Nat.le_refl _)]; simp
    have hlast : ((pre ++ b :: t).length + 2 ^ 64 - 1) % 2 ^ 64 = pre.length + t.length := by
      simp only [List.length_append, List.length_cons] at hlen ⊢
      omega
    have hcomma : ",".toList = [','] := by decide
    have hstep : serializeLoop (pre ++ b :: t) (t.length + 1) pre.length oss
        = serializeLoop (pre ++ b :: t) t.length (pre.length + 1)
            (if pre.length < pre.length + t.length then oss ++ decimal b ++ [',']
              else oss ++ decimal b) := by
      rw [serializeLoop]
      simp only [hget, hlast, hcomma]
    rw [List.length_cons, hstep]
    cases t with
    | nil =>
      simp [serializeLoop, dataText]
    | cons c t' =>
      have hcond : pre.length < pre.length + (c :: t').length := by
        simp only [List.length_cons]; omega
      have happ : pre ++ b :: c :: t' = (pre ++ [b]) ++ c :: t' := by simp
      have hih := ih (pre ++ [b]) (oss ++ decimal b ++ [',']) (by rw [← happ]; exact hlen)
      rw [← happ] at hih
      have hl : (pre ++ [b]).length = pre.length + 1 := by simp
      rw [hl] at hih
      rw [if_pos hcond, hih]
      simp [dataText]

theorem serialize_eq (x : BitArray) (hx : x.data.length < 2 ^ 64) :
    serialize x
      = .ok (bitsKey ++ (decimal x.bits ++ (dataKey ++ (dataText x.data ++ closing)))) := by
  have h := serializeLoop_eq x.data [] ("\x7b\"bits\":".toList ++ decimal x.bits ++
    ",\"data\":[".toList) (by simpa using hx)
  simp only [List.nil_append, List.length_nil] at h
  have h1 : "\x7b\"bits\":".toList = bitsKey := by decide
  have h2 : ",\"data\":[".toList = dataKey := by decide
  have h3 : "]\x7d".toList = closing := by decide
  unfold serialize
  rw [h]
  simp only [h1, h2, h3, List.append_assoc]

/-! ### `deserialize` -/

theorem dataText_chars : ∀ (data : List Nat) (c : Char), c ∈ dataText data →
    c.isDigit = true ∨ c = ',' := by
  intro data
  induction data with
  | nil => intro c hc; simp [dataText] at hc
  | cons b t ih =>
    intro c hc
    cases t with
    | nil =>
      simp only [dataText] at hc
      exact Or.inl ((decimal_spec b).2.1 c hc)
    | cons d t' =>
      simp only [dataText, List.mem_append, List.mem_cons] at hc
      rcases hc with hc | hc | hc
      · exact Or.inl ((decimal_spec b).2.1 c hc)
      · exact Or.inr hc
      · exact ih c hc

theorem length_le_dataText : ∀ data : List Nat, data.length ≤ (dataText data).length := by
  intro data
  induction data with
  | nil => simp
  | cons b t ih =>
    have hpos : 0 < (decimal b).length := List.length_pos.mpr (decimal_spec b).1
    cases t with
    | nil => simp only [dataText, List.length_cons, List.length_nil]; omega
    | cons d t' =>
      simp only [dataText, List.length_append, List.length_cons] at ih ⊢
      omega

theorem parseLoop_done (dataStr : List Char) (fuel pos : Nat) (acc : List Nat)
    (h : ¬pos < dataStr.length) : parseLoop dataStr fuel pos acc = .ok acc := by
  rw [parseLoop.eq_def]
  simp only [h, if_false]

theorem parseLoop_step {dataStr str : List Char} {fuel pos commaPos v : Nat} (acc : List Nat)
    (hpos : pos < dataStr.length)
    (hcomma : (if find dataStr [','] pos = npos then dataStr.length
      else find dataStr [','] pos) = commaPos)
    (hsub : substr dataStr pos ((commaPos + 2 ^ 64 - pos) % 2 ^ 64) = .ok str)
    (hv : stoul str = .ok v) :
    parseLoop dataStr (fuel + 1) pos acc
      = parseLoop dataStr fuel ((commaPos + 1) % 2 ^ 64) (acc ++ [v % 256]) := by
  have hc : ",".toList = [','] := by decide
  rw [parseLoop]
  simp only [hpos, if_true, hc, hcomma, hsub, hv]

theorem parseLoop_dataText :
    ∀ (suf : List Nat) (pre : List Char) (acc : List Nat) (fuel : Nat),
      suf.length ≤ fuel → (∀ b ∈ suf, b < 256) →
      (pre ++ dataText suf).length + 1 < 2 ^ 64 →
      parseLoop (pre ++ dataText suf) fuel pre.length acc = .ok (acc ++ suf) := by
  intro suf
  induction suf with
  | nil =>
    intro pre acc fuel _ _ _
    rw [parseLoop_done _ _ _ _ (by simp [dataText])]
    simp
  | cons b t ih =>
    intro pre acc fuel hfuel hbytes hlen
    obtain ⟨f, rfl⟩ : ∃ f, fuel = f + 1 := ⟨fuel - 1, by simp only [List.length_cons] at hfuel; omega⟩
    obtain ⟨hne, hdig, _⟩ := decimal_spec b
    have hdpos : 0 < (decimal b).length := List.length_pos.mpr hne
    have hnocomma : ∀ a ∈ decimal b, a ≠ ',' := fun a ha => (isDigit_facts (hdig a ha)).2.2.2.1
    have hb : b < 256 := hbytes b (List.mem_cons_self _ _)
    have hval : stoul (decimal b) = .ok b := stoull_decimal b (by omega)
    have hmod : b % 256 = b := Nat.mod_eq_of_lt hb
    cases t with
    | nil =>
      simp only [dataText] at hlen ⊢
      have hlen' : (pre ++ decimal b).length = pre.length + (decimal b).length := by simp
      rw [hlen'] at hlen
      have hfind : find (pre ++ decimal b) [','] pre.length = npos :=
        find_of_findFrom_none (by omega)
          (by rw [List.drop_left]; exact findFrom_none ',' [] _ _ hnocomma)
      have hsub : substr (pre ++ decimal b) pre.length
          (((pre ++ decimal b).length + 2 ^ 64 - pre.length) % 2 ^ 64) = .ok (decimal b) := by
        have hk : ((pre ++ decimal b).length + 2 ^ 64 - pre.length) % 2 ^ 64
            = (decimal b).length := by rw [hlen']; omega
        rw [hk]
        simp [substr, List.drop_left]
      rw [parseLoop_step acc (by omega) (by rw [hfind]; simp) hsub hval, hmod]
      rw [parseLoop_done _ _ _ _ (by rw [hlen']; omega)]
    | cons c t' =>
      have hS : pre ++ dataText (b :: c :: t')
          = (pre ++ decimal b ++ [',']) ++ dataText (c :: t') := by
        simp [dataText]
      have hlenS : (pre ++ dataText (b :: c :: t')).length
          = pre.length + (decimal b).length + 1 + (dataText (c :: t')).length := by
        rw [hS]; simp only [List.length_append, List.length_cons, List.length_nil]
      rw [hlenS] at hlen
      have hfind : find (pre ++ dataText (b :: c :: t')) [','] pre.length
          = pre.length + (decimal b).length := by
        apply find_of_findFrom (by omega)
        rw [List.drop_left]
        simp only [dataText]
        rw [findFrom_skip ',' [] (decimal b) _ _ hnocomma]
        exact findFrom_here [','] _ _
      have hnpos : pre.length + (decimal b).length ≠ npos := by
        unfold npos; omega
      have hsub : substr (pre ++ dataText (b :: c :: t')) pre.length
          ((pre.length + (decimal b).length + 2 ^ 64 - pre.length) % 2 ^ 64)
          = .ok (decimal b) := by
        have hk : (pre.length + (decimal b).length + 2 ^ 64 - pre.length) % 2 ^ 64
            = (decimal b).length := by omega
        rw [hk]
        have hle : ¬(pre.length > (pre ++ dataText (b :: c :: t')).length) := by
          rw [hlenS]; omega
        simp only [substr, hle, if_false, List.drop_left]
        simp only [dataText]
        rw [List.take_left]
      rw [parseLoop_step acc (by rw [hlenS]; omega) (by rw [hfind, if_neg hnpos]) hsub hval,
        hmod]
      have hnext : (pre.length + (decimal b).length + 1) % 2 ^ 64
          = (pre ++ decimal b ++ [',']).length := by
        simp only [List.length_append, List.length_cons, List.length_nil]
        omega
      rw [hnext, hS]
      have := ih (pre ++ decimal b ++ [',']) (acc ++ [b]) f
        (by simp only [List.length_cons] at hfuel ⊢; omega)
        (fun x hx => hbytes x (List.mem_cons_of_mem _ hx))
        (by rw [← hS, hlenS]; exact hlen)
      rw [this]
      simp

theorem deserialize_text (dn dt : List Char) (bits : Nat) (dataVec : List Nat)
    (hdn : ∀ c ∈ dn, c.isDigit = true) (hdt : ∀ c ∈ dt, c.isDigit = true ∨ c = ',')
    (hlen : (bitsKey ++ (dn ++ (dataKey ++ (dt ++ closing)))).length < 2 ^ 64 - 1)
    (hbits : stoull dn = .ok bits) (hdata : parseLoop dt dt.length 0 [] = .ok dataVec) :
    deserialize (bitsKey ++ (dn ++ (dataKey ++ (dt ++ closing))))
      = .ok { create bits with data := dataVec } := by
  have hp1 : "\"bits\":".toList = Char.ofNat 34 :: ['b', 'i', 't', 's', Char.ofNat 34, ':'] := by
    decide
  have hp2 : "\"data\":[".toList
      = Char.ofNat 34 :: ['d', 'a', 't', 'a', Char.ofNat 34, ':', '['] := by decide
  have hpc : ",".toList = [','] := by decide
  have hpb : "]".toList = [']'] := by decide
  have hL : (bitsKey ++ (dn ++ (dataKey ++ (dt ++ closing)))).length
      = 8 + dn.length + 9 + dt.length + 2 := by
    simp only [List.length_append, bitsKey, dataKey, closing, List.length_cons, List.length_nil]
    omega
  rw [hL] at hlen
  have hdnc : ∀ a ∈ dn, a ≠ ',' := fun a ha => (isDigit_facts (hdn a ha)).2.2.2.1
  have hdnq : ∀ a ∈ dn ++ [','], a ≠ Char.ofNat 34 := by
    intro a ha
    rw [List.mem_append, List.mem_singleton] at ha
    rcases ha with ha | ha
    · exact (isDigit_facts (hdn a ha)).2.2.2.2.2
    · rw [ha]; decide
  have hdtb : ∀ a ∈ dt, a ≠ ']' := by
    intro a ha
    rcases hdt a ha with h | h
    · exact (isDigit_facts h).2.2.2.2.1
    · rw [h]; decide
  -- the key `"bits":` is found at index 1
  have h1 : find (bitsKey ++ (dn ++ (dataKey ++ (dt ++ closing)))) "\"bits\":".toList 0 = 1 := by
    apply find_of_findFrom (Nat.zero_le _)
    rw [hp1, List.drop_zero]
    show findFrom _ ([Char.ofNat 123] ++ ((Char.ofNat 34 ::
      ['b', 'i', 't', 's', Char.ofNat 34, ':']) ++ (dn ++ (dataKey ++ (dt ++ closing))))) 0 = _
    rw [findFrom_skip _ _ _ _ _ (by decide)]
    exact findFrom_here _ _ _
  -- the first comma from index 8 on ends the digits of the bit count
  have h2 : find (bitsKey ++ (dn ++ (dataKey ++ (dt ++ closing)))) [','] 8
      = 8 + dn.length := by
    apply find_of_findFrom (by rw [hL]; omega)
    rw [List.drop_left' (by rfl)]
    show findFrom _ (dn ++ ([','] ++ _)) 8 = _
    rw [findFrom_skip ',' [] dn _ _ hdnc]
    exact findFrom_here [','] _ _
  -- the key `"data":[` is found right after that comma
  have h3 : find (bitsKey ++ (dn ++ (dataKey ++ (dt ++ closing)))) "\"data\":[".toList 0
      = 8 + dn.length + 1 := by
    apply find_of_findFrom (Nat.zero_le _)
    rw [List.drop_zero, findFrom_dataKey_skip_bitsKey, hp2]
    have hsplit : dn ++ (dataKey ++ (dt ++ closing))
        = (dn ++ [',']) ++ ((Char.ofNat 34 :: ['d', 'a', 't', 'a', Char.ofNat 34, ':', '['])
          ++ (dt ++ closing)) := by
      simp [dataKey]
    rw [hsplit, findFrom_skip _ _ _ _ _ hdnq, findFrom_here]
    simp only [List.length_append, List.length_cons, List.length_nil]
    congr 1
  -- the first closing bracket from there on ends the byte list
  have h4 : find (bitsKey ++ (dn ++ (dataKey ++ (dt ++ closing)))) [']']
      (8 + dn.length + 1 + 8) = 8 + dn.length + 1 + 8 + dt.length := by
    apply find_of_findFrom (by rw [hL]; omega)
    have hsplit : bitsKey ++ (dn ++ (dataKey ++ (dt ++ closing)))
        = (bitsKey ++ dn ++ dataKey) ++ (dt ++ closing) := by simp
    rw [hsplit, List.drop_left' (by
      simp only [List.length_append, bitsKey, dataKey, List.length_cons, List.length_nil])]
    show findFrom _ (dt ++ ([']'] ++ _)) _ = _
    rw [findFrom_skip ']' [] dt _ _ hdtb]
    exact findFrom_here [']'] _ _
  have hs1 : substr (bitsKey ++ (dn ++ (dataKey ++ (dt ++ closing)))) 8 dn.length
      = .ok dn := by
    have hle : ¬(8 > (bitsKey ++ (dn ++ (dataKey ++ (dt ++ closing)))).length) := by
      rw [hL]; omega
    simp only [substr, hle, if_false]
    rw [List.drop_left' (by rfl), List.take_left]
  have hs2 : substr (bitsKey ++ (dn ++ (dataKey ++ (dt ++ closing))))
      (8 + dn.length + 1 + 8) dt.length = .ok dt := by
    have hle : ¬(8 + dn.length + 1 + 8
        > (bitsKey ++ (dn ++ (dataKey ++ (dt ++ closing)))).length) := by
      rw [hL]; omega
    have hsplit : bitsKey ++ (dn ++ (dataKey ++ (dt ++ closing)))
        = (bitsKey ++ dn ++ dataKey) ++ (dt ++ closing) := by simp
    simp only [substr, hle, if_false]
    rw [hsplit, List.drop_left' (by
      simp only [List.length_append, bitsKey, dataKey, List.length_cons, List.length_nil]), List.take_left]
  have e1 : (1 + 7) % 2 ^ 64 = 8 := by norm_num
  have e2 : (8 + dn.length + 2 ^ 64 - 8) % 2 ^ 64 = dn.length := by omega
  have e3 : (8 + dn.length + 1 + 8) % 2 ^ 64 = 8 + dn.length + 1 + 8 := by omega
  have e4 : (8 + dn.length + 1 + 8 + dt.length + 2 ^ 64 - (8 + dn.length + 1 + 8)) % 2 ^ 64
      = dt.length := by omega
  unfold deserialize
  simp only [h1, e1, hpc, h2, e2, hs1, hbits, h3, e3, hpb, h4, e4, hs2, hdata]

/-- C2: for every bit vector `x` (values of the C++ types, the text being a `std::string`),
`serialize` returns a text and `deserialize` of that text succeeds with an instance whose
`bits` and whose byte buffer are those of `x`; the instance is live, so when `x` is live it is
`x` itself and `get(i)` agrees for every `i`. -/
theorem serialize_deserialize_round_trip (x : BitArray) (hx : WellTyped x)
    (hstr : ∀ str, serialize x = .ok str → str.length < npos) :
    ∃ str y, serialize x = .ok str ∧ deserialize str = .ok y ∧
      y.bits = x.bits ∧ y.data = x.data ∧ y.disposed = false ∧
      (x.disposed = false → y = x ∧ ∀ i, get y i = get x i) := by
  obtain ⟨hb, hl, hbytes⟩ := hx
  have hser := serialize_eq x hl
  have hlen := hstr _ hser
  have hdt : parseLoop (dataText x.data) (dataText x.data).length 0 [] = .ok x.data := by
    have h := parseLoop_dataText x.data [] [] (dataText x.data).length
      (length_le_dataText x.data) hbytes (by
        simp only [List.nil_append]
        simp only [List.length_append, npos] at hlen
        omega)
    simpa using h
  have hde := deserialize_text (decimal x.bits) (dataText x.data) x.bits x.data
    (decimal_spec x.bits).2.1 (dataText_chars x.data) hlen (stoull_decimal x.bits hb) hdt
  refine ⟨_, _, hser, hde, rfl, rfl, rfl, fun hd => ?_⟩
  have hxy : ({ create x.bits with data := x.data } : BitArray) = x := by
    obtain ⟨d, b, dis⟩ := x
    simp only at hd
    subst hd
    rfl
  rw [hxy]
  exact ⟨rfl, fun _ => rfl⟩

/-- C2, at the vector of the specification's scenario: ten bits, bits 3 and 9 set. -/
theorem serialize_deserialize_round_trip_witness :
    ∃ str y, serialize ⟨[8, 2], 10, false⟩ = .ok str ∧ deserialize str = .ok y ∧
      y.bits = 10 ∧ y.data = [8, 2] ∧ y.disposed = false ∧
      ((false = false) → y = ⟨[8, 2], 10, false⟩ ∧
        ∀ i, get y i = get ⟨[8, 2], 10, false⟩ i) :=
  serialize_deserialize_round_trip ⟨[8, 2], 10, false⟩ (by decide)
    (fun str h => by
      have hs : serialize ⟨[8, 2], 10, false⟩
          = .ok "\x7b\"bits\":10,\"data\":[8,2]\x7d".toList := by decide
      rw [hs] at h
      cases h
      decide)

/-! ### `bitwiseNot` -/

theorem testBit_intNot (b j : Nat) (hj : j < 8) :
    (intNot b % 256).testBit j = !b.testBit j := by
  have hlt : b % 2 ^ 32 < 2 ^ 32 := Nat.mod_lt _ (by norm_num)
  have hnot : intNot b = 2 ^ 32 - (b % 2 ^ 32 + 1) := by unfold intNot; omega
  rw [testBit_mod_256 _ _ hj, hnot, Nat.testBit_two_pow_sub_succ hlt, Nat.testBit_mod_two_pow]
  have : j < 32 := by omega
  simp [this]

theorem testBit_mask (x k j : Nat) :
    ((x &&& ((1 <<< k) - 1)) % 256).testBit j = (decide (j < 8) && decide (j < k) && x.testBit j) := by
  have h256 : (256 : Nat) = 2 ^ 8 := by norm_num
  rw [h256, Nat.testBit_mod_two_pow, Nat.testBit_and, Nat.one_shiftLeft,
    Nat.testBit_two_pow_sub_one]
  cases decide (j < 8) <;> cases decide (j < k) <;> simp

theorem bitwiseNot_spec {s : BitArray} (hinv : StorageInv s) (hw : s.bits < 2 ^ 64) :
    (bitwiseNot s).1 = .ok () ∧ (bitwiseNot s).2.bits = s.bits ∧
    (bitwiseNot s).2.disposed = s.disposed ∧
    (bitwiseNot s).2.data.length = s.data.length ∧
    (∀ i, storageBit (bitwiseNot s).2.data i
      = (decide (i < s.bits) && !storageBit s.data i)) ∧
    (∀ b, (bitwiseNot s).2.data.getLast? = some b →
      b < 256 ∧ (s.bits % 8 ≠ 0 → ∀ off, s.bits % 8 ≤ off → b.testBit off = false)) := by
  unfold StorageInv at hinv
  have hmapbit : ∀ i, i / 8 < s.data.length →
      storageBit (s.data.map (fun b => intNot b % 256)) i = !storageBit s.data i := by
    intro i hi
    simp only [storageBit, List.getD_eq_getElem?_getD, List.getElem?_map,
      List.getElem?_eq_getElem hi, Option.map_some', Option.getD_some]
    exact testBit_intNot _ _ (Nat.mod_lt _ (by norm_num))
  unfold bitwiseNot
  by_cases hk : s.bits % 8 > 0
  · simp only [hk, if_true, List.length_map]
    have hlen : 1 ≤ s.data.length := by omega
    have hlast : (s.data.length + 2 ^ 64 - 1) % 2 ^ 64 = s.data.length - 1 := by omega
    have hlt : s.data.length - 1 < (s.data.map (fun b => intNot b % 256)).length := by
      rw [List.length_map]; omega
    rw [hlast, List.getElem?_eq_getElem hlt]
    refine ⟨rfl, rfl, rfl, by simp, fun i => ?_, fun b hb => ?_⟩
    · show storageBit (List.set _ _ _) i = _
      rw [storageBit_set _ _ _ _ hlt]
      by_cases hsame : i / 8 = s.data.length - 1
      · rw [if_pos hsame, testBit_mask]
        have hbyte := hmapbit i (by omega)
        simp only [storageBit, List.getD_eq_getElem?_getD, hsame,
          List.getElem?_eq_getElem hlt, Option.getD_some] at hbyte
        rw [hbyte]
        have h8 : i % 8 < 8 := Nat.mod_lt _ (by norm_num)
        by_cases hi : i < s.bits
        · have : i % 8 < s.bits % 8 := by omega
          simp [h8, this, hi, storageBit, hsame, List.getD_eq_getElem?_getD]
        · have : ¬ i % 8 < s.bits % 8 := by omega
          simp [this, hi]
      · rw [if_neg hsame]
        by_cases hi : i / 8 < s.data.length
        · rw [hmapbit i hi]
          have : i < s.bits := by omega
          simp [this]
        · have hge : s.data.length ≤ i / 8 := Nat.le_of_not_lt hi
          rw [storageBit_of_length_le (by rw [List.length_map]; exact hge)]
          have : ¬ i < s.bits := by omega
          simp [this]
    · simp only at hb
      rw [List.getLast?_eq_getElem?, List.length_set, List.length_map,
        List.getElem?_set_self (by rw [List.length_map]; omega)] at hb
      have hb' := (Option.some.inj hb).symm
      refine ⟨by rw [hb']; exact Nat.mod_lt _ (by norm_num), fun _ off hoff => ?_⟩
      rw [hb', testBit_mask]
      have : ¬ off < s.bits % 8 := by omega
      simp [this]
  · simp only [hk, if_false]
    refine ⟨trivial, trivial, trivial, by simp, fun i => ?_, fun b hb => ?_⟩
    · by_cases hi : i / 8 < s.data.length
      · rw [hmapbit i hi]
        have : i < s.bits := by omega
        simp [this]
      · have hge : s.data.length ≤ i / 8 := Nat.le_of_not_lt hi
        rw [storageBit_of_length_le (by rw [List.length_map]; exact hge)]
        have : ¬ i < s.bits := by omega
        simp [this]
    · simp only at hb
      have hmem := List.mem_of_mem_getLast? hb
      rw [List.mem_map] at hmem
      obtain ⟨a, _, ha⟩ := hmem
      exact ⟨by rw [← ha]; exact Nat.mod_lt _ (by norm_num), fun h => absurd (by omega) h⟩

/-- C11: on a live vector whose storage has `ceil(bits / 8)` bytes, `bitwiseNot()` succeeds
and keeps `bits`; afterwards `get(i)` is the negation of what it was for every `i < bits`,
and when `bits % 8 != 0` every bit of the final byte at offset `>= bits % 8` is 0, whatever
those bits were before. -/
theorem bitwiseNot_contract (s : BitArray) (hd : s.disposed = false) (hinv : StorageInv s)
    (hw : s.bits < 2 ^ 64) :
    (bitwiseNot s).1 = .ok () ∧ (bitwiseNot s).2.bits = s.bits ∧
    (∀ i, i < s.bits →
      ∃ x, get s i = .ok x ∧ get (bitwiseNot s).2 i = .ok (!x)) ∧
    (s.bits % 8 ≠ 0 →
      ∃ b, (bitwiseNot s).2.data.getLast? = some b ∧
        ∀ off, s.bits % 8 ≤ off → b.testBit off = false) := by
  obtain ⟨h1, h2, h3, h4, h5, h6⟩ := bitwiseNot_spec hinv hw
  have hinv' : StorageInv (bitwiseNot s).2 := by
    unfold StorageInv at hinv ⊢; rw [h4, h2]; exact hinv
  refine ⟨h1, h2, fun i hi => ?_, fun hk => ?_⟩
  · refine ⟨storageBit s.data i, get_eq_storageBit hd hinv hi, ?_⟩
    rw [get_eq_storageBit (h3.trans hd) hinv' (by rw [h2]; exact hi), h5 i]
    simp [hi]
  · have hne : (bitwiseNot s).2.data ≠ [] := by
      intro he
      have := congrArg List.length he
      rw [h4] at this
      unfold StorageInv at hinv
      simp only [List.length_nil] at this
      omega
    obtain ⟨b, hb⟩ : ∃ b, (bitwiseNot s).2.data.getLast? = some b :=
      ⟨_, List.getLast?_eq_getLast _ hne⟩
    exact ⟨b, hb, (h6 b hb).2 hk⟩

/-- C11, at a concrete vector: ten bits, storage `[8, 0xfe]`, whose trailing bits are set. -/
theorem bitwiseNot_contract_witness :
    (bitwiseNot ⟨[8, 254], 10, false⟩).1 = .ok () ∧
    (bitwiseNot ⟨[8, 254], 10, false⟩).2.bits = 10 ∧
    (∀ i, i < 10 →
      ∃ x, get ⟨[8, 254], 10, false⟩ i = .ok x ∧
        get (bitwiseNot ⟨[8, 254], 10, false⟩).2 i = .ok (!x)) ∧
    ((10 : Nat) % 8 ≠ 0 →
      ∃ b, (bitwiseNot ⟨[8, 254], 10, false⟩).2.data.getLast? = some b ∧
        ∀ off, 10 % 8 ≤ off → b.testBit off = false) :=
  bitwiseNot_contract ⟨[8, 254], 10, false⟩ rfl (by decide) (by decide)

theorem bitwiseOp_storageBit (op : Nat → Nat → Nat) (bop : Bool → Bool → Bool)
    (hop : ∀ x y j, j < 8 → (op x y % 256).testBit j = bop (x.testBit j) (y.testBit j))
    {a b : BitArray} (hbits : a.bits = b.bits) (ha : StorageInv a) (hb : StorageInv b) :
    (∀ i, storageBit (bitwiseOp a b op).2.data i
      = if i / 8 < a.data.length then bop (storageBit a.data i) (storageBit b.data i)
        else false) ∧
    (∀ x ∈ (bitwiseOp a b op).2.data, x < 256) := by
  obtain ⟨_, _, _, h4, h5⟩ := bitwiseOp_spec op a b hbits ha hb
  have hlen : a.data.length = b.data.length := by
    unfold StorageInv at ha hb; omega
  constructor
  · intro i
    by_cases hlt : i / 8 < a.data.length
    · have hx := List.getElem?_eq_getElem hlt
      have hy := List.getElem?_eq_getElem (hlen ▸ hlt)
      rw [if_pos hlt]
      simp only [storageBit, List.getD_eq_getElem?_getD, h5 _ _ _ hx hy, hx, hy,
        Option.getD_some]
      exact hop _ _ _ (Nat.mod_lt _ (by norm_num))
    · rw [if_neg hlt]
      exact storageBit_of_length_le (by rw [h4]; exact Nat.le_of_not_lt hlt)
  · intro x hx
    obtain ⟨i, hi, hxi⟩ := List.getElem_of_mem hx
    have hia : i < a.data.length := h4 ▸ hi
    have hget : (bitwiseOp a b op).2.data[i]? = some x := by
      rw [List.getElem?_eq_getElem hi, hxi]
    rw [h5 i _ _ (List.getElem?_eq_getElem hia) (List.getElem?_eq_getElem (hlen ▸ hia))]
      at hget
    rw [← Option.some.inj hget]
    exact Nat.mod_lt _ (by norm_num)

theorem bitwiseNot_bytes {s : BitArray} : ∀ x ∈ (bitwiseNot s).2.data, x < 256 := by
  have hmap : ∀ x ∈ s.data.map (fun b => intNot b % 256), x < 256 := by
    intro x hx
    rw [List.mem_map] at hx
    obtain ⟨a, _, ha⟩ := hx
    rw [← ha]; exact Nat.mod_lt _ (by norm_num)
  intro x hx
  unfold bitwiseNot at hx
  by_cases hk : s.bits % 8 > 0
  · simp only [hk, if_true] at hx
    cases hg : (s.data.map (fun b => intNot b % 256))[((s.data.map
        (fun b => intNot b % 256)).length + 2 ^ 64 - 1) % 2 ^ 64]? with
    | none => rw [hg] at hx; exact hmap x hx
    | some b =>
      rw [hg] at hx
      simp only at hx
      rcases List.mem_or_eq_of_mem_set hx with h | h
      · exact hmap x h
      · rw [h]; exact Nat.mod_lt _ (by norm_num)
  · simp only [hk, if_false] at hx
    exact hmap x hx

theorem eq_of_storageBit_eq {l₁ l₂ : List Nat} (hlen : l₁.length = l₂.length)
    (h₁ : ∀ x ∈ l₁, x < 256) (h₂ : ∀ x ∈ l₂, x < 256)
    (hbit : ∀ i, storageBit l₁ i = storageBit l₂ i) : l₁ = l₂ := by
  apply List.ext_getElem hlen
  intro k hk1 hk2
  have hx := h₁ _ (List.getElem_mem hk1)
  have hy := h₂ _ (List.getElem_mem hk2)
  apply Nat.eq_of_testBit_eq
  intro j
  by_cases hj : j < 8
  · have := hbit (8 * k + j)
    have hdiv : (8 * k + j) / 8 = k := by omega
    have hmod : (8 * k + j) % 8 = j := by omega
    simpa [storageBit, List.getD_eq_getElem?_getD, hdiv, hmod,
      List.getElem?_eq_getElem hk1, List.getElem?_eq_getElem hk2] using this
  · have hpow : (2 : Nat) ^ 8 ≤ 2 ^ j := Nat.pow_le_pow_right (by norm_num) (by omega)
    rw [Nat.testBit_lt_two_pow (by omega), Nat.testBit_lt_two_pow (by omega)]

/-- C12 (De Morgan): for vectors `a`, `b` of equal `bits`, each with `ceil(bits / 8)` bytes,
`a.bitwiseAnd(b)` then `a.bitwiseNot()` leaves in `a` the same storage, byte for byte, as
`a.bitwiseNot()`, `b.bitwiseNot()`, then `a.bitwiseOr(b)` does, starting from the same `a`
and `b`; every call involved succeeds. -/
theorem de_morgan (a b : BitArray) (hbits : a.bits = b.bits) (ha : StorageInv a)
    (hb : StorageInv b) (hw : a.bits < 2 ^ 64) :
    ((bitwiseAnd a b).1 = .ok () ∧ (bitwiseNot (bitwiseAnd a b).2).1 = .ok ()) ∧
    ((bitwiseNot a).1 = .ok () ∧ (bitwiseNot b).1 = .ok () ∧
      (bitwiseOr (bitwiseNot a).2 (bitwiseNot b).2).1 = .ok ()) ∧
    (bitwiseNot (bitwiseAnd a b).2).2.data
      = (bitwiseOr (bitwiseNot a).2 (bitwiseNot b).2).2.data := by
  have hlen : a.data.length = b.data.length := by
    unfold StorageInv at ha hb; omega
  -- left side: AND, then NOT
  obtain ⟨c1, c2, _, c4, _⟩ := bitwiseOp_spec (fun x y => x &&& y) a b hbits ha hb
  obtain ⟨cbit, _⟩ := bitwiseOp_storageBit (fun x y => x &&& y) (fun p q => p && q)
    (fun x y j hj => by simp only [testBit_mod_256 _ j hj, Nat.testBit_and]) hbits ha hb
  have hcinv : StorageInv (bitwiseOp a b (fun x y => x &&& y)).2 := by
    unfold StorageInv at ha ⊢; rw [c4, c2]; exact ha
  obtain ⟨d1, _, _, d4, dbit, _⟩ := bitwiseNot_spec hcinv (by rw [c2]; exact hw)
  -- right side: NOT on both, then OR
  obtain ⟨e1, e2, _, e4, ebit, _⟩ := bitwiseNot_spec ha hw
  obtain ⟨f1, f2, _, f4, fbit, _⟩ := bitwiseNot_spec hb (hbits ▸ hw)
  have heinv : StorageInv (bitwiseNot a).2 := by
    unfold StorageInv at ha ⊢; rw [e4, e2]; exact ha
  have hfinv : StorageInv (bitwiseNot b).2 := by
    unfold StorageInv at hb ⊢; rw [f4, f2]; exact hb
  have hbits' : (bitwiseNot a).2.bits = (bitwiseNot b).2.bits := by rw [e2, f2]; exact hbits
  obtain ⟨g1, _, _, g4, _⟩ :=
    bitwiseOp_spec (fun x y => x ||| y) (bitwiseNot a).2 (bitwiseNot b).2 hbits' heinv hfinv
  obtain ⟨gbit, gbytes⟩ := bitwiseOp_storageBit (fun x y => x ||| y) (fun p q => p || q)
    (fun x y j hj => by simp only [testBit_mod_256 _ j hj, Nat.testBit_or]) hbits' heinv hfinv
  refine ⟨⟨c1, d1⟩, ⟨e1, f1, g1⟩, ?_⟩
  apply eq_of_storageBit_eq
  · show (bitwiseNot (bitwiseOp a b _).2).2.data.length = (bitwiseOp _ _ _).2.data.length
    rw [d4, c4, g4, e4]
  · exact bitwiseNot_bytes
  · exact gbytes
  · intro i
    show storageBit (bitwiseNot (bitwiseOp a b _).2).2.data i
      = storageBit (bitwiseOp _ _ _).2.data i
    rw [dbit i, cbit i, gbit i, ebit i, fbit i, c2, e4, ← hbits]
    by_cases hi : i / 8 < a.data.length
    · simp only [hi, if_true]
      cases decide (i < a.bits) <;> cases storageBit a.data i <;>
        cases storageBit b.data i <;> rfl
    · have hnot : ¬ i < a.bits := by unfold StorageInv at ha; omega
      simp [hi, hnot]

/-- C12, at concrete vectors: ten bits each, storage `[12, 1]` and `[10, 3]`. -/
theorem de_morgan_witness :
    ((bitwiseAnd ⟨[12, 1], 10, false⟩ ⟨[10, 3], 10, false⟩).1 = .ok () ∧
      (bitwiseNot (bitwiseAnd ⟨[12, 1], 10, false⟩ ⟨[10, 3], 10, false⟩).2).1 = .ok ()) ∧
    ((bitwiseNot ⟨[12, 1], 10, false⟩).1 = .ok () ∧
      (bitwiseNot ⟨[10, 3], 10, false⟩).1 = .ok () ∧
      (bitwiseOr (bitwiseNot ⟨[12, 1], 10, false⟩).2
        (bitwiseNot ⟨[10, 3], 10, false⟩).2).1 = .ok ()) ∧
    (bitwiseNot (bitwiseAnd ⟨[12, 1], 10, false⟩ ⟨[10, 3], 10, false⟩).2).2.data
      = (bitwiseOr (bitwiseNot ⟨[12, 1], 10, false⟩).2
          (bitwiseNot ⟨[10, 3], 10, false⟩).2).2.data :=
  de_morgan ⟨[12, 1], 10, false⟩ ⟨[10, 3], 10, false⟩ rfl (by decide) (by decide) (by decide)

/-! ### `set` on the bits of the storage, `setBatch`, `getBatch` -/

theorem set_effect {s : BitArray} {pos : Nat} (v : Bool) (hd : s.disposed = false)
    (hinv : StorageInv s) (hpos : pos < s.bits) :
    (set s pos v).1 = .ok () ∧ (set s pos v).2.bits = s.bits ∧
    (set s pos v).2.disposed = false ∧ StorageInv (set s pos v).2 ∧
    (∀ i, storageBit (set s pos v).2.data i = if i = pos then v else storageBit s.data i) ∧
    ((∀ x ∈ s.data, x < 256) → ∀ x ∈ (set s pos v).2.data, x < 256) := by
  have hk : pos / 8 < s.data.length := index_lt_of_inv hinv hpos
  have hb : s.data[pos / 8]? = some s.data[pos / 8] := List.getElem?_eq_getElem hk
  have h8 : pos % 8 < 8 := Nat.mod_lt _ (by norm_num)
  rw [set_of_byte v hd hpos hb]
  refine ⟨rfl, rfl, hd, ?_, fun i => ?_, fun hx x hmem => ?_⟩
  · simp only [StorageInv, List.length_set]; exact hinv
  · show storageBit (s.data.set _ _) i = _
    rw [storageBit_set _ _ _ _ hk]
    by_cases hi : i = pos
    · subst hi
      simp [testBit_setByte _ _ _ v h8 h8]
    · rw [if_neg hi]
      by_cases hsame : i / 8 = pos / 8
      · have hoff : pos % 8 ≠ i % 8 := by omega
        rw [if_pos hsame, testBit_setByte _ _ _ v h8 (Nat.mod_lt _ (by norm_num)), if_neg hoff]
        simp [storageBit, hsame, List.getD_eq_getElem?_getD, hb]
      · rw [if_neg hsame]
  · rcases List.mem_or_eq_of_mem_set hmem with h | h
    · exact hx x h
    · rw [h]; unfold setByte; split <;> exact Nat.mod_lt _ (by norm_num)

theorem set_invalid {s : BitArray} {pos : Nat} (v : Bool) (hd : s.disposed = false)
    (hpos : s.bits ≤ pos) : set s pos v = (.error (.outOfRange pos), s) := by
  simp [set, validate, hd, hpos]

theorem get_invalid {s : BitArray} {pos : Nat} (hd : s.disposed = false)
    (hpos : s.bits ≤ pos) : get s pos = .error (.outOfRange pos) := by
  simp [get, validate, hd, hpos]

theorem fold_set_inv (v : Bool) :
    ∀ (ps : List Nat) (s : BitArray), s.disposed = false → StorageInv s →
      (∀ p ∈ ps, p < s.bits) →
      (ps.foldl (fun st p => (set st p v).2) s).disposed = false ∧
      StorageInv (ps.foldl (fun st p => (set st p v).2) s) ∧
      (ps.foldl (fun st p => (set st p v).2) s).bits = s.bits := by
  intro ps
  induction ps with
  | nil => intro s hd hinv _; exact ⟨hd, hinv, rfl⟩
  | cons p t ih =>
    intro s hd hinv hps
    obtain ⟨_, h2, h3, h4, _, _⟩ := set_effect v hd hinv (hps p (List.mem_cons_self _ _))
    obtain ⟨i1, i2, i3⟩ := ih (set s p v).2 h3 h4
      (fun q hq => by rw [h2]; exact hps q (List.mem_cons_of_mem _ hq))
    exact ⟨i1, i2, i3.trans h2⟩

theorem setBatch_append (v : Bool) :
    ∀ (pre rest : List Nat) (s : BitArray), s.disposed = false → StorageInv s →
      (∀ p ∈ pre, p < s.bits) →
      setBatch s (pre ++ rest) v = setBatch (pre.foldl (fun st p => (set st p v).2) s) rest v := by
  intro pre
  induction pre with
  | nil => intro rest s _ _ _; rfl
  | cons p t ih =>
    intro rest s hd hinv hps
    obtain ⟨h1, h2, h3, h4, _, _⟩ := set_effect v hd hinv (hps p (List.mem_cons_self _ _))
    have hstep : setBatch s (p :: (t ++ rest)) v = setBatch (set s p v).2 (t ++ rest) v := by
      rw [setBatch]
      cases hr : set s p v with
      | mk r s' =>
        rw [hr] at h1
        simp only at h1
        subst h1
        rfl
    rw [List.cons_append, hstep, ih rest (set s p v).2 h3 h4
      (fun q hq => by rw [h2]; exact hps q (List.mem_cons_of_mem _ hq))]
    rfl

/-- C18 fails as stated: `deserialize` accepts a text of eight bits and no bytes, and on the
instance it returns `setBatch([0], v)`, whose only position is valid, does not succeed, and
`setBatch([0, 9], v)` does not fail with `OutOfRange`: position 0 has no byte to write to. -/
theorem setBatch_short_storage :
    deserialize "\x7b\"bits\":8,\"data\":[]\x7d".toList = .ok ⟨[], 8, false⟩ ∧
    (setBatch ⟨[], 8, false⟩ [0] true).1 = .error .outOfBounds ∧
    (setBatch ⟨[], 8, false⟩ [0, 9] true).1 = .error .outOfBounds := by
  decide

/-- C18, amended: on a live vector whose storage has `ceil(bits / 8)` bytes, if the first
invalid position of the list (`>= bits`) is `p`, at index `k`, then `setBatch(positions, v)`
fails with `OutOfRange` for `p` and leaves the vector obtained by applying `set(q, v)` to
exactly the first `k` positions in order; if no position is invalid it succeeds and leaves the
vector obtained by applying `set` to all of them in order. -/
theorem setBatch_partial_effect (s : BitArray) (positions : List Nat) (v : Bool)
    (hd : s.disposed = false) (hinv : StorageInv s) :
    (∀ k p, positions[k]? = some p → s.bits ≤ p → (∀ q ∈ positions.take k, q < s.bits) →
      setBatch s positions v
        = (.error (.outOfRange p), (positions.take k).foldl (fun st q => (set st q v).2) s)) ∧
    ((∀ q ∈ positions, q < s.bits) →
      setBatch s positions v
        = (.ok (), positions.foldl (fun st q => (set st q v).2) s)) := by
  constructor
  · intro k p hk hp hpre
    have hklt : k < positions.length := by
      by_contra hge
      rw [List.getElem?_eq_none (Nat.le_of_not_lt hge)] at hk
      exact Option.noConfusion hk
    have hsplit : positions = positions.take k ++ p :: positions.drop (k + 1) := by
      have hpk : positions[k] = p := by
        rw [List.getElem?_eq_getElem hklt] at hk; exact Option.some.inj hk
      rw [← hpk, ← List.drop_eq_getElem_cons hklt, List.take_append_drop]
    obtain ⟨i1, _, i3⟩ := fold_set_inv v (positions.take k) s hd hinv hpre
    conv_lhs => rw [hsplit]
    rw [setBatch_append v _ _ s hd hinv hpre, setBatch,
      set_invalid v i1 (by rw [i3]; exact hp)]
  · intro hall
    have h := setBatch_append v positions [] s hd hinv hall
    rw [List.append_nil] at h
    rw [h]
    rfl

/-- C18, amended, at a concrete vector: ten clear bits, positions `[3, 12, 9]`, then
`[3, 9]`. -/
theorem setBatch_partial_effect_witness :
    setBatch (create 10) [3, 12, 9] true
      = (.error (.outOfRange 12), ([3, 12, 9].take 1).foldl (fun st q => (set st q true).2)
          (create 10)) ∧
    setBatch (create 10) [3, 9] true
      = (.ok (), [3, 9].foldl (fun st q => (set st q true).2) (create 10)) :=
  ⟨(setBatch_partial_effect (create 10) [3, 12, 9] true rfl (by decide)).1 1 12 rfl
      (by decide) (by decide),
   (setBatch_partial_effect (create 10) [3, 9] true rfl (by decide)).2 (by decide)⟩

theorem getBatchLoop_valid {s : BitArray} (hd : s.disposed = false) (hinv : StorageInv s) :
    ∀ (ps : List Nat) (acc : List Bool), (∀ p ∈ ps, p < s.bits) →
      getBatchLoop s ps acc = .ok (acc ++ ps.map (storageBit s.data)) := by
  intro ps
  induction ps with
  | nil => intro acc _; simp [getBatchLoop]
  | cons p t ih =>
    intro acc hps
    rw [getBatchLoop, get_eq_storageBit hd hinv (hps p (List.mem_cons_self _ _))]
    simp only
    rw [ih _ (fun q hq => hps q (List.mem_cons_of_mem _ hq))]
    simp

theorem getBatchLoop_invalid {s : BitArray} (hd : s.disposed = false) (hinv : StorageInv s) :
    ∀ (pre : List Nat) (p : Nat) (rest : List Nat) (acc : List Bool),
      (∀ q ∈ pre, q < s.bits) → s.bits ≤ p →
      getBatchLoop s (pre ++ p :: rest) acc = .error (.outOfRange p) := by
  intro pre
  induction pre with
  | nil =>
    intro p rest acc _ hp
    rw [List.nil_append, getBatchLoop, get_invalid hd hp]
  | cons a t ih =>
    intro p rest acc hpre hp
    rw [List.cons_append, getBatchLoop,
      get_eq_storageBit hd hinv (hpre a (List.mem_cons_self _ _))]
    simp only
    exact ih p rest _ (fun q hq => hpre q (List.mem_cons_of_mem _ hq)) hp

/-- C19 fails as stated: on the instance `deserialize` returns for a text of eight bits and no
bytes, `getBatch([0])`, whose only position is valid, returns no sequence, and
`getBatch([0, 9])` does not fail with `OutOfRange`: position 0 has no byte to read. -/
theorem getBatch_short_storage :
    deserialize "\x7b\"bits\":8,\"data\":[]\x7d".toList = .ok ⟨[], 8, false⟩ ∧
    getBatch ⟨[], 8, false⟩ [0] = .error .outOfBounds ∧
    getBatch ⟨[], 8, false⟩ [0, 9] = .error .outOfBounds := by
  decide

/-- C19, amended: on a live vector whose storage has `ceil(bits / 8)` bytes, if all positions
are `< bits` then `getBatch(positions)` returns a sequence of the same length whose `k`-th
element is `get(positions[k])`; otherwise it fails with `OutOfRange` naming the first invalid
position and returns no sequence.  `getBatch` is a `const` member: it has no state to
change. -/
theorem getBatch_contract (s : BitArray) (positions : List Nat) (hd : s.disposed = false)
    (hinv : StorageInv s) :
    ((∀ q ∈ positions, q < s.bits) →
      ∃ r, getBatch s positions = .ok r ∧ r.length = positions.length ∧
        ∀ (k p : Nat), positions[k]? = some p → ∃ b, r[k]? = some b ∧ get s p = .ok b) ∧
    (∀ (k p : Nat), positions[k]? = some p → s.bits ≤ p →
      (∀ q ∈ positions.take k, q < s.bits) →
      getBatch s positions = .error (.outOfRange p)) := by
  constructor
  · intro hall
    refine ⟨positions.map (storageBit s.data), ?_, by simp, fun k p hk => ?_⟩
    · have := getBatchLoop_valid hd hinv positions [] hall
      simpa [getBatch] using this
    · refine ⟨storageBit s.data p, by simp [List.getElem?_map, hk], ?_⟩
      exact get_eq_storageBit hd hinv (hall p (List.getElem?_mem hk))
  · intro k p hk hp hpre
    have hklt : k < positions.length := by
      by_contra hge
      rw [List.getElem?_eq_none (Nat.le_of_not_lt hge)] at hk
      exact Option.noConfusion hk
    have hsplit : positions = positions.take k ++ p :: positions.drop (k + 1) := by
      have hpk : positions[k] = p := by
        rw [List.getElem?_eq_getElem hklt] at hk; exact Option.some.inj hk
      rw [← hpk, ← List.drop_eq_getElem_cons hklt, List.take_append_drop]
    unfold getBatch
    conv_lhs => rw [hsplit]
    exact getBatchLoop_invalid hd hinv _ p _ [] hpre hp

/-- C19, amended, at a concrete vector: ten bits with bits 3 and 9 set, positions `[9, 0, 3]`,
then `[3, 12, 9]`. -/
theorem getBatch_contract_witness :
    (∃ r, getBatch ⟨[8, 2], 10, false⟩ [9, 0, 3] = .ok r ∧ r.length = [9, 0, 3].length ∧
      ∀ (k p : Nat), [9, 0, 3][k]? = some p →
        ∃ b, r[k]? = some b ∧ get ⟨[8, 2], 10, false⟩ p = .ok b) ∧
    getBatch ⟨[8, 2], 10, false⟩ [3, 12, 9] = .error (.outOfRange 12) :=
  ⟨(getBatch_contract ⟨[8, 2], 10, false⟩ [9, 0, 3] rfl (by decide)).1 (by decide),
   (getBatch_contract ⟨[8, 2], 10, false⟩ [3, 12, 9] rfl (by decide)).2 1 12 rfl
      (by decide) (by decide)⟩

/-! ### `getRange`, `setRange`, `findFirst` -/

theorem getRangeLoop_valid {s : BitArray} (hd : s.disposed = false) (hinv : StorageInv s)
    (hw : s.bits < 2 ^ 64) (max : Nat) (hmax : max < s.bits) :
    ∀ (fuel i : Nat) (acc : List Bool), i + fuel = max + 1 →
      getRangeLoop s max fuel i acc
        = .ok (acc ++ (List.range' i fuel).map (storageBit s.data)) := by
  intro fuel
  induction fuel with
  | zero =>
    intro i acc hi
    rw [getRangeLoop.eq_def]
    have hle : ¬ i ≤ max := by omega
    simp [hle]
  | succ f ih =>
    intro i acc hi
    rw [getRangeLoop.eq_def]
    have hle : i ≤ max := by omega
    have hnext : (i + 1) % 2 ^ 64 = i + 1 := Nat.mod_eq_of_lt (by omega)
    simp only [hle, if_true, get_eq_storageBit hd hinv (show i < s.bits by omega), hnext]
    rw [ih (i + 1) _ (by omega)]
    simp [List.range'_succ]

/-- C16: on a live vector whose storage has `ceil(bits / 8)` bytes, for `min <= max < bits`
(a range a `std::vector<bool>` can hold) `getRange(min, max)` returns a sequence of length
`max - min + 1` whose `k`-th element is `get(min + k)`; it fails with `Disposed` on a disposed
vector and with `OutOfRange` when `min`, or else `max`, is not a valid position.  `getRange`
is a `const` member: it has no state to change. -/
theorem getRange_contract (s : BitArray) (min max : Nat) :
    (s.disposed = false → StorageInv s → s.bits < 2 ^ 64 → min ≤ max → max < s.bits →
      max - min + 1 ≤ vectorBoolMaxSize →
      ∃ r, getRange s min max = .ok r ∧ r.length = max - min + 1 ∧
        ∀ k, k ≤ max - min → ∃ b, r[k]? = some b ∧ get s (min + k) = .ok b) ∧
    (s.disposed = true → getRange s min max = .error .disposed) ∧
    (s.disposed = false → s.bits ≤ min → getRange s min max = .error (.outOfRange min)) ∧
    (s.disposed = false → min < s.bits → s.bits ≤ max →
      getRange s min max = .error (.outOfRange max)) := by
  refine ⟨fun hd hinv hw hmin hmax hres => ?_, fun hd => ?_, fun hd hmin => ?_,
    fun hd hmin hmax => ?_⟩
  · have hcount : ((max + 2 ^ 64 - min) % 2 ^ 64 + 1) % 2 ^ 64 = max - min + 1 := by omega
    have hnot : ¬ (max - min + 1 > vectorBoolMaxSize) := by omega
    have hloop := getRangeLoop_valid hd hinv hw max hmax (max + 1 - min) min [] (by omega)
    refine ⟨(List.range' min (max + 1 - min)).map (storageBit s.data), ?_, ?_, fun k hk => ?_⟩
    · simp only [getRange, validate_ok hd (show min < s.bits by omega), validate_ok hd hmax,
        hcount, if_neg hnot, hloop, List.nil_append]
    · simp only [List.length_map, List.length_range']; omega
    · refine ⟨storageBit s.data (min + k), ?_, get_eq_storageBit hd hinv (by omega)⟩
      have hk' : k < max + 1 - min := by omega
      simp [List.getElem?_map, List.getElem?_range', hk']
  · simp [getRange, validate, hd]
  · simp [getRange, validate, hd, hmin]
  · have h1 : ¬ s.bits ≤ min := by omega
    simp [getRange, validate, hd, h1, hmax]

/-- C16, at the vector of the specification's scenario (ten bits, bits 3 and 9 set) with the
range `[2, 9]`, and at invalid bounds. -/
theorem getRange_contract_witness :
    (∃ r, getRange ⟨[8, 2], 10, false⟩ 2 9 = .ok r ∧ r.length = 9 - 2 + 1 ∧
      ∀ k, k ≤ 9 - 2 → ∃ b, r[k]? = some b ∧ get ⟨[8, 2], 10, false⟩ (2 + k) = .ok b) ∧
    getRange ⟨[], 0, true⟩ 2 9 = .error .disposed ∧
    getRange ⟨[8, 2], 10, false⟩ 10 12 = .error (.outOfRange 10) ∧
    getRange ⟨[8, 2], 10, false⟩ 2 12 = .error (.outOfRange 12) :=
  ⟨(getRange_contract ⟨[8, 2], 10, false⟩ 2 9).1 rfl (by decide) (by decide) (by decide)
      (by decide) (by decide),
   (getRange_contract ⟨[], 0, true⟩ 2 9).2.1 rfl,
   (getRange_contract ⟨[8, 2], 10, false⟩ 10 12).2.2.1 rfl (by decide),
   (getRange_contract ⟨[8, 2], 10, false⟩ 2 12).2.2.2 rfl (by decide) (by decide)⟩

theorem setRangeLoop_valid (v : Bool) (max n : Nat) (hn : n < 2 ^ 64) (hmax : max < n) :
    ∀ (fuel i : Nat) (s : BitArray), s.disposed = false → StorageInv s → s.bits = n →
      i + fuel = max + 1 →
      (setRangeLoop v max fuel i s).1 = .ok () ∧
      (setRangeLoop v max fuel i s).2.disposed = false ∧
      StorageInv (setRangeLoop v max fuel i s).2 ∧
      (setRangeLoop v max fuel i s).2.bits = n ∧
      ∀ j, storageBit (setRangeLoop v max fuel i s).2.data j
        = if i ≤ j ∧ j ≤ max then v else storageBit s.data j := by
  intro fuel
  induction fuel with
  | zero =>
    intro i s hd hinv hb hi
    rw [setRangeLoop.eq_def]
    have hle : ¬ i ≤ max := by omega
    simp only [hle, if_false]
    refine ⟨trivial, hd, hinv, hb, fun j => ?_⟩
    have : ¬ (i ≤ j ∧ j ≤ max) := by omega
    rw [if_neg this]
  | succ f ih =>
    intro i s hd hinv hb hi
    have hle : i ≤ max := by omega
    have hnext : (i + 1) % 2 ^ 64 = i + 1 := Nat.mod_eq_of_lt (by omega)
    obtain ⟨h1, h2, h3, h4, h5, _⟩ := set_effect v hd hinv (show i < s.bits by omega)
    have hstep : setRangeLoop v max (f + 1) i s = setRangeLoop v max f (i + 1) (set s i v).2 := by
      rw [setRangeLoop.eq_def]
      simp only [hle, if_true, hnext]
      cases hr : set s i v with
      | mk r s' =>
        rw [hr] at h1
        simp only at h1
        subst h1
        rfl
    obtain ⟨k1, k2, k3, k4, k5⟩ := ih (i + 1) (set s i v).2 h3 h4 (h2.trans hb) (by omega)
    rw [hstep]
    refine ⟨k1, k2, k3, k4, fun j => ?_⟩
    rw [k5 j, h5 j]
    by_cases hj : j = i
    · subst hj
      have c1 : ¬ (j + 1 ≤ j ∧ j ≤ max) := by omega
      have c2 : j ≤ j ∧ j ≤ max := ⟨Nat.le_refl _, hle⟩
      rw [if_neg c1, if_pos rfl, if_pos c2]
    · by_cases hc : i ≤ j ∧ j ≤ max
      · have c1 : i + 1 ≤ j ∧ j ≤ max := by omega
        rw [if_pos c1, if_pos hc]
      · have c1 : ¬ (i + 1 ≤ j ∧ j ≤ max) := by omega
        rw [if_neg c1, if_neg hj, if_neg hc]

/-- C17: on a live vector whose storage has `ceil(bits / 8)` bytes, for `min <= max < bits`,
`setRange(min, max, v)` terminates successfully; afterwards `get(i) = v` for every `i` in
`[min, max]`, `get(j)` is what it was for every `j < bits` outside the range, and `bits` is
unchanged. -/
theorem setRange_contract (s : BitArray) (min max : Nat) (v : Bool) (hd : s.disposed = false)
    (hinv : StorageInv s) (hw : s.bits < 2 ^ 64) (hmin : min ≤ max) (hmax : max < s.bits) :
    (setRange s min max v).1 = .ok () ∧
    (setRange s min max v).2.bits = s.bits ∧
    (∀ i, min ≤ i → i ≤ max → get (setRange s min max v).2 i = .ok v) ∧
    (∀ j, j < s.bits → (j < min ∨ max < j) → get (setRange s min max v).2 j = get s j) := by
  obtain ⟨k1, k2, k3, k4, k5⟩ :=
    setRangeLoop_valid v max s.bits hw hmax (max + 1 - min) min s hd hinv rfl (by omega)
  have hrun : setRange s min max v = setRangeLoop v max (max + 1 - min) min s := by
    simp only [setRange, validate_ok hd (show min < s.bits by omega), validate_ok hd hmax]
  rw [hrun]
  refine ⟨k1, k4, fun i hlo hhi => ?_, fun j hj hout => ?_⟩
  · rw [get_eq_storageBit k2 k3 (by rw [k4]; omega), k5 i, if_pos ⟨hlo, hhi⟩]
  · have hc : ¬ (min ≤ j ∧ j ≤ max) := by omega
    rw [get_eq_storageBit k2 k3 (by rw [k4]; exact hj), k5 j, if_neg hc,
      get_eq_storageBit hd hinv hj]

/-- C17, at a concrete vector: ten bits with bits 3 and 9 set, `setRange(2, 8, true)`. -/
theorem setRange_contract_witness :
    (setRange ⟨[8, 2], 10, false⟩ 2 8 true).1 = .ok () ∧
    (setRange ⟨[8, 2], 10, false⟩ 2 8 true).2.bits = 10 ∧
    (∀ i, 2 ≤ i → i ≤ 8 → get (setRange ⟨[8, 2], 10, false⟩ 2 8 true).2 i = .ok true) ∧
    (∀ j, j < 10 → (j < 2 ∨ 8 < j) →
      get (setRange ⟨[8, 2], 10, false⟩ 2 8 true).2 j = get ⟨[8, 2], 10, false⟩ j) :=
  setRange_contract ⟨[8, 2], 10, false⟩ 2 8 true rfl (by decide) (by decide) (by decide)
    (by decide)

theorem findFirstLoop_spec {s : BitArray} (hd : s.disposed = false) (hinv : StorageInv s) :
    ∀ (n i : Nat), i + n = s.bits →
      ((∀ j, i ≤ j → j < s.bits → storageBit s.data j = false) →
        findFirstLoop s n i = .ok npos) ∧
      (∀ k, i ≤ k → k < s.bits → storageBit s.data k = true →
        (∀ j, i ≤ j → j < k → storageBit s.data j = false) →
        findFirstLoop s n i = .ok k) := by
  intro n
  induction n with
  | zero =>
    intro i hi
    refine ⟨fun _ => rfl, fun k hk hlt _ _ => ?_⟩
    omega
  | succ n ih =>
    intro i hi
    have hlt : i < s.bits := by omega
    obtain ⟨ih1, ih2⟩ := ih (i + 1) (by omega)
    constructor
    · intro hall
      rw [findFirstLoop, get_eq_storageBit hd hinv hlt, hall i (Nat.le_refl _) hlt]
      exact ih1 (fun j hj hjb => hall j (by omega) hjb)
    · intro k hk hkb hset hbefore
      rw [findFirstLoop, get_eq_storageBit hd hinv hlt]
      by_cases hki : k = i
      · subst hki
        rw [hset]
      · have hik : i < k := by omega
        rw [hbefore i (Nat.le_refl _) hik]
        exact ih2 k (by omega) hkb hset (fun j hj hjk => hbefore j (by omega) hjk)

/-- C14: on a live vector whose storage has `ceil(bits / 8)` bytes, if some `i < bits` has
`get(i)` true then `findFirst()` returns the least such `i`; otherwise (also when
`bits = 0`) it returns the sentinel, the largest value of `size_t`, and raises no error; and
it returns the sentinel only when no bit in range is set. -/
theorem findFirst_contract (s : BitArray) (hd : s.disposed = false) (hinv : StorageInv s)
    (hw : s.bits < 2 ^ 64) :
    ((∃ i, i < s.bits ∧ get s i = .ok true) →
      ∃ k, findFirst s = .ok k ∧ k < s.bits ∧ get s k = .ok true ∧
        ∀ j, j < k → get s j = .ok false) ∧
    ((∀ i, i < s.bits → get s i = .ok false) → findFirst s = .ok npos) ∧
    (findFirst s = .ok npos → ∀ i, i < s.bits → get s i = .ok false) ∧
    npos = 2 ^ 64 - 1 := by
  obtain ⟨hnone, hsome⟩ := findFirstLoop_spec hd hinv s.bits 0 (by omega)
  have hfound : (∃ i, i < s.bits ∧ get s i = .ok true) →
      ∃ k, findFirst s = .ok k ∧ k < s.bits ∧ get s k = .ok true ∧
        ∀ j, j < k → get s j = .ok false := by
    rintro ⟨i, hi, hgi⟩
    have hex : ∃ k, k < s.bits ∧ storageBit s.data k = true := by
      refine ⟨i, hi, ?_⟩
      rw [get_eq_storageBit hd hinv hi] at hgi
      exact Except.ok.inj hgi
    have hk := Nat.find_spec hex
    have hmin : ∀ j, j < Nat.find hex → storageBit s.data j = false := by
      intro j hj
      have := Nat.find_min hex hj
      have hjb : j < s.bits := Nat.lt_trans hj hk.1
      cases hsb : storageBit s.data j
      · rfl
      · exact absurd ⟨hjb, hsb⟩ this
    refine ⟨Nat.find hex, hsome _ (Nat.zero_le _) hk.1 hk.2 (fun j _ hj => hmin j hj), hk.1, ?_,
      fun j hj => ?_⟩
    · rw [get_eq_storageBit hd hinv hk.1, hk.2]
    · rw [get_eq_storageBit hd hinv (Nat.lt_trans hj hk.1), hmin j hj]
  refine ⟨hfound, fun hall => ?_, fun hres i hi => ?_, rfl⟩
  · apply hnone
    intro j _ hj
    have := hall j hj
    rw [get_eq_storageBit hd hinv hj] at this
    exact Except.ok.inj this
  · rw [get_eq_storageBit hd hinv hi]
    cases hsb : storageBit s.data i
    · rfl
    · obtain ⟨k, hk, hkb, _, _⟩ := hfound ⟨i, hi, by rw [get_eq_storageBit hd hinv hi, hsb]⟩
      rw [hres] at hk
      have : npos = k := Except.ok.inj hk
      unfold npos at this
      omega

/-- C14, at the vector of the specification's scenario (ten bits, bits 3 and 9 set) and at
the empty vector. -/
theorem findFirst_contract_witness :
    (∃ k, findFirst ⟨[8, 2], 10, false⟩ = .ok k ∧ k < 10 ∧
      get ⟨[8, 2], 10, false⟩ k = .ok true ∧
      ∀ j, j < k → get ⟨[8, 2], 10, false⟩ j = .ok false) ∧
    findFirst (create 0) = .ok npos :=
  ⟨(findFirst_contract ⟨[8, 2], 10, false⟩ rfl (by decide) (by decide)).1
      ⟨3, by decide, by decide⟩,
   (findFirst_contract (create 0) rfl (by decide) (by decide)).2.1
      (fun i hi => absurd hi (Nat.not_lt_zero i))⟩

/-! ### The text of `serialize` -/

theorem toString_toList (n : Nat) : (toString n).toList = decimal n := rfl

theorem toString_data (n : Nat) : (toString n).data = decimal n := rfl

theorem intercalate_go_toList (sep : String) :
    ∀ (l : List String) (acc : String),
      (String.intercalate.go acc sep l).toList
        = acc.toList ++ (l.map (fun x => sep.toList ++ x.toList)).flatten := by
  intro l
  induction l with
  | nil => intro acc; simp [String.intercalate.go]
  | cons a t ih =>
    intro acc
    rw [String.intercalate.go, ih]
    simp [String.toList, String.data_append]

theorem dataText_eq_intercalate :
    ∀ data : List Nat, dataText data = (",".intercalate (data.map toString)).toList := by
  intro data
  have hc : ",".toList = [','] := by decide
  have key : ∀ (t : List Nat) (b : Nat),
      dataText (b :: t)
        = decimal b ++ ((t.map toString).map (fun x => ",".toList ++ x.toList)).flatten := by
    intro t
    induction t with
    | nil => intro b; simp [dataText]
    | cons c t ih =>
      intro b
      rw [dataText, ih c]
      simp [hc, toString_toList, toString_data]
  cases data with
  | nil => rfl
  | cons b t =>
    rw [key t b]
    simp only [List.map_cons, String.intercalate, intercalate_go_toList, toString_toList]

/-- C15: for every vector with `bits = N` and storage bytes `b0 .. bk-1`, `serialize()`
returns exactly the text `{"bits":N,"data":[b0,b1,...,bk-1]}`: `N` and each byte as plain
decimal integers, bytes separated by single commas, no white space, and `"data":[]` for an
empty storage. -/
theorem serialize_text (s : BitArray) (hlen : s.data.length < 2 ^ 64) :
    serialize s = .ok (specText s.bits s.data) ∧
    specText s.bits [] = "\x7b\"bits\":".toList ++ (toString s.bits).toList
      ++ ",\"data\":[]\x7d".toList := by
  constructor
  · rw [serialize_eq s hlen, specText, ← dataText_eq_intercalate, toString_toList]
    have h1 : "\x7b\"bits\":".toList = bitsKey := by decide
    have h2 : ",\"data\":[".toList = dataKey := by decide
    have h3 : "]\x7d".toList = closing := by decide
    simp only [h1, h2, h3, List.append_assoc]
  · have h4 : ",\"data\":[]\x7d".toList = ",\"data\":[".toList ++ "]\x7d".toList := by decide
    rw [h4]
    simp [specText, String.intercalate]

/-- C15, at the specification's scenario: size 10 with bits 3 and 9 set gives
`{"bits":10,"data":[8,2]}`. -/
theorem serialize_text_witness :
    serialize (set (set (create 10) 3 true).2 9 true).2
      = .ok "\x7b\"bits\":10,\"data\":[8,2]\x7d".toList :=
  (serialize_text (set (set (create 10) 3 true).2 9 true).2 (by decide)).1.trans (by decide)

/-! ### `create` -/

/-- C20 fails as stated: for `size = 2^64 - 1` the byte count `(size + 7) / 8`, computed in
`size_t`, wraps to 0, so the storage of `create(size)` is empty instead of holding
`ceil(size / 8)` bytes, and `get(0)` has no byte to read. -/
theorem create_length_wraps :
    (create (2 ^ 64 - 1)).bits = 2 ^ 64 - 1 ∧
    (create (2 ^ 64 - 1)).data.length = 0 ∧
    (create (2 ^ 64 - 1)).data.length ≠ (2 ^ 64 - 1 + 7) / 8 ∧
    get (create (2 ^ 64 - 1)) 0 = .error .outOfBounds := by
  decide

/-- C20, amended: `create(size)` returns a live vector with `bits = size` whose storage is
`(size + 7) / 8` zero bytes, the count being computed in the 64-bit unsigned type; for
`size <= 2^64 - 8` that is exactly `ceil(size / 8)` bytes and `get(i)` is false for every
`i < size`. -/
theorem create_contract (size : Nat) :
    ((create size).bits = size ∧ (create size).disposed = false ∧
      (create size).data.length = (size + 7) % 2 ^ 64 / 8 ∧
      ∀ b ∈ (create size).data, b = 0) ∧
    (size ≤ 2 ^ 64 - 8 →
      (create size).data.length = (size + 7) / 8 ∧
      ∀ i, i < size → get (create size) i = .ok false) := by
  refine ⟨⟨rfl, rfl, by simp [create], fun b hb => ?_⟩, fun hsize => ?_⟩
  · simp only [create] at hb
    exact (List.mem_replicate.mp hb).2
  · obtain ⟨hd, _, hinv, hz⟩ := cleanInv_create size hsize
    refine ⟨hinv, fun i hi => ?_⟩
    rw [get_eq_storageBit hd hinv hi]
    simp only [storageBit, create, List.getD_eq_getElem?_getD, List.getElem?_replicate]
    split <;> simp

/-- C20, amended, at size 10. -/
theorem create_contract_witness :
    (create 10).data.length = (10 + 7) / 8 ∧ ∀ i, i < 10 → get (create 10) i = .ok false :=
  (create_contract 10).2 (by decide)

/-! ### `countSetBits` -/

set_option maxRecDepth 100000 in
theorem popCount8_step : ∀ b, b < 256 → popCount8 b = b % 2 + popCount8 (b / 2) := by
  decide

set_option maxRecDepth 100000 in
set_option maxHeartbeats 4000000 in
theorem popCount8_setByte : ∀ b, b < 256 → ∀ off, off < 8 →
    popCount8 (setByte b off true) = popCount8 b + if b.testBit off then 0 else 1 := by
  decide

theorem countByteLoop_eq :
    ∀ (fuel b c : Nat), b < 2 ^ fuel → b < 256 → c + popCount8 b < 2 ^ 64 →
      countByteLoop fuel b c = c + popCount8 b := by
  intro fuel
  induction fuel with
  | zero =>
    intro b c hb _ _
    have hb0 : b = 0 := by simpa using hb
    subst hb0
    rfl
  | succ f ih =>
    intro b c hb h256 hsum
    by_cases hb0 : b = 0
    · subst hb0
      rfl
    · have hstep := popCount8_step b h256
      have hand : b &&& 1 = b % 2 := Nat.and_one_is_mod b
      have hshift : b >>> 1 = b / 2 := by simp [Nat.shiftRight_eq_div_pow]
      have hmod : (c + b % 2) % 2 ^ 64 = c + b % 2 := Nat.mod_eq_of_lt (by omega)
      rw [countByteLoop, if_pos hb0, hand, hshift, hmod,
        ih (b / 2) (c + b % 2) (by rw [Nat.pow_succ] at hb; omega) (by omega) (by omega)]
      omega

theorem countSetBits_fold :
    ∀ (data : List Nat) (c : Nat), (∀ x ∈ data, x < 256) → c + storageWeight data < 2 ^ 64 →
      data.foldl (fun count byte => countByteLoop byte byte count) c
        = c + storageWeight data := by
  intro data
  induction data with
  | nil => intro c _ _; simp [storageWeight]
  | cons b t ih =>
    intro c hbytes hsum
    have hb : b < 256 := hbytes b (List.mem_cons_self _ _)
    have hw : storageWeight (b :: t) = popCount8 b + storageWeight t := by
      simp [storageWeight]
    rw [hw] at hsum
    rw [List.foldl_cons, countByteLoop_eq b b c (Nat.lt_two_pow b) hb (by omega),
      ih _ (fun x hx => hbytes x (List.mem_cons_of_mem _ hx)) (by omega), hw]
    omega

theorem countSetBits_eq_weight {s : BitArray} (hbytes : ∀ x ∈ s.data, x < 256)
    (hsum : storageWeight s.data < 2 ^ 64) : countSetBits s = storageWeight s.data := by
  have := countSetBits_fold s.data 0 hbytes (by omega)
  simpa [countSetBits] using this

theorem storageWeight_set :
    ∀ (data : List Nat) (k nb : Nat) (hk : k < data.length),
      storageWeight (data.set k nb) + popCount8 data[k] = storageWeight data + popCount8 nb := by
  intro data
  induction data with
  | nil => intro k nb hk; simp at hk
  | cons a t ih =>
    intro k nb hk
    cases k with
    | zero => simp [storageWeight]; omega
    | succ k =>
      have hk' : k < t.length := by simpa using hk
      have := ih k nb hk'
      simp only [storageWeight, List.set_cons_succ, List.map_cons, List.sum_cons,
        List.getElem_cons_succ] at this ⊢
      omega

theorem countSetBits_create (m : Nat) : countSetBits (create m) = 0 := by
  have h : ∀ (k c : Nat),
      (List.replicate k 0).foldl (fun count byte => countByteLoop byte byte count) c = c := by
    intro k
    induction k with
    | zero => intro c; rfl
    | succ k ih => intro c; rw [List.replicate_succ, List.foldl_cons]; exact ih _
  exact h _ 0

theorem set_true_weight {s : BitArray} {p : Nat} {F : Finset Nat} (hd : s.disposed = false)
    (hinv : StorageInv s) (hp : p < s.bits) (hbytes : ∀ x ∈ s.data, x < 256)
    (hbit : ∀ i, storageBit s.data i = decide (i ∈ F))
    (hweight : storageWeight s.data = F.card) :
    (∀ i, storageBit (set s p true).2.data i = decide (i ∈ insert p F)) ∧
    storageWeight (set s p true).2.data = (insert p F).card := by
  obtain ⟨_, _, _, _, h5, _⟩ := set_effect true hd hinv hp
  have hk : p / 8 < s.data.length := index_lt_of_inv hinv hp
  have hb : s.data[p / 8]? = some s.data[p / 8] := List.getElem?_eq_getElem hk
  have hbyte : s.data[p / 8].testBit (p % 8) = decide (p ∈ F) := by
    have := hbit p
    simpa [storageBit, List.getD_eq_getElem?_getD, hb] using this
  constructor
  · intro i
    rw [h5 i]
    by_cases hi : i = p
    · simp [hi]
    · simp [hi, hbit i]
  · rw [set_of_byte true hd hp hb]
    show storageWeight (s.data.set _ _) = _
    have hset := storageWeight_set s.data (p / 8) (setByte s.data[p / 8] (p % 8) true) hk
    have hpop := popCount8_setByte _ (hbytes _ (List.getElem_mem hk)) (p % 8)
      (Nat.mod_lt _ (by norm_num))
    rw [hbyte] at hpop
    by_cases hmem : p ∈ F
    · rw [Finset.insert_eq_of_mem hmem]
      simp only [hmem, decide_True, if_true] at hpop
      omega
    · rw [Finset.card_insert_of_not_mem hmem]
      simp only [hmem, decide_False, Bool.false_eq_true, if_false] at hpop
      omega

theorem fold_set_true_weight :
    ∀ (ps : List Nat) (s : BitArray) (F : Finset Nat), s.disposed = false → StorageInv s →
      (∀ p ∈ ps, p < s.bits) → (∀ x ∈ s.data, x < 256) →
      (∀ i, storageBit s.data i = decide (i ∈ F)) → storageWeight s.data = F.card →
      (∀ x ∈ (ps.foldl (fun st p => (set st p true).2) s).data, x < 256) ∧
      storageWeight (ps.foldl (fun st p => (set st p true).2) s).data
        = (F ∪ ps.toFinset).card := by
  intro ps
  induction ps with
  | nil => intro s F _ _ _ hbytes _ hweight; simpa using ⟨hbytes, hweight⟩
  | cons p t ih =>
    intro s F hd hinv hps hbytes hbit hweight
    have hp : p < s.bits := hps p (List.mem_cons_self _ _)
    obtain ⟨_, h2, h3, h4, _, h6⟩ := set_effect true hd hinv hp
    obtain ⟨hbit', hweight'⟩ := set_true_weight hd hinv hp hbytes hbit hweight
    obtain ⟨r1, r2⟩ := ih (set s p true).2 (insert p F) h3 h4
      (fun q hq => by rw [h2]; exact hps q (List.mem_cons_of_mem _ hq)) (h6 hbytes)
      hbit' hweight'
    refine ⟨r1, ?_⟩
    rw [List.foldl_cons, r2, List.toFinset_cons]
    congr 1
    ext x
    simp only [Finset.mem_union, Finset.mem_insert]
    tauto

/-- C13 fails as stated: `create(2^64 - 1)` has no storage (the byte count wraps to 0), so
`set(0, true)`, at a valid position, has no byte to write to and `countSetBits()` stays 0
although one position was given. -/
theorem countSetBits_wrapped_create :
    (0 : Nat) < 2 ^ 64 - 1 ∧
    (set (create (2 ^ 64 - 1)) 0 true).1 = .error .outOfBounds ∧
    countSetBits ([0].foldl (fun st p => (set st p true).2) (create (2 ^ 64 - 1))) = 0 ∧
    [0].dedup.length = 1 := by
  decide

/-- C13, amended: `countSetBits()` on `create(m)` is 0 for every size `m`; and for every
`n <= 2^64 - 8` and every list of positions all `< n`, after applying `set(p, true)` for each
`p` of the list to `create(n)`, `countSetBits()` is the number of distinct positions in the
list. -/
theorem countSetBits_contract (n : Nat) (positions : List Nat) (hn : n ≤ 2 ^ 64 - 8)
    (hpos : ∀ p ∈ positions, p < n) :
    (∀ m, countSetBits (create m) = 0) ∧
    countSetBits (positions.foldl (fun st p => (set st p true).2) (create n))
      = positions.dedup.length := by
  refine ⟨countSetBits_create, ?_⟩
  obtain ⟨hd, _, hinv, hz⟩ := cleanInv_create n hn
  have hbytes : ∀ x ∈ (create n).data, x < 256 := by
    intro x hx
    simp only [create] at hx
    rw [(List.mem_replicate.mp hx).2]
    norm_num
  have hbit : ∀ i, storageBit (create n).data i = decide (i ∈ (∅ : Finset Nat)) := by
    intro i
    simp only [storageBit, create, List.getD_eq_getElem?_getD, List.getElem?_replicate]
    split <;> simp
  have hweight : storageWeight (create n).data = (∅ : Finset Nat).card := by
    have : ∀ k, storageWeight (List.replicate k 0) = 0 := by
      intro k
      induction k with
      | zero => rfl
      | succ k ih =>
        simp only [storageWeight, List.replicate_succ, List.map_cons, List.sum_cons] at ih ⊢
        rw [ih]; rfl
    simp only [create, this, Finset.card_empty]
  obtain ⟨r1, r2⟩ := fold_set_true_weight positions (create n) ∅ hd hinv hpos hbytes hbit hweight
  rw [Finset.empty_union, List.card_toFinset] at r2
  have hle : positions.dedup.length ≤ n := by
    rw [← List.card_toFinset]
    have hsub : positions.toFinset ⊆ Finset.range n := by
      intro x hx
      rw [List.mem_toFinset] at hx
      exact Finset.mem_range.mpr (hpos x hx)
    simpa using Finset.card_le_card hsub
  rw [countSetBits_eq_weight r1 (by rw [r2]; omega), r2]

/-- C13, amended, at a concrete list: ten bits, positions `[3, 9, 3]`, two of them
distinct. -/
theorem countSetBits_contract_witness :
    (∀ m, countSetBits (create m) = 0) ∧
    countSetBits ([3, 9, 3].foldl (fun st p => (set st p true).2) (create 10))
      = [3, 9, 3].dedup.length :=
  countSetBits_contract 10 [3, 9, 3] (by decide) (by decide)

/-! ### The storage-length invariant -/

theorem storageInv_set {s : BitArray} (pos : Nat) (v : Bool) (h : StorageInv s) :
    StorageInv (set s pos v).2 := by
  rcases set_cases s pos v with he | ⟨b, _, _, he⟩
  · rw [he]; exact h
  · rw [he]
    simp only [StorageInv, List.length_set]
    exact h

theorem storageInv_setBatch (positions : List Nat) (v : Bool) :
    ∀ {s : BitArray}, StorageInv s → StorageInv (setBatch s positions v).2 := by
  induction positions with
  | nil => intro s h; exact h
  | cons p ps ih =>
    intro s h
    have hs := storageInv_set p v h
    unfold setBatch
    cases hr : set s p v with
    | mk r s' =>
      rw [hr] at hs
      cases r with
      | error e => exact hs
      | ok u => exact ih hs

theorem storageInv_setRangeLoop (v : Bool) (max : Nat) :
    ∀ (fuel i : Nat) (s : BitArray), StorageInv s →
      StorageInv (setRangeLoop v max fuel i s).2 := by
  intro fuel
  induction fuel with
  | zero =>
    intro i s h
    rw [setRangeLoop.eq_def]
    by_cases hle : i ≤ max
    · simp only [hle, if_true]; exact h
    · simp only [hle, if_false]; exact h
  | succ f ih =>
    intro i s h
    have hs := storageInv_set i v h
    rw [setRangeLoop.eq_def]
    by_cases hle : i ≤ max
    · simp only [hle, if_true]
      cases hr : set s i v with
      | mk r s' =>
        rw [hr] at hs
        cases r with
        | error e => exact hs
        | ok u => exact ih _ _ hs
    · simp only [hle, if_false]; exact h

theorem storageInv_setRange (min max : Nat) (v : Bool) {s : BitArray} (h : StorageInv s) :
    StorageInv (setRange s min max v).2 := by
  unfold setRange
  cases validate s min with
  | error e => exact h
  | ok u =>
    cases validate s max with
    | error e => exact h
    | ok u => exact storageInv_setRangeLoop v max _ _ _ h

theorem storageInv_resize {s : BitArray} (newSize : Nat) (h : StorageInv s)
    (hsize : newSize ≤ 2 ^ 64 - 8) : StorageInv (resize s newSize).2 := by
  cases hv : validate s 0 with
  | error e =>
    have : resize s newSize = (.error e, s) := by simp [resize, hv]
    rw [this]; exact h
  | ok u =>
    have hmod : (newSize + 7) % 2 ^ 64 = newSize + 7 := Nat.mod_eq_of_lt (by omega)
    rw [resize_of_valid hv, hmod]
    simp only [StorageInv, List.length_append, List.length_take, List.length_drop,
      List.length_replicate]
    omega

theorem bitwiseOpLoop_length (op : Nat → Nat → Nat) (other : List Nat) :
    ∀ (n i : Nat) (data : List Nat),
      (bitwiseOpLoop op other n i data).2.length = data.length := by
  intro n
  induction n with
  | zero => intro i data; rfl
  | succ n ih =>
    intro i data
    unfold bitwiseOpLoop
    cases data[i]? with
    | none => rfl
    | some a =>
      cases other[i]? with
      | none => rfl
      | some b =>
        simp only
        rw [ih, List.length_set]

theorem storageInv_bitwiseOp (op : Nat → Nat → Nat) {s : BitArray} (other : BitArray)
    (h : StorageInv s) : StorageInv (bitwiseOp s other op).2 := by
  unfold bitwiseOp
  by_cases hb : s.bits ≠ other.bits
  · rw [if_pos hb]; exact h
  · rw [if_neg hb]
    simp only [StorageInv, bitwiseOpLoop_length]
    exact h

theorem bitwiseNot_length (s : BitArray) :
    (bitwiseNot s).2.data.length = s.data.length ∧ (bitwiseNot s).2.bits = s.bits := by
  unfold bitwiseNot
  by_cases hk : s.bits % 8 > 0
  · simp only [hk, if_true]
    cases (s.data.map (fun b => intNot b % 256))[((s.data.map
        (fun b => intNot b % 256)).length + 2 ^ 64 - 1) % 2 ^ 64]? with
    | none => simp
    | some b => simp
  · simp only [hk, if_false]
    simp

theorem storageInv_bitwiseNot {s : BitArray} (h : StorageInv s) :
    StorageInv (bitwiseNot s).2 := by
  obtain ⟨h1, h2⟩ := bitwiseNot_length s
  unfold StorageInv at h ⊢
  rw [h1, h2]; exact h

/-- C21 fails as stated: a live vector of eight bits and one byte satisfies the storage-length
invariant, `resize(2^64 - 1)` succeeds on it, and afterwards the storage is empty although
`bits` is `2^64 - 1`. -/
theorem resize_breaks_storage_length :
    StorageInv ⟨[1], 8, false⟩ ∧
    (resize ⟨[1], 8, false⟩ (2 ^ 64 - 1)).1 = .ok () ∧
    ¬ StorageInv (resize ⟨[1], 8, false⟩ (2 ^ 64 - 1)).2 := by
  decide

/-- C21, amended: the storage-length invariant `storage.length == ceil(bits / 8)` holds after
`create(n)` for `n <= 2^64 - 8` and is preserved by every call, successful or failing, of
`set`, `setBatch`, `setRange`, `bitwiseAnd`, `bitwiseOr`, `bitwiseXor`, `bitwiseNot` and
`dispose`, and of `resize(newSize)` with `newSize <= 2^64 - 8`. -/
theorem storage_length_invariant (s other : BitArray) (h : StorageInv s) :
    (∀ n, n ≤ 2 ^ 64 - 8 → StorageInv (create n)) ∧
    (∀ pos v, StorageInv (set s pos v).2) ∧
    (∀ positions v, StorageInv (setBatch s positions v).2) ∧
    (∀ min max v, StorageInv (setRange s min max v).2) ∧
    (∀ newSize, newSize ≤ 2 ^ 64 - 8 → StorageInv (resize s newSize).2) ∧
    StorageInv (bitwiseAnd s other).2 ∧
    StorageInv (bitwiseOr s other).2 ∧
    StorageInv (bitwiseXor s other).2 ∧
    StorageInv (bitwiseNot s).2 ∧
    StorageInv (dispose s) :=
  ⟨fun n hn => (cleanInv_create n hn).2.2.1,
   fun pos v => storageInv_set pos v h,
   fun positions v => storageInv_setBatch positions v h,
   fun min max v => storageInv_setRange min max v h,
   fun newSize hsize => storageInv_resize newSize h hsize,
   storageInv_bitwiseOp _ other h,
   storageInv_bitwiseOp _ other h,
   storageInv_bitwiseOp _ other h,
   storageInv_bitwiseNot h,
   show ([] : List Nat).length = (0 + 7) / 8 from rfl⟩

/-- C21, amended, at a concrete vector: ten bits with storage `[8, 2]`, against an operand of
nine bits. -/
theorem storage_length_invariant_witness :
    StorageInv (create 10) ∧
    StorageInv (set ⟨[8, 2], 10, false⟩ 12 true).2 ∧
    StorageInv (setBatch ⟨[8, 2], 10, false⟩ [1, 12, 2] true).2 ∧
    StorageInv (resize ⟨[8, 2], 10, false⟩ 3).2 ∧
    StorageInv (bitwiseOr ⟨[8, 2], 10, false⟩ ⟨[0, 0], 9, false⟩).2 ∧
    StorageInv (bitwiseNot ⟨[8, 2], 10, false⟩).2 :=
  have h := storage_length_invariant ⟨[8, 2], 10, false⟩ ⟨[0, 0], 9, false⟩ (by decide)
  ⟨h.1 10 (by decide), h.2.1 12 true, h.2.2.1 [1, 12, 2] true, h.2.2.2.2.1 3 (by decide),
   h.2.2.2.2.2.2.1, h.2.2.2.2.2.2.2.2.1⟩

/-! ### The trailing-bits-zero invariant -/

theorem trailingZero_iff_noBitBeyond {s : BitArray} (hinv : StorageInv s) :
    TrailingZero s ↔ NoBitBeyond s := by
  unfold StorageInv at hinv
  constructor
  · intro h i hi
    by_cases hlt : i / 8 < s.data.length
    · have hk : s.bits % 8 ≠ 0 := by omega
      have hlast : i / 8 = s.data.length - 1 := by omega
      have hb : s.data.getLast? = some s.data[i / 8] := by
        rw [List.getLast?_eq_getElem?, ← hlast, List.getElem?_eq_getElem hlt]
      have := h hk _ hb (i % 8) (Nat.mod_lt _ (by norm_num)) (by omega)
      simpa [storageBit, List.getD_eq_getElem?_getD, List.getElem?_eq_getElem hlt] using this
    · exact storageBit_of_length_le (Nat.le_of_not_lt hlt)
  · intro h hk b hb off hoff hle
    have hb' : s.data[s.data.length - 1]? = some b := by
      rw [← List.getLast?_eq_getElem?]; exact hb
    have hlen : 1 ≤ s.data.length := by omega
    have := h (8 * (s.data.length - 1) + off) (by omega)
    have hdiv : (8 * (s.data.length - 1) + off) / 8 = s.data.length - 1 := by omega
    have hmod : (8 * (s.data.length - 1) + off) % 8 = off := by omega
    simpa [storageBit, List.getD_eq_getElem?_getD, hdiv, hmod, hb'] using this

theorem noBitBeyond_set {s : BitArray} (pos : Nat) (v : Bool) (hinv : StorageInv s)
    (h : NoBitBeyond s) : NoBitBeyond (set s pos v).2 := by
  rcases set_cases s pos v with he | ⟨b, hpos, hb, he⟩
  · rw [he]; exact h
  · have hk : pos / 8 < s.data.length := index_lt_of_inv hinv hpos
    rw [he]
    intro i hi
    simp only at hi
    show storageBit (s.data.set (pos / 8) (setByte b (pos % 8) v)) i = false
    rw [storageBit_set _ _ _ _ hk]
    split
    · next hsame =>
      have hoff : pos % 8 ≠ i % 8 := by omega
      rw [testBit_setByte b _ _ v (Nat.mod_lt _ (by norm_num)) (Nat.mod_lt _ (by norm_num)),
        if_neg hoff]
      have := h i hi
      simp only [storageBit, List.getD_eq_getElem?_getD, hsame, hb] at this
      simpa using this
    · exact h i hi

theorem trailingZero_set {s : BitArray} (pos : Nat) (v : Bool) (hinv : StorageInv s)
    (h : TrailingZero s) : TrailingZero (set s pos v).2 :=
  (trailingZero_iff_noBitBeyond (storageInv_set pos v hinv)).mpr
    (noBitBeyond_set pos v hinv ((trailingZero_iff_noBitBeyond hinv).mp h))

theorem trailingZero_setBatch (positions : List Nat) (v : Bool) :
    ∀ {s : BitArray}, StorageInv s → TrailingZero s →
      TrailingZero (setBatch s positions v).2 := by
  induction positions with
  | nil => intro s _ h; exact h
  | cons p ps ih =>
    intro s hinv h
    have hs := trailingZero_set p v hinv h
    have hi := storageInv_set p v hinv
    unfold setBatch
    cases hr : set s p v with
    | mk r s' =>
      rw [hr] at hs hi
      cases r with
      | error e => exact hs
      | ok u => exact ih hi hs

theorem trailingZero_setRangeLoop (v : Bool) (max : Nat) :
    ∀ (fuel i : Nat) (s : BitArray), StorageInv s → TrailingZero s →
      TrailingZero (setRangeLoop v max fuel i s).2 := by
  intro fuel
  induction fuel with
  | zero =>
    intro i s _ h
    rw [setRangeLoop.eq_def]
    by_cases hle : i ≤ max
    · simp only [hle, if_true]; exact h
    · simp only [hle, if_false]; exact h
  | succ f ih =>
    intro i s hinv h
    have hs := trailingZero_set i v hinv h
    have hi := storageInv_set i v hinv
    rw [setRangeLoop.eq_def]
    by_cases hle : i ≤ max
    · simp only [hle, if_true]
      cases hr : set s i v with
      | mk r s' =>
        rw [hr] at hs hi
        cases r with
        | error e => exact hs
        | ok u => exact ih _ _ hi hs
    · simp only [hle, if_false]; exact h

theorem trailingZero_setRange (min max : Nat) (v : Bool) {s : BitArray} (hinv : StorageInv s)
    (h : TrailingZero s) : TrailingZero (setRange s min max v).2 := by
  unfold setRange
  cases validate s min with
  | error e => exact h
  | ok u =>
    cases validate s max with
    | error e => exact h
    | ok u => exact trailingZero_setRangeLoop v max _ _ _ hinv h

theorem trailingZero_create (n : Nat) : TrailingZero (create n) := by
  intro _ b hb off _ _
  have hmem : b ∈ (create n).data := List.mem_of_mem_getLast? hb
  simp only [create] at hmem
  rw [(List.mem_replicate.mp hmem).2]
  exact Nat.zero_testBit off

theorem trailingZero_resize {s : BitArray} (newSize : Nat) (hinv : StorageInv s)
    (h : TrailingZero s) (hge : s.bits ≤ newSize) (hsize : newSize < 2 ^ 64) :
    TrailingZero (resize s newSize).2 := by
  cases hv : validate s 0 with
  | error e =>
    have : resize s newSize = (.error e, s) := by simp [resize, hv]
    rw [this]; exact h
  | ok u =>
    by_cases hwrap : newSize ≤ 2 ^ 64 - 8
    · have hnew : StorageInv (resize s newSize).2 := storageInv_resize newSize hinv hwrap
      rw [trailingZero_iff_noBitBeyond hnew]
      have hold := (trailingZero_iff_noBitBeyond hinv).mp h
      have hmod : (newSize + 7) % 2 ^ 64 = newSize + 7 := Nat.mod_eq_of_lt (by omega)
      have hle : s.data.length ≤ (newSize + 7) / 8 := by unfold StorageInv at hinv; omega
      rw [resize_of_valid hv, hmod, Nat.min_eq_left hle, List.take_length]
      intro i hi
      simp only at hi
      show storageBit (s.data ++ List.drop _ (List.replicate _ 0)) i = false
      rw [List.drop_replicate, storageBit_append_zeros]
      exact hold i (Nat.le_trans hge hi)
    · have hzero : (newSize + 7) % 2 ^ 64 / 8 = 0 := by omega
      rw [resize_of_valid hv, hzero]
      intro _ b hb
      simp at hb

theorem bitwiseOpLoop_get (op : Nat → Nat → Nat) (other : List Nat) :
    ∀ (n i : Nat) (data : List Nat) (j : Nat),
      (j < i → (bitwiseOpLoop op other n i data).2[j]? = data[j]?) ∧
      ((bitwiseOpLoop op other n i data).2[j]? = data[j]? ∨
        ∃ x y, data[j]? = some x ∧
          (bitwiseOpLoop op other n i data).2[j]? = some (op x y % 256)) := by
  intro n
  induction n with
  | zero => intro i data j; exact ⟨fun _ => rfl, Or.inl rfl⟩
  | succ n ih =>
    intro i data j
    unfold bitwiseOpLoop
    cases ha : data[i]? with
    | none => exact ⟨fun _ => rfl, Or.inl rfl⟩
    | some a =>
      cases hb : other[i]? with
      | none => exact ⟨fun _ => rfl, Or.inl rfl⟩
      | some b =>
        simp only
        obtain ⟨ih1, ih2⟩ := ih (i + 1) (data.set i (op a b % 256)) j
        have hi : i < data.length := by
          by_contra hge
          rw [List.getElem?_eq_none (Nat.le_of_not_lt hge)] at ha
          exact Option.noConfusion ha
        by_cases hj : j = i
        · subst hj
          have hres := ih1 (Nat.lt_succ_self j)
          rw [List.getElem?_set_self hi] at hres
          refine ⟨fun h => absurd h (Nat.lt_irrefl j), Or.inr ⟨a, b, ha, hres⟩⟩
        · have hne : i ≠ j := fun e => hj e.symm
          rw [List.getElem?_set_ne hne] at ih1 ih2
          exact ⟨fun h => ih1 (Nat.lt_succ_of_lt h), ih2⟩

theorem trailingZero_bitwiseAnd {a : BitArray} (b : BitArray) (h : TrailingZero a) :
    TrailingZero (bitwiseAnd a b).2 := by
  unfold bitwiseAnd bitwiseOp
  by_cases hb : a.bits ≠ b.bits
  · rw [if_pos hb]; exact h
  · rw [if_neg hb]
    intro hk x hx off hoff hle
    simp only at hk hx
    have hx' : (bitwiseOpLoop (fun a b => a &&& b) b.data a.data.length 0 a.data).2[
        a.data.length - 1]? = some x := by
      have := List.getLast?_eq_getElem?
        (bitwiseOpLoop (fun a b => a &&& b) b.data a.data.length 0 a.data).2
      rw [bitwiseOpLoop_length] at this
      rw [← this]; exact hx
    have hlast : ∀ y, a.data[a.data.length - 1]? = some y → y.testBit off = false := by
      intro y hy
      exact h hk y (by rw [List.getLast?_eq_getElem?]; exact hy) off hoff hle
    rcases (bitwiseOpLoop_get (fun a b => a &&& b) b.data a.data.length 0 a.data
      (a.data.length - 1)).2 with hsame | ⟨y, z, hy, hres⟩
    · rw [hsame] at hx'
      exact hlast x hx'
    · rw [hres] at hx'
      rw [← Option.some.inj hx', testBit_mod_256 _ _ hoff, Nat.testBit_and, hlast y hy]
      rfl

theorem trailingZero_bitwiseOp (op : Nat → Nat → Nat) (bop : Bool → Bool → Bool)
    (hop : ∀ x y j, j < 8 → (op x y % 256).testBit j = bop (x.testBit j) (y.testBit j))
    (hff : bop false false = false) {a b : BitArray} (ha : StorageInv a) (hb : StorageInv b)
    (hza : TrailingZero a) (hzb : TrailingZero b) : TrailingZero (bitwiseOp a b op).2 := by
  by_cases hbits : a.bits = b.bits
  · rw [trailingZero_iff_noBitBeyond (storageInv_bitwiseOp op b ha)]
    have hna := (trailingZero_iff_noBitBeyond ha).mp hza
    have hnb := (trailingZero_iff_noBitBeyond hb).mp hzb
    obtain ⟨hbit, _⟩ := bitwiseOp_storageBit op bop hop hbits ha hb
    obtain ⟨_, h2, _, _, _⟩ := bitwiseOp_spec op a b hbits ha hb
    intro i hi
    rw [h2] at hi
    rw [hbit i]
    split
    · rw [hna i hi, hnb i (hbits ▸ hi), hff]
    · rfl
  · rw [(bitwiseOp_sizeMismatch_iff op a b).2 hbits]
    exact hza

theorem trailingZero_bitwiseNot (s : BitArray) (hlen : s.data.length < 2 ^ 64) :
    TrailingZero (bitwiseNot s).2 := by
  obtain ⟨hl, hbits⟩ := bitwiseNot_length s
  intro hk b hb off _ hle
  rw [hbits] at hk hle
  have hpos : s.bits % 8 > 0 := Nat.pos_of_ne_zero hk
  have hne : s.data.length ≠ 0 := by
    intro h0
    have hnil : (bitwiseNot s).2.data = [] := List.length_eq_zero.mp (by rw [hl]; exact h0)
    rw [hnil] at hb
    simp at hb
  have hlast : (s.data.length + 2 ^ 64 - 1) % 2 ^ 64 = s.data.length - 1 := by omega
  have hlt : s.data.length - 1 < (s.data.map (fun b => intNot b % 256)).length := by
    rw [List.length_map]; omega
  have hform : (bitwiseNot s).2.data
      = (s.data.map (fun b => intNot b % 256)).set (s.data.length - 1)
          (((s.data.map (fun b => intNot b % 256))[s.data.length - 1] &&&
            ((1 <<< (s.bits % 8)) - 1)) % 256) := by
    unfold bitwiseNot
    simp only [hpos, if_true, List.length_map, hlast, List.getElem?_eq_getElem hlt]
  have hb' : (bitwiseNot s).2.data.getLast? = some b := hb
  rw [hform, List.getLast?_eq_getElem?, List.length_set, List.length_map,
    List.getElem?_set_self (by rw [List.length_map]; omega)] at hb'
  rw [← Option.some.inj hb', testBit_mask]
  have : ¬ off < s.bits % 8 := by omega
  simp [this]

/-- C24 fails as stated: `deserialize` accepts a text of twelve bits and one byte; the
instance it returns satisfies the trailing-bits-zero invariant (its last byte is 0 and
`12 % 8 = 4`), and `set(5, true)`, at a valid position, sets bit 5 of that last byte. -/
theorem set_breaks_trailing_zero :
    deserialize "\x7b\"bits\":12,\"data\":[0]\x7d".toList = .ok ⟨[0], 12, false⟩ ∧
    TrailingZero ⟨[0], 12, false⟩ ∧
    set ⟨[0], 12, false⟩ 5 true = (.ok (), ⟨[32], 12, false⟩) ∧
    ¬ TrailingZero ⟨[32], 12, false⟩ := by
  decide

/-- C24, amended: the trailing-bits-zero invariant (when `bits % 8 != 0`, every bit of the
last storage byte at offset `>= bits % 8` is 0) holds after `create`; on a vector whose
storage has `ceil(bits / 8)` bytes it is preserved by `set`, `setBatch`, `setRange`, by every
`resize` with `newSize >= bits`, and by `bitwiseOr` / `bitwiseXor` when the other operand has
`ceil(bits / 8)` bytes and satisfies the invariant as well; it is preserved by `bitwiseAnd`
with any operand; and `bitwiseNot` establishes it whatever the state was. -/
theorem trailing_zero_invariant (s other : BitArray) (hinv : StorageInv s)
    (hz : TrailingZero s) :
    (∀ n, TrailingZero (create n)) ∧
    (∀ pos v, TrailingZero (set s pos v).2) ∧
    (∀ positions v, TrailingZero (setBatch s positions v).2) ∧
    (∀ min max v, TrailingZero (setRange s min max v).2) ∧
    TrailingZero (bitwiseAnd s other).2 ∧
    (StorageInv other → TrailingZero other →
      TrailingZero (bitwiseOr s other).2 ∧ TrailingZero (bitwiseXor s other).2) ∧
    (∀ newSize, s.bits ≤ newSize → newSize < 2 ^ 64 → TrailingZero (resize s newSize).2) ∧
    (∀ t : BitArray, t.data.length < 2 ^ 64 → TrailingZero (bitwiseNot t).2) :=
  ⟨trailingZero_create,
   fun pos v => trailingZero_set pos v hinv hz,
   fun positions v => trailingZero_setBatch positions v hinv hz,
   fun min max v => trailingZero_setRange min max v hinv hz,
   trailingZero_bitwiseAnd other hz,
   fun ho hzo =>
    ⟨trailingZero_bitwiseOp _ (fun p q => p || q)
        (fun x y j hj => by simp only [testBit_mod_256 _ j hj, Nat.testBit_or]) rfl
        hinv ho hz hzo,
      trailingZero_bitwiseOp _ (fun p q => Bool.xor p q)
        (fun x y j hj => by simp only [testBit_mod_256 _ j hj, Nat.testBit_xor]) rfl
        hinv ho hz hzo⟩,
   fun newSize hge hsize => trailingZero_resize newSize hinv hz hge hsize,
   trailingZero_bitwiseNot⟩

/-- C24, amended, at a concrete vector: ten bits with storage `[8, 2]`, an operand with storage
`[255, 1]`, and `bitwiseNot` on a vector whose trailing bits are set. -/
theorem trailing_zero_invariant_witness :
    TrailingZero (create 10) ∧
    TrailingZero (set ⟨[8, 2], 10, false⟩ 9 false).2 ∧
    TrailingZero (bitwiseAnd ⟨[8, 2], 10, false⟩ ⟨[255, 1], 10, false⟩).2 ∧
    (TrailingZero (bitwiseOr ⟨[8, 2], 10, false⟩ ⟨[255, 1], 10, false⟩).2 ∧
      TrailingZero (bitwiseXor ⟨[8, 2], 10, false⟩ ⟨[255, 1], 10, false⟩).2) ∧
    TrailingZero (resize ⟨[8, 2], 10, false⟩ 13).2 ∧
    TrailingZero (bitwiseNot ⟨[0, 128], 12, false⟩).2 :=
  have h := trailing_zero_invariant ⟨[8, 2], 10, false⟩ ⟨[255, 1], 10, false⟩
    (by decide) (by decide)
  ⟨h.1 10, h.2.1 9 false, h.2.2.2.2.1, h.2.2.2.2.2.1 (by decide) (by decide),
   h.2.2.2.2.2.2.1 13 (by decide) (by decide),
   h.2.2.2.2.2.2.2 ⟨[0, 128], 12, false⟩ (by decide)⟩

/-! ### `setRange` is all-or-nothing; index safety -/

theorem validate_ok_iff {s : BitArray} {pos : Nat} :
    validate s pos = .ok () ↔ (s.disposed = false ∧ pos < s.bits) := by
  unfold validate
  cases hd : s.disposed
  · by_cases hp : pos ≥ s.bits
    · simp [hp]
    · simp [hp]; omega
  · simp

theorem validate_ne_outOfBounds (s : BitArray) (pos : Nat) :
    validate s pos ≠ .error .outOfBounds := by
  unfold validate
  split_ifs <;> simp

/-- C26: on a vector whose storage has `ceil(bits / 8)` bytes, for every `min`, `max` and `v`,
if `setRange(min, max, v)` fails then the vector is completely unchanged: both bounds are
validated before the first write, and once both are valid the call succeeds, no inner `set`
failing. -/
theorem setRange_all_or_nothing (s : BitArray) (min max : Nat) (v : Bool)
    (hinv : StorageInv s) (hw : s.bits < 2 ^ 64) :
    (∀ e, (setRange s min max v).1 = .error e → (setRange s min max v).2 = s) ∧
    (validate s min = .ok () → validate s max = .ok () →
      (setRange s min max v).1 = .ok ()) := by
  have hvalid : validate s min = .ok () → validate s max = .ok () →
      (setRange s min max v).1 = .ok () := by
    intro h1 h2
    obtain ⟨hd, hmin⟩ := validate_ok_iff.mp h1
    obtain ⟨_, hmax⟩ := validate_ok_iff.mp h2
    have hrun : setRange s min max v = setRangeLoop v max (max + 1 - min) min s := by
      simp only [setRange, h1, h2]
    rw [hrun]
    by_cases hle : min ≤ max
    · exact (setRangeLoop_valid v max s.bits hw hmax (max + 1 - min) min s hd hinv rfl
        (by omega)).1
    · have hfuel : max + 1 - min = 0 := by omega
      rw [hfuel, setRangeLoop.eq_def]
      simp only [hle, if_false]
  refine ⟨fun e he => ?_, hvalid⟩
  cases h1 : validate s min with
  | error e1 => simp [setRange, h1]
  | ok u1 =>
    cases h2 : validate s max with
    | error e2 => simp [setRange, h1, h2]
    | ok u2 =>
      rw [hvalid h1 h2] at he
      exact Except.noConfusion he

/-- C26, at a concrete vector: ten bits with storage `[8, 2]`, `setRange(2, 12, true)` fails
on its upper bound and `setRange(2, 8, true)` succeeds. -/
theorem setRange_all_or_nothing_witness :
    (setRange ⟨[8, 2], 10, false⟩ 2 12 true).2 = ⟨[8, 2], 10, false⟩ ∧
    (setRange ⟨[8, 2], 10, false⟩ 2 8 true).1 = .ok () :=
  ⟨(setRange_all_or_nothing ⟨[8, 2], 10, false⟩ 2 12 true (by decide) (by decide)).1
      (.outOfRange 12) (by decide),
   (setRange_all_or_nothing ⟨[8, 2], 10, false⟩ 2 8 true (by decide) (by decide)).2
      (by decide) (by decide)⟩

/-- C27: on a vector whose storage has `ceil(bits / 8)` bytes, every byte index the code uses
lies inside the storage it indexes: `pos / 8` in `get(pos)` and `set(pos, v)` once `pos` is
validated, `storage.length - 1` in `bitwiseNot` when `bits % 8 != 0`, and every index of
`bitwiseAnd/Or/Xor` into an `other` of equal `bits` that has `ceil(bits / 8)` bytes as well;
so none of these calls is an out-of-bounds access. -/
theorem index_safety (s other : BitArray) (pos : Nat) (v : Bool) (hinv : StorageInv s)
    (hw : s.bits < 2 ^ 64) :
    (validate s pos = .ok () → (getPos pos).1 < s.data.length) ∧
    get s pos ≠ .error .outOfBounds ∧
    (set s pos v).1 ≠ .error .outOfBounds ∧
    (s.bits % 8 ≠ 0 → (s.data.length + 2 ^ 64 - 1) % 2 ^ 64 < s.data.length) ∧
    (bitwiseNot s).1 = .ok () ∧
    (StorageInv other → s.bits = other.bits →
      (∀ i, i < s.data.length → i < other.data.length) ∧
      (bitwiseAnd s other).1 = .ok () ∧ (bitwiseOr s other).1 = .ok () ∧
      (bitwiseXor s other).1 = .ok ()) := by
  have hidx : validate s pos = .ok () → (getPos pos).1 < s.data.length := by
    intro hv
    exact index_lt_of_inv hinv (validate_ok_iff.mp hv).2
  refine ⟨hidx, ?_, ?_, fun hk => ?_, (bitwiseNot_spec hinv hw).1, fun ho hbits => ?_⟩
  · unfold get
    cases hv : validate s pos with
    | error e =>
      simp only [ne_eq, Except.error.injEq]
      intro he
      rw [he] at hv
      exact validate_ne_outOfBounds s pos hv
    | ok u =>
      simp only [List.getElem?_eq_getElem (hidx hv)]
      exact fun h => Except.noConfusion h
  · unfold set
    cases hv : validate s pos with
    | error e =>
      simp only [ne_eq, Except.error.injEq]
      intro he
      rw [he] at hv
      exact validate_ne_outOfBounds s pos hv
    | ok u =>
      simp only [List.getElem?_eq_getElem (hidx hv)]
      cases v <;> exact fun h => Except.noConfusion h
  · unfold StorageInv at hinv; omega
  · refine ⟨fun i hi => ?_, (bitwiseOp_spec _ s other hbits hinv ho).1,
      (bitwiseOp_spec _ s other hbits hinv ho).1, (bitwiseOp_spec _ s other hbits hinv ho).1⟩
    unfold StorageInv at hinv ho; omega

/-- C27, at concrete vectors: ten bits each, storage `[8, 2]` and `[255, 1]`, position 9. -/
theorem index_safety_witness :
    (getPos 9).1 < ([8, 2] : List Nat).length ∧
    ((10 : Nat) % 8 ≠ 0 → (([8, 2] : List Nat).length + 2 ^ 64 - 1) % 2 ^ 64
      < ([8, 2] : List Nat).length) ∧
    (bitwiseNot ⟨[8, 2], 10, false⟩).1 = .ok () ∧
    (bitwiseAnd ⟨[8, 2], 10, false⟩ ⟨[255, 1], 10, false⟩).1 = .ok () :=
  have h := index_safety ⟨[8, 2], 10, false⟩ ⟨[255, 1], 10, false⟩ 9 true
    (by decide) (by decide)
  ⟨h.1 (by decide), h.2.2.2.1, h.2.2.2.2.1, (h.2.2.2.2.2 (by decide) rfl).2.1⟩

/-! ### Inverted ranges and stray bits -/

/-- C23 fails on the code for `getRange`: on `create(10)` the inverted `setRange(5, 2, v)`
succeeds and changes nothing, and `getRange(3, 2)` returns the empty sequence, but
`getRange(5, 2)` throws: `result.reserve(max - min + 1)` computes `2^64 - 2` in `size_t`,
above `max_size()`.  In general, for a live vector and `max < min < bits`, `setRange` is a
successful no-op, and `getRange` returns the empty sequence only for `min = max + 1` and
fails with `std::length_error` otherwise. -/
theorem getRange_inverted_throws :
    (setRange (create 10) 5 2 true = (.ok (), create 10) ∧
      getRange (create 10) 3 2 = .ok [] ∧
      getRange (create 10) 5 2 = .error .lengthError) ∧
    (∀ (s : BitArray) (min max : Nat) (v : Bool), s.disposed = false → s.bits < 2 ^ 64 →
      min < s.bits → max < s.bits → max < min →
      setRange s min max v = (.ok (), s) ∧
      (min = max + 1 → getRange s min max = .ok []) ∧
      (max + 1 < min → min - max - 1 < 2 ^ 63 + 64 →
        getRange s min max = .error .lengthError)) := by
  refine ⟨by decide, fun s min max v hd hw hmin hmax hinv => ?_⟩
  have hv1 := validate_ok hd hmin
  have hv2 := validate_ok hd hmax
  have hfuel : max + 1 - min = 0 := by omega
  have hle : ¬ min ≤ max := by omega
  refine ⟨?_, fun heq => ?_, fun hgt hsmall => ?_⟩
  · simp only [setRange, hv1, hv2, hfuel]
    rw [setRangeLoop.eq_def]
    simp only [hle, if_false]
  · have hcount : ((max + 2 ^ 64 - min) % 2 ^ 64 + 1) % 2 ^ 64 = 0 := by omega
    simp only [getRange, hv1, hv2, hcount, hfuel]
    rw [getRangeLoop.eq_def]
    simp [hle, vectorBoolMaxSize]
  · have hcount : ((max + 2 ^ 64 - min) % 2 ^ 64 + 1) % 2 ^ 64 > vectorBoolMaxSize := by
      unfold vectorBoolMaxSize; omega
    simp only [getRange, hv1, hv2, hcount, if_true]

/-- C25: a shrinking `resize` does not re-mask the surviving last byte and `countSetBits`
counts the stray bit: `create(16)`, `set(15, true)`, `resize(12)` leaves the storage
`[0, 128]` with `bits = 12`; no position `i < 12` has `get(i)` true, yet `countSetBits()`
is 1. -/
theorem shrink_leaves_stray_bit :
    (set (create 16) 15 true).1 = .ok () ∧
    resize (set (create 16) 15 true).2 12 = (.ok (), ⟨[0, 128], 12, false⟩) ∧
    (∀ i, i < 12 → get (resize (set (create 16) 15 true).2 12).2 i = .ok false) ∧
    countSetBits (resize (set (create 16) 15 true).2 12).2 = 1 ∧
    ((List.range 12).filter (fun i =>
        decide (get (resize (set (create 16) 15 true).2 12).2 i = .ok true))).length
      < countSetBits (resize (set (create 16) 15 true).2 12).2 := by
  decide

/-! ### What `deserialize` rejects -/

theorem deserialize_fields (dn dt : List Char)
    (hdn : ∀ c ∈ dn, c ≠ ',' ∧ c ≠ Char.ofNat 34) (hdtb : ∀ c ∈ dt, c ≠ ']')
    (hlen : (bitsKey ++ (dn ++ (dataKey ++ (dt ++ closing)))).length < 2 ^ 64 - 1) :
    deserialize (bitsKey ++ (dn ++ (dataKey ++ (dt ++ closing))))
      = match stoull dn with
        | .error e => .error e
        | .ok bits =>
          match parseLoop dt dt.length 0 [] with
          | .error e => .error e
          | .ok dataVec => .ok { create bits with data := dataVec } := by
  have hp1 : "\"bits\":".toList = Char.ofNat 34 :: ['b', 'i', 't', 's', Char.ofNat 34, ':'] := by
    decide
  have hp2 : "\"data\":[".toList
      = Char.ofNat 34 :: ['d', 'a', 't', 'a', Char.ofNat 34, ':', '['] := by decide
  have hpc : ",".toList = [','] := by decide
  have hpb : "]".toList = [']'] := by decide
  have hL : (bitsKey ++ (dn ++ (dataKey ++ (dt ++ closing)))).length
      = 8 + dn.length + 9 + dt.length + 2 := by
    simp only [List.length_append, bitsKey, dataKey, closing, List.length_cons, List.length_nil]
    omega
  rw [hL] at hlen
  have hdnc : ∀ a ∈ dn, a ≠ ',' := fun a ha => (hdn a ha).1
  have hdnq : ∀ a ∈ dn ++ [','], a ≠ Char.ofNat 34 := by
    intro a ha
    rw [List.mem_append, List.mem_singleton] at ha
    rcases ha with ha | ha
    · exact (hdn a ha).2
    · rw [ha]; decide
  -- the key `"bits":` is found at index 1
  have h1 : find (bitsKey ++ (dn ++ (dataKey ++ (dt ++ closing)))) "\"bits\":".toList 0 = 1 := by
    apply find_of_findFrom (Nat.zero_le _)
    rw [hp1, List.drop_zero]
    show findFrom _ ([Char.ofNat 123] ++ ((Char.ofNat 34 ::
      ['b', 'i', 't', 's', Char.ofNat 34, ':']) ++ (dn ++ (dataKey ++ (dt ++ closing))))) 0 = _
    rw [findFrom_skip _ _ _ _ _ (by decide)]
    exact findFrom_here _ _ _
  -- the first comma from index 8 on ends the digits of the bit count
  have h2 : find (bitsKey ++ (dn ++ (dataKey ++ (dt ++ closing)))) [','] 8
      = 8 + dn.length := by
    apply find_of_findFrom (by rw [hL]; omega)
    rw [List.drop_left' (by rfl)]
    show findFrom _ (dn ++ ([','] ++ _)) 8 = _
    rw [findFrom_skip ',' [] dn _ _ hdnc]
    exact findFrom_here [','] _ _
  -- the key `"data":[` is found right after that comma
  have h3 : find (bitsKey ++ (dn ++ (dataKey ++ (dt ++ closing)))) "\"data\":[".toList 0
      = 8 + dn.length + 1 := by
    apply find_of_findFrom (Nat.zero_le _)
    rw [List.drop_zero, findFrom_dataKey_skip_bitsKey, hp2]
    have hsplit : dn ++ (dataKey ++ (dt ++ closing))
        = (dn ++ [',']) ++ ((Char.ofNat 34 :: ['d', 'a', 't', 'a', Char.ofNat 34, ':', '['])
          ++ (dt ++ closing)) := by
      simp [dataKey]
    rw [hsplit, findFrom_skip _ _ _ _ _ hdnq, findFrom_here]
    simp only [List.length_append, List.length_cons, List.length_nil]
    congr 1
  -- the first closing bracket from there on ends the byte list
  have h4 : find (bitsKey ++ (dn ++ (dataKey ++ (dt ++ closing)))) [']']
      (8 + dn.length + 1 + 8) = 8 + dn.length + 1 + 8 + dt.length := by
    apply find_of_findFrom (by rw [hL]; omega)
    have hsplit : bitsKey ++ (dn ++ (dataKey ++ (dt ++ closing)))
        = (bitsKey ++ dn ++ dataKey) ++ (dt ++ closing) := by simp
    rw [hsplit, List.drop_left' (by
      simp only [List.length_append, bitsKey, dataKey, List.length_cons, List.length_nil])]
    show findFrom _ (dt ++ ([']'] ++ _)) _ = _
    rw [findFrom_skip ']' [] dt _ _ hdtb]
    exact findFrom_here [']'] _ _
  have hs1 : substr (bitsKey ++ (dn ++ (dataKey ++ (dt ++ closing)))) 8 dn.length
      = .ok dn := by
    have hle : ¬(8 > (bitsKey ++ (dn ++ (dataKey ++ (dt ++ closing)))).length) := by
      rw [hL]; omega
    simp only [substr, hle, if_false]
    rw [List.drop_left' (by rfl), List.take_left]
  have hs2 : substr (bitsKey ++ (dn ++ (dataKey ++ (dt ++ closing))))
      (8 + dn.length + 1 + 8) dt.length = .ok dt := by
    have hle : ¬(8 + dn.length + 1 + 8
        > (bitsKey ++ (dn ++ (dataKey ++ (dt ++ closing)))).length) := by
      rw [hL]; omega
    have hsplit : bitsKey ++ (dn ++ (dataKey ++ (dt ++ closing)))
        = (bitsKey ++ dn ++ dataKey) ++ (dt ++ closing) := by simp
    simp only [substr, hle, if_false]
    rw [hsplit, List.drop_left' (by
      simp only [List.length_append, bitsKey, dataKey, List.length_cons, List.length_nil]), List.take_left]
  have e1 : (1 + 7) % 2 ^ 64 = 8 := by norm_num
  have e2 : (8 + dn.length + 2 ^ 64 - 8) % 2 ^ 64 = dn.length := by omega
  have e3 : (8 + dn.length + 1 + 8) % 2 ^ 64 = 8 + dn.length + 1 + 8 := by omega
  have e4 : (8 + dn.length + 1 + 8 + dt.length + 2 ^ 64 - (8 + dn.length + 1 + 8)) % 2 ^ 64
      = dt.length := by omega
  unfold deserialize
  simp only [h1, e1, hpc, h2, e2, hs1, h3, e3, hpb, h4, e4, hs2]

theorem parseLoop_step_error {dataStr str : List Char} {fuel pos commaPos : Nat} {e : Error}
    (acc : List Nat) (hpos : pos < dataStr.length)
    (hcomma : (if find dataStr [','] pos = npos then dataStr.length
      else find dataStr [','] pos) = commaPos)
    (hsub : substr dataStr pos ((commaPos + 2 ^ 64 - pos) % 2 ^ 64) = .ok str)
    (hv : stoul str = .error e) :
    parseLoop dataStr (fuel + 1) pos acc = .error e := by
  have hc : ",".toList = [','] := by decide
  rw [parseLoop]
  simp only [hpos, if_true, hc, hcomma, hsub, hv]

theorem bad_index_lt_length :
    ∀ (elems : List (List Char)) (i : Nat) (bad : List Char), elems[i]? = some bad →
      (i + 1 < elems.length ∨ bad ≠ []) → i + 1 ≤ (joinCommas elems).length := by
  intro elems
  induction elems with
  | nil => intro i bad h _; simp at h
  | cons e t ih =>
    intro i bad h hcond
    cases t with
    | nil =>
      cases i with
      | zero =>
        simp only [List.getElem?_cons_zero, Option.some.injEq] at h
        subst h
        rcases hcond with hc | hc
        · simp at hc
        · simp only [joinCommas]
          exact List.length_pos.mpr hc
      | succ i => simp at h
    | cons f r =>
      simp only [joinCommas, List.length_append, List.length_cons]
      cases i with
      | zero => omega
      | succ i =>
        simp only [List.getElem?_cons_succ] at h
        have := ih i bad h (by
          rcases hcond with hc | hc
          · left; simp only [List.length_cons] at hc ⊢; omega
          · right; exact hc)
        omega

theorem parseLoop_fails :
    ∀ (elems : List (List Char)) (i : Nat) (bad pre : List Char) (acc : List Nat) (fuel : Nat),
      (∀ e ∈ elems, ∀ c ∈ e, c ≠ ',') → elems[i]? = some bad →
      (∃ err, stoul bad = .error err) → (i + 1 < elems.length ∨ bad ≠ []) → i + 1 ≤ fuel →
      (pre ++ joinCommas elems).length + 1 < 2 ^ 64 →
      ∃ err, parseLoop (pre ++ joinCommas elems) fuel pre.length acc = .error err := by
  intro elems
  induction elems with
  | nil => intro i bad pre acc fuel _ h; simp at h
  | cons e t ih =>
    intro i bad pre acc fuel hchars hget hbad hcond hfuel hlen
    obtain ⟨f, rfl⟩ : ∃ f, fuel = f + 1 := ⟨fuel - 1, by omega⟩
    have hnocomma : ∀ a ∈ e, a ≠ ',' := hchars e (List.mem_cons_self _ _)
    cases t with
    | nil =>
      have hi : i = 0 := by
        cases i with
        | zero => rfl
        | succ i => simp at hget
      subst hi
      simp only [List.getElem?_cons_zero, Option.some.injEq] at hget
      subst hget
      have hne : e ≠ [] := by
        rcases hcond with hc | hc
        · simp at hc
        · exact hc
      have hepos : 0 < e.length := List.length_pos.mpr hne
      simp only [joinCommas] at hlen ⊢
      have hlen' : (pre ++ e).length = pre.length + e.length := by simp
      rw [hlen'] at hlen
      have hfind : find (pre ++ e) [','] pre.length = npos :=
        find_of_findFrom_none (by omega)
          (by rw [List.drop_left]; exact findFrom_none ',' [] _ _ hnocomma)
      have hsub : substr (pre ++ e) pre.length
          (((pre ++ e).length + 2 ^ 64 - pre.length) % 2 ^ 64) = .ok e := by
        have hk : ((pre ++ e).length + 2 ^ 64 - pre.length) % 2 ^ 64 = e.length := by
          rw [hlen']; omega
        rw [hk]
        simp [substr, List.drop_left]
      obtain ⟨err, herr⟩ := hbad
      exact ⟨err, parseLoop_step_error acc (by omega) (by rw [hfind]; simp) hsub herr⟩
    | cons g r =>
      have hS : pre ++ joinCommas (e :: g :: r) = (pre ++ e ++ [',']) ++ joinCommas (g :: r) := by
        simp [joinCommas]
      have hlenS : (pre ++ joinCommas (e :: g :: r)).length
          = pre.length + e.length + 1 + (joinCommas (g :: r)).length := by
        rw [hS]; simp only [List.length_append, List.length_cons, List.length_nil]
      rw [hlenS] at hlen
      have hfind : find (pre ++ joinCommas (e :: g :: r)) [','] pre.length
          = pre.length + e.length := by
        apply find_of_findFrom (by omega)
        rw [List.drop_left]
        simp only [joinCommas]
        rw [findFrom_skip ',' [] e _ _ hnocomma]
        exact findFrom_here [','] _ _
      have hnpos : pre.length + e.length ≠ npos := by unfold npos; omega
      have hsub : substr (pre ++ joinCommas (e :: g :: r)) pre.length
          ((pre.length + e.length + 2 ^ 64 - pre.length) % 2 ^ 64) = .ok e := by
        have hk : (pre.length + e.length + 2 ^ 64 - pre.length) % 2 ^ 64 = e.length := by omega
        rw [hk]
        have hle : ¬(pre.length > (pre ++ joinCommas (e :: g :: r)).length) := by
          rw [hlenS]; omega
        simp only [substr, hle, if_false, List.drop_left]
        simp only [joinCommas]
        rw [List.take_left]
      cases hv : stoul e with
      | error err =>
        exact ⟨err, parseLoop_step_error acc (by rw [hlenS]; omega)
          (by rw [hfind, if_neg hnpos]) hsub hv⟩
      | ok v =>
        obtain ⟨i', rfl⟩ : ∃ i', i = i' + 1 := by
          cases i with
          | zero =>
            simp only [List.getElem?_cons_zero, Option.some.injEq] at hget
            subst hget
            obtain ⟨err, herr⟩ := hbad
            rw [hv] at herr
            exact Except.noConfusion herr
          | succ i' => exact ⟨i', rfl⟩
        simp only [List.getElem?_cons_succ] at hget
        rw [parseLoop_step acc (by rw [hlenS]; omega) (by rw [hfind, if_neg hnpos]) hsub hv]
        have hnext : (pre.length + e.length + 1) % 2 ^ 64 = (pre ++ e ++ [',']).length := by
          simp only [List.length_append, List.length_cons, List.length_nil]
          omega
        rw [hnext, hS]
        exact ih i' bad (pre ++ e ++ [',']) _ f
          (fun x hx => hchars x (List.mem_cons_of_mem _ hx)) hget hbad
          (by
            rcases hcond with hc | hc
            · left; simp only [List.length_cons] at hc ⊢; omega
            · right; exact hc)
          (by omega) (by rw [← hS, hlenS]; exact hlen)

theorem stoull_no_digit (str : List Char)
    (h : ∀ c ∈ str.head?, isSpace c = false ∧ c ≠ '-' ∧ c ≠ '+' ∧ c.isDigit = false) :
    stoull str = .error .stoInvalid := by
  cases str with
  | nil => rfl
  | cons c t =>
    obtain ⟨h1, h2, h3, h4⟩ := h c (by simp)
    simp [stoull, List.dropWhile, h1, h2, h3, List.takeWhile, h4]

/-- C22 fails as stated: `deserialize` returns an instance for a text without the `"bits":`
key, for a text without the `"data":[` delimiter, for a bits field that is not a decimal
number and for a data element that is not one.  A key that is not found makes `find` return
`npos`, which the added offset wraps to a small index, and the number conversion stops at the
first character that is not a digit. -/
theorem deserialize_accepts_malformed :
    deserialize "xxxxxx12,\"data\":[1]\x7d".toList = .ok ⟨[1], 12, false⟩ ∧
    deserialize "\"bits\":5,6]".toList = .ok ⟨[5, 6], 5, false⟩ ∧
    deserialize "\x7b\"bits\":12abc,\"data\":[1]\x7d".toList = .ok ⟨[1], 12, false⟩ ∧
    deserialize "\x7b\"bits\":8,\"data\":[7x]\x7d".toList = .ok ⟨[7], 8, false⟩ := by
  decide

/-- C22, amended: for every text of the shape `{"bits":F,"data":[E1,...,Ek]}` (no comma or
double quote in `F`, no comma or closing bracket in the `Ei`), `deserialize` fails with an
error, and returns no instance, when the number conversion fails on `F`, or on some `Ei`
other than an empty last one: the field has no digit after optional white space and sign, or
its value does not fit 64 bits.  In particular it fails with `invalid_argument` when `F` is
empty or starts with a character that is no white space, sign or digit. -/
theorem deserialize_rejects (F : List Char) (elems : List (List Char))
    (hF : ∀ c ∈ F, c ≠ ',' ∧ c ≠ Char.ofNat 34)
    (hE : ∀ e ∈ elems, ∀ c ∈ e, c ≠ ',' ∧ c ≠ ']')
    (hlen : ("\x7b\"bits\":".toList ++ F ++ ",\"data\":[".toList ++ joinCommas elems
      ++ "]\x7d".toList).length < npos) :
    (∀ err, stoull F = .error err →
      deserialize ("\x7b\"bits\":".toList ++ F ++ ",\"data\":[".toList ++ joinCommas elems
        ++ "]\x7d".toList) = .error err) ∧
    (∀ (i : Nat) (bad : List Char), elems[i]? = some bad → (∃ err, stoul bad = .error err) →
      (i + 1 < elems.length ∨ bad ≠ []) →
      ∃ err, deserialize ("\x7b\"bits\":".toList ++ F ++ ",\"data\":[".toList
        ++ joinCommas elems ++ "]\x7d".toList) = .error err) ∧
    ((∀ c ∈ F.head?, isSpace c = false ∧ c ≠ '-' ∧ c ≠ '+' ∧ c.isDigit = false) →
      deserialize ("\x7b\"bits\":".toList ++ F ++ ",\"data\":[".toList ++ joinCommas elems
        ++ "]\x7d".toList) = .error .stoInvalid) := by
  have h1 : "\x7b\"bits\":".toList = bitsKey := by decide
  have h2 : ",\"data\":[".toList = dataKey := by decide
  have h3 : "]\x7d".toList = closing := by decide
  have hdt : ∀ c ∈ joinCommas elems, c ≠ ']' := by
    have : ∀ (l : List (List Char)), (∀ e ∈ l, ∀ c ∈ e, c ≠ ',' ∧ c ≠ ']') →
        ∀ c ∈ joinCommas l, c ≠ ']' := by
      intro l
      induction l with
      | nil => intro _ c hc; simp [joinCommas] at hc
      | cons e t ih =>
        intro hl c hc
        cases t with
        | nil =>
          simp only [joinCommas] at hc
          exact (hl e (List.mem_cons_self _ _) c hc).2
        | cons g r =>
          simp only [joinCommas, List.mem_append, List.mem_cons] at hc
          rcases hc with hc | hc | hc
          · exact (hl e (List.mem_cons_self _ _) c hc).2
          · rw [hc]; decide
          · exact ih (fun x hx => hl x (List.mem_cons_of_mem _ hx)) c hc
    exact this elems hE
  simp only [h1, h2, h3, List.append_assoc] at hlen ⊢
  have hfields := deserialize_fields F (joinCommas elems) hF hdt hlen
  refine ⟨?_, ?_, ?_⟩
  · intro err herr
    rw [hfields, herr]
  rotate_left
  · intro hhead
    rw [hfields, stoull_no_digit F hhead]
  · intro i bad hget hbad hcond
    cases hb : stoull F with
    | error err => exact ⟨err, by rw [hfields, hb]⟩
    | ok bits =>
      have hfuel := bad_index_lt_length elems i bad hget hcond
      obtain ⟨err, herr⟩ := parseLoop_fails elems i bad [] [] (joinCommas elems).length
        (fun e he c hc => (hE e he c hc).1) hget hbad hcond hfuel (by
          simp only [List.nil_append]
          simp only [List.length_append, npos] at hlen
          omega)
      simp only [List.nil_append, List.length_nil] at herr
      exact ⟨err, by rw [hfields, hb]; simp only [herr]⟩

/-- C22, amended, at concrete texts: `{"bits":x8,"data":[1]}` and `{"bits":8,"data":[1,x]}`. -/
theorem deserialize_rejects_witness :
    deserialize ("\x7b\"bits\":".toList ++ "x8".toList ++ ",\"data\":[".toList
      ++ joinCommas ["1".toList] ++ "]\x7d".toList) = .error .stoInvalid ∧
    (∃ err, deserialize ("\x7b\"bits\":".toList ++ "8".toList ++ ",\"data\":[".toList
      ++ joinCommas ["1".toList, "x".toList] ++ "]\x7d".toList) = .error err) :=
  ⟨(deserialize_rejects "x8".toList ["1".toList] (by decide) (by decide) (by decide)).1
      .stoInvalid (by decide),
   (deserialize_rejects "8".toList ["1".toList, "x".toList] (by decide) (by decide)
      (by decide)).2.1 1 "x".toList rfl ⟨.stoInvalid, by decide⟩ (Or.inr (by decide))⟩

end BitArrayNode
